import Mathlib

/-! # Modbus slave device: frame scanner, checksum engine and response builder

A shallow embedding of `modbus_driver.h`, `uart_driver.h` and the main loop of
`modbus_slave.c`.

* Bytes (`uint8_t`) are `Fin 256`; wider machine integers are `Nat` with the
  wrap-around written out where the C type can wrap.
* The global variables of the three files are the fields of `Machine`.  Three
  further fields are bookkeeping that the C program does not have: `wire` (the
  bytes written to the UART transmit register, in order), `rxReads` (every index
  at which the scanner read `uiRxBuff`, paired with `uiRxIndex` at that moment)
  and `fault` (the first departure of the program from defined behaviour: an
  array index outside its array, or a loop that can never exit).
* The program does not stop at a fault, and neither does the machine.  An access
  outside an array is an access to the memory at that address: a read of
  `uiModbusRegister[i]` with `i ≥ 10` returns a word of the field `outside`, of
  which nothing is assumed; a write to `uiTxBuff[i]` or `uiRxBuff[i]` with
  `100 ≤ i ≤ 255` is a write to the bytes that follow the array, which are taken
  to be used by nothing else.
* `while` and `for` loops whose exit depends on data carry an explicit iteration
  budget that every terminating run stays within.  A loop that uses up its budget
  has no exit: the main loop never gets control back, which is recorded in the
  field `hung`; interrupts are still served.
-/

set_option maxRecDepth 100000

namespace Modbus

/-- A `uint8_t`. -/
abbrev Byte := Fin 256

/-- The C cast `(uint8_t) n`. -/
def toByte (n : Nat) : Byte := ⟨n % 256, Nat.mod_lt n (by decide)⟩

/-! ## Constants of `modbus_driver.h` and `modbus_slave.c` -/

def DEVICE_ID : Byte := 0x01
def BUFFER_SIZE : Nat := 100
def PACKET_SIZE : Nat := 8
def READ_COMMAND : Byte := 0x03
def WRITE_COMMAND : Byte := 0x04
def MAXWAITCOUNT : Nat := 1000

/-- The register table `uiModbusRegister[]`. -/
def uiModbusRegister : List Nat :=
  [0x1122, 0x3344, 0x5566, 0x7788, 0x9900, 0xAABB, 0x1234, 0x4565, 0x5548, 0x9969]

/-- Ways in which the C program leaves defined behaviour. -/
inductive Fault where
  /-- `uiModbusRegister[i]` with `i` outside the table. -/
  | registerIndex (i : Nat)
  /-- `uiTxBuff[i]` with `i ≥ BUFFER_SIZE`. -/
  | txIndex (i : Nat)
  /-- `uiRxBuff[i]` written with `i ≥ BUFFER_SIZE`. -/
  | rxIndex (i : Nat)
  /-- `uiRxPacket[i]` with `i ≥ 6` in `MODBUS_VerifyChecksum`. -/
  | packetIndex (i : Nat)
  /-- A loop used up its iteration budget. -/
  | nonTermination
  deriving DecidableEq, Repr

/-! ## `MODBUS_GetCheckSum` -/

/-- Body of the inner loop of `MODBUS_GetCheckSum`: one shift of the 16-bit
register, with the constant `0xA001` XOR-ed in when the bit shifted out is 1.
A right shift and an XOR with a 16-bit constant keep a 16-bit value in range, so
no truncation is needed. -/
def crcShift (crc : Nat) : Nat :=
  if crc &&& 0x0001 ≠ 0 then (crc >>> 1) ^^^ 0xA001 else crc >>> 1

/-- The inner loop `for (int i = 8; i != 0; i--)`, with `i` the first argument. -/
def crcBits : Nat → Nat → Nat
  | 0, crc => crc
  | i + 1, crc => crcBits i (crcShift crc)

/-- Body of the outer loop: XOR the byte into the register, then the 8 shifts. -/
def crcByte (crc : Nat) (b : Byte) : Nat :=
  crcBits 8 (crc ^^^ b.val)

/-- `MODBUS_GetCheckSum(buf, len)`: the outer loop runs `pos` over `0 .. len-1`. -/
def MODBUS_GetCheckSum (buf : Nat → Byte) (len : Nat) : Nat :=
  (List.range len).foldl (fun crc pos => crcByte crc (buf pos)) 0xFFFF

/-! ## `MODBUS_VerifyChecksum` -/

/-- The copy loop of `MODBUS_VerifyChecksum`:
`for (uiCount = uiCheckIndex, uiIndex = 0; uiCount < uiCheckIndex + 6; uiCount++, uiIndex++)`.
Both counters are `uint8_t`; `uiRxPacket` has 6 entries. -/
def verifyCopy (rx : Nat → Byte) (bound : Nat) :
    Nat → Nat → Nat → (Nat → Byte) → Except Fault (Nat → Byte)
  | 0, _, _, _ => .error .nonTermination
  | fuel + 1, uiCount, uiIndex, pkt =>
    if uiCount < bound then
      if 6 ≤ uiIndex then .error (.packetIndex uiIndex)
      else
        verifyCopy rx bound fuel ((uiCount + 1) % 256) ((uiIndex + 1) % 256)
          (Function.update pkt uiIndex (rx uiCount))
    else .ok pkt

/-- `MODBUS_VerifyChecksum(uiCheckIndex, uiRxBuff)`. -/
def MODBUS_VerifyChecksum (uiCheckIndex : Nat) (rx : Nat → Byte) : Except Fault Bool :=
  let uiMasterCheckSum := (rx (uiCheckIndex + 7)).val
  let uiMasterCheckSum := (uiMasterCheckSum <<< 8) % 65536
  let uiMasterCheckSum := uiMasterCheckSum ||| (rx (uiCheckIndex + 6)).val
  match verifyCopy rx (uiCheckIndex + 6) 256 uiCheckIndex 0 (fun _ => 0) with
  | .error f => .error f
  | .ok uiRxPacket => .ok (decide (uiMasterCheckSum = MODBUS_GetCheckSum uiRxPacket 6))

/-- The indices of `uiRxBuff` read by `MODBUS_VerifyChecksum`, in program order
(lines 153, 155 and the six reads of the copy loop). -/
def MODBUS_VerifyChecksum_reads (uiCheckIndex : Nat) : List Nat :=
  [uiCheckIndex + 7, uiCheckIndex + 6] ++ (List.range 6).map (fun k => uiCheckIndex + k)

/-! ## `MODBUS_PrepareResponse` -/

/-- The register loop of `MODBUS_PrepareResponse`:
`for (uint16_t count = uiStart; count < uiLength + uiStart; count++)`.
`bound` is `uiLength + uiStart`, computed in `int` (32 bits on the Cortex-M0+
target of `ti_msp_dl_config.h`), so it does not wrap; `count` is a `uint16_t`
and wraps at 65536, `uiTempIndex` is a `uint8_t`.  A terminating run of the loop
evaluates its condition at most 65536 times, which is the budget
`MODBUS_PrepareResponse` gives it. -/
def respLoop (bound : Nat) :
    Nat → Nat → (Nat → Byte) → Nat → Except Fault ((Nat → Byte) × Nat)
  | 0, _, _, _ => .error .nonTermination
  | fuel + 1, count, tx, uiTempIndex =>
    if count < bound then
      match uiModbusRegister[count]? with
      | none => .error (.registerIndex count)
      | some r =>
        if BUFFER_SIZE ≤ uiTempIndex then .error (.txIndex uiTempIndex)
        else
          let tx := Function.update tx uiTempIndex (toByte (r >>> 8))
          let uiTempIndex := (uiTempIndex + 1) % 256
          if BUFFER_SIZE ≤ uiTempIndex then .error (.txIndex uiTempIndex)
          else
            let tx := Function.update tx uiTempIndex (toByte r)
            let uiTempIndex := (uiTempIndex + 1) % 256
            respLoop bound fuel ((count + 1) % 65536) tx uiTempIndex
    else .ok (tx, uiTempIndex)

/-- `MODBUS_PrepareResponse(uiCheckIndex, uiRxBuff, uiTxBuff)`: the new contents
of `uiTxBuff` and the returned length. -/
def MODBUS_PrepareResponse (uiCheckIndex : Nat) (rx : Nat → Byte) (tx : Nat → Byte) :
    Except Fault ((Nat → Byte) × Nat) :=
  let tx := Function.update tx 0 (rx uiCheckIndex)
  let tx := Function.update tx 1 (rx (uiCheckIndex + 1))
  let uiStart := (((rx (uiCheckIndex + 2)).val <<< 8) % 65536) ||| (rx (uiCheckIndex + 3)).val
  let uiLength := (((rx (uiCheckIndex + 4)).val <<< 8) % 65536) ||| (rx (uiCheckIndex + 5)).val
  let tx := Function.update tx 2 (toByte ((uiLength % 256) * 2))
  match respLoop (uiLength + uiStart) 65536 uiStart tx 3 with
  | .error f => .error f
  | .ok (tx, uiTempIndex) =>
    let uiTxCheckSum := MODBUS_GetCheckSum tx uiTempIndex
    if BUFFER_SIZE ≤ uiTempIndex then .error (.txIndex uiTempIndex)
    else
      let tx := Function.update tx uiTempIndex (toByte uiTxCheckSum)
      let uiTempIndex := (uiTempIndex + 1) % 256
      if BUFFER_SIZE ≤ uiTempIndex then .error (.txIndex uiTempIndex)
      else
        let tx := Function.update tx uiTempIndex (toByte (uiTxCheckSum >>> 8))
        let uiTempIndex := (uiTempIndex + 1) % 256
        .ok (tx, uiTempIndex)

/-- The register loop of `MODBUS_PrepareResponse` on the memory as it is: a read
of `uiModbusRegister[count]` outside the table returns the word `outside count`,
and `uiTempIndex`, a `uint8_t`, indexes `uiTxBuff` and the bytes that follow it.
The result is `none` when the budget is used up. -/
def respLoopFlat (outside : Nat → Nat) (bound : Nat) :
    Nat → Nat → (Nat → Byte) → Nat → Option ((Nat → Byte) × Nat)
  | 0, _, _, _ => none
  | fuel + 1, count, tx, uiTempIndex =>
    if count < bound then
      let r := uiModbusRegister.getD count (outside count)
      let tx := Function.update tx uiTempIndex (toByte (r >>> 8))
      let uiTempIndex := (uiTempIndex + 1) % 256
      let tx := Function.update tx uiTempIndex (toByte r)
      let uiTempIndex := (uiTempIndex + 1) % 256
      respLoopFlat outside bound fuel ((count + 1) % 65536) tx uiTempIndex
    else some (tx, uiTempIndex)

/-- `MODBUS_PrepareResponse(uiCheckIndex, uiRxBuff, uiTxBuff)` on the memory as it
is: what the function does when a request takes it outside `uiModbusRegister` or
`uiTxBuff`.  The result is `none` when the register loop has no exit. -/
def MODBUS_PrepareResponse_flat (outside : Nat → Nat) (uiCheckIndex : Nat) (rx : Nat → Byte)
    (tx : Nat → Byte) : Option ((Nat → Byte) × Nat) :=
  let tx := Function.update tx 0 (rx uiCheckIndex)
  let tx := Function.update tx 1 (rx (uiCheckIndex + 1))
  let uiStart := (((rx (uiCheckIndex + 2)).val <<< 8) % 65536) ||| (rx (uiCheckIndex + 3)).val
  let uiLength := (((rx (uiCheckIndex + 4)).val <<< 8) % 65536) ||| (rx (uiCheckIndex + 5)).val
  let tx := Function.update tx 2 (toByte ((uiLength % 256) * 2))
  match respLoopFlat outside (uiLength + uiStart) 65536 uiStart tx 3 with
  | none => none
  | some (tx, uiTempIndex) =>
    let uiTxCheckSum := MODBUS_GetCheckSum tx uiTempIndex
    let tx := Function.update tx uiTempIndex (toByte uiTxCheckSum)
    let uiTempIndex := (uiTempIndex + 1) % 256
    let tx := Function.update tx uiTempIndex (toByte (uiTxCheckSum >>> 8))
    let uiTempIndex := (uiTempIndex + 1) % 256
    some (tx, uiTempIndex)

/-- The indices of `uiRxBuff` read by `MODBUS_PrepareResponse`, in program order
(lines 92, 93, 95 and 96). -/
def MODBUS_PrepareResponse_reads (uiCheckIndex : Nat) : List Nat :=
  [uiCheckIndex, uiCheckIndex + 1, uiCheckIndex + 2, uiCheckIndex + 3,
   uiCheckIndex + 4, uiCheckIndex + 5]

/-! ## Session state -/

/-- The global variables of the program, the three bookkeeping fields, and the
three fields that say how the program goes on after a fault: `hung` (the main
loop is inside a loop that has no exit; it is set together with a fault and read
only in a faulted machine), `outside` (`outside c i` is the word that the `c`-th
call of `MODBUS_PrepareResponse` from now that leaves the register table finds at
`uiModbusRegister[i]`) and `spin` (while the main loop is hung in the register
loop, that loop goes on writing to `uiTxBuff`; `spin k` is the byte that the
transmit interrupt then finds in the buffer when `k` bytes have been sent). -/
structure Machine where
  uiRxBuff : Nat → Byte
  uiTxBuff : Nat → Byte
  uiRxIndex : Nat
  uiTxIndex : Nat
  uiTxBuffLength : Nat
  bErrorFlag : Bool
  uiCheckIndex : Nat
  uiWaitCount : Nat
  uiTxLength : Nat
  wire : List Byte
  rxReads : List (Nat × Nat)
  fault : Option Fault
  hung : Bool
  outside : Nat → Nat → Nat
  spin : Nat → Byte

/-- Record a departure from defined behaviour; `fault` keeps the first one.
`hung` is read only in a faulted machine, so the first fault clears a value left
in it. -/
def recordFault (m : Machine) (f : Fault) : Machine :=
  { m with fault := some (m.fault.getD f), hung := m.fault.isSome && m.hung }

/-- `MODBUS_ResetState(&uiRxIndex, &uiCheckIndex, &bErrorFlag, &uiWaitCount)`. -/
def MODBUS_ResetState (m : Machine) : Machine :=
  { m with uiRxIndex := 0, uiCheckIndex := 0, bErrorFlag := false, uiWaitCount := 0 }

/-- Record reads of `uiRxBuff` at the indices `is`. -/
def logReads (m : Machine) (is : List Nat) : Machine :=
  { m with rxReads := m.rxReads ++ is.map (fun i => (i, m.uiRxIndex)) }

/-! ## `uart_driver.h` -/

/-- `UART_transmitByte`: write one byte to the transmit register. -/
def UART_transmitByte (m : Machine) (data : Byte) : Machine :=
  { m with wire := m.wire ++ [data] }

/-- `UART_transmit(uart, uiLength)`: arm the transmit state and send the first
byte; the remaining bytes are sent by the transmit interrupt.  The busy-wait on
the UART status register is hardware and is taken to end. -/
def UART_transmit (m : Machine) (uiLength : Nat) : Machine :=
  let m := { m with uiTxIndex := 0, uiTxBuffLength := uiLength }
  let m := UART_transmitByte m (m.uiTxBuff m.uiTxIndex)
  { m with uiTxIndex := (m.uiTxIndex + 1) % 256 }

/-- The pending interrupt seen by `UART_0_INST_IRQHandler`.  `RX` carries the
byte returned by `UART_receiveByte`. -/
inductive Irq where
  | RX (data : Byte)
  | TX
  | PARITY_ERROR
  | OVERRUN_ERROR
  | OTHER

/-- The byte `uiTxBuff[uiTxIndex]` as the transmit interrupt finds it. -/
def txByte (m : Machine) : Byte :=
  if m.fault.isSome && m.hung then m.spin m.wire.length else m.uiTxBuff m.uiTxIndex

/-- `UART_0_INST_IRQHandler`.  An index of 100 or more into `uiRxBuff` or
`uiTxBuff` is recorded as a fault and the access made. -/
def UART_0_INST_IRQHandler (irq : Irq) (m : Machine) : Machine :=
  match irq with
  | .RX data =>
    if m.uiRxIndex ≠ BUFFER_SIZE then
      if BUFFER_SIZE ≤ m.uiRxIndex then
        { recordFault m (.rxIndex m.uiRxIndex) with
            uiRxBuff := Function.update m.uiRxBuff m.uiRxIndex data,
            uiRxIndex := (m.uiRxIndex + 1) % 256 }
      else
        { m with uiRxBuff := Function.update m.uiRxBuff m.uiRxIndex data,
                 uiRxIndex := (m.uiRxIndex + 1) % 256 }
    else { m with bErrorFlag := true }
  | .TX =>
    if m.uiTxIndex < m.uiTxBuffLength then
      if BUFFER_SIZE ≤ m.uiTxIndex then
        let m := recordFault m (.txIndex m.uiTxIndex)
        let m := UART_transmitByte m (txByte m)
        { m with uiTxIndex := (m.uiTxIndex + 1) % 256 }
      else
        let m := UART_transmitByte m (txByte m)
        { m with uiTxIndex := (m.uiTxIndex + 1) % 256 }
    else { m with uiTxIndex := 0, uiTxBuffLength := 0 }
  | .PARITY_ERROR => { m with bErrorFlag := true }
  | .OVERRUN_ERROR => { m with bErrorFlag := true }
  | .OTHER => m

/-! ## The main loop of `modbus_slave.c` -/

/-- Lines 67-72: build the response, hand it to the UART and reset.  The Boolean
of this and the next three definitions is `false` when control leaves the
`while` loop (the `break` of line 97, or a loop without exit) and `true` when it
returns to the loop condition; the `break`s of lines 72 and 78 leave the `switch`
only.  When the request takes `MODBUS_PrepareResponse` outside its arrays, the
fault is recorded and the call is followed on the memory as it is: if it returns,
lines 69 and 71 are executed as for any other request. -/
def scanRespond (m : Machine) : Machine × Bool :=
  let m := logReads m (MODBUS_PrepareResponse_reads m.uiCheckIndex)
  match MODBUS_PrepareResponse m.uiCheckIndex m.uiRxBuff m.uiTxBuff with
  | .error f =>
    let m := recordFault m f
    match MODBUS_PrepareResponse_flat (m.outside 0) m.uiCheckIndex m.uiRxBuff m.uiTxBuff with
    | none => ({ m with hung := true }, false)
    | some (tx, len) =>
      let m := { m with uiTxBuff := tx, uiTxLength := len,
                        outside := fun c => m.outside (c + 1) }
      let m := UART_transmit m m.uiTxLength
      (MODBUS_ResetState m, true)
  | .ok (tx, len) =>
    let m := { m with uiTxBuff := tx, uiTxLength := len }
    let m := UART_transmit m m.uiTxLength
    (MODBUS_ResetState m, true)

/-- Lines 61-82: the `switch` on the command byte of a full candidate. -/
def scanDispatch (m : Machine) : Machine × Bool :=
  let m := logReads m [m.uiCheckIndex + 1]
  if m.uiRxBuff (m.uiCheckIndex + 1) = READ_COMMAND then
    let m := logReads m (MODBUS_VerifyChecksum_reads m.uiCheckIndex)
    match MODBUS_VerifyChecksum m.uiCheckIndex m.uiRxBuff with
    | .error f => ({ recordFault m f with hung := true }, false)
    | .ok true => scanRespond m
    | .ok false => ({ m with uiCheckIndex := (m.uiCheckIndex + 1) % 256 }, true)
  else ({ m with uiCheckIndex := (m.uiCheckIndex + 1) % 256 }, true)

/-- Lines 89-97: the candidate is incomplete. -/
def scanWait (m : Machine) : Machine × Bool :=
  if m.uiWaitCount ≥ MAXWAITCOUNT then (MODBUS_ResetState m, false)
  else ({ m with uiWaitCount := (m.uiWaitCount + 1) % 65536 }, false)

/-- The body of the `while (uiCheckIndex < uiRxIndex)` loop (lines 57-103). -/
def scanBody (m : Machine) : Machine × Bool :=
  let m := logReads m [m.uiCheckIndex]
  if DEVICE_ID = m.uiRxBuff m.uiCheckIndex then
    if m.uiCheckIndex + 7 < m.uiRxIndex then scanDispatch m
    else scanWait m
  else ({ m with uiCheckIndex := (m.uiCheckIndex + 1) % 256 }, true)

/-- The `while (uiCheckIndex < uiRxIndex)` loop (lines 55-104).  The first
argument is the number of evaluations of the loop condition allowed. -/
def scanLoop : Nat → Machine → Machine
  | 0, m => { recordFault m .nonTermination with hung := true }
  | fuel + 1, m =>
    if m.uiCheckIndex < m.uiRxIndex then
      match scanBody m with
      | (m, true) => scanLoop fuel m
      | (m, false) => m
    else m

/-- One iteration of `while (1)` in `main` (lines 46-111): one scanner pass.
`uiRxIndex` is a `uint8_t`, so 256 evaluations of the loop condition are enough
for every terminating scan.  A main loop that is hung starts no pass, and a pass
that hangs does not reach line 107. -/
def scannerPass (m : Machine) : Machine :=
  if m.fault.isSome && m.hung then m
  else
    let m := if m.bErrorFlag = true then MODBUS_ResetState m else m
    if PACKET_SIZE ≤ m.uiRxIndex then
      let m := { m with uiCheckIndex := 0 }
      let m := scanLoop 256 m
      if m.fault.isSome && m.hung then m
      else if m.uiCheckIndex = m.uiRxIndex then MODBUS_ResetState m
      else m
    else m

/-! ## Vocabulary of the specification -/

/-- A buffer holding the bytes of `l` from index 0 on, and 0 elsewhere. -/
def bufOf (l : List Byte) : Nat → Byte := fun i => l.getD i 0

/-- The start address of the request at index `i`: `buf[i+2]*256 + buf[i+3]`. -/
def requestStart (rx : Nat → Byte) (i : Nat) : Nat :=
  (rx (i + 2)).val * 256 + (rx (i + 3)).val

/-- The register count of the request at index `i`: `buf[i+4]*256 + buf[i+5]`. -/
def requestCount (rx : Nat → Byte) (i : Nat) : Nat :=
  (rx (i + 4)).val * 256 + (rx (i + 5)).val

/-- Position `p` of a receive buffer with `n` committed bytes holds a full
candidate that the scanner accepts: the device id, the read command and a
matching checksum, all within the committed bytes. -/
def Accepts (rx : Nat → Byte) (n p : Nat) : Prop :=
  p + 8 ≤ n ∧ rx p = DEVICE_ID ∧ rx (p + 1) = READ_COMMAND ∧
    MODBUS_VerifyChecksum p rx = .ok true

/-- The session after a response has been built, handed to the UART and the
state reset. -/
def responded (m : Machine) (tx : Nat → Byte) (len : Nat) (log : List (Nat × Nat)) : Machine :=
  { m with uiTxBuff := tx, uiTxLength := len, uiTxIndex := 1, uiTxBuffLength := len,
           wire := m.wire ++ [tx 0], uiRxIndex := 0, uiCheckIndex := 0, bErrorFlag := false,
           uiWaitCount := 0, rxReads := log }

/-- The transmit interrupts that follow a call of `UART_transmit`: one interrupt
per byte still to send, and the one that finds the buffer drained. -/
def txDrain (m : Machine) : Machine :=
  (UART_0_INST_IRQHandler .TX)^[m.uiTxBuffLength] m

/-- The receive interrupt, once for each byte of `l` in order. -/
def receiveBytes (l : List Byte) (m : Machine) : Machine :=
  l.foldl (fun m b => UART_0_INST_IRQHandler (.RX b) m) m

/-- The full-reset state of the session: empty buffer, cursor 0, wait counter 0,
error flag clear (and the program within defined behaviour). -/
def IsResetState (m : Machine) : Prop :=
  m.fault = none ∧ m.uiRxIndex = 0 ∧ m.uiCheckIndex = 0 ∧ m.uiWaitCount = 0 ∧
    m.bErrorFlag = false

/-- The state of the program at the start of `main`: every global variable is
zero-initialised; nothing has been transmitted or read.  The memory outside the
arrays is zero as well; `bootWith` is the start with any such memory. -/
def boot : Machine :=
  { uiRxBuff := fun _ => 0, uiTxBuff := fun _ => 0, uiRxIndex := 0, uiTxIndex := 0,
    uiTxBuffLength := 0, bErrorFlag := false, uiCheckIndex := 0, uiWaitCount := 0,
    uiTxLength := 0, wire := [], rxReads := [], fault := none, hung := false,
    outside := fun _ _ => 0, spin := fun _ => 0 }

/-- The state at the start of `main` with `outside` and `spin` as given. -/
def bootWith (outside : Nat → Nat → Nat) (spin : Nat → Byte) : Machine :=
  { boot with outside := outside, spin := spin }

/-- An eight-byte read request on the wire: device id, read command, a start
address and count with `start + count ≤ 10`, and the checksum of the first six
bytes, low byte first. -/
def IsReadRequest (F : List Byte) : Prop :=
  F.length = 8 ∧ bufOf F 0 = DEVICE_ID ∧ bufOf F 1 = READ_COMMAND ∧
    requestStart (bufOf F) 0 + requestCount (bufOf F) 0 ≤ 10 ∧
    (bufOf F 6).val = MODBUS_GetCheckSum (bufOf F) 6 % 256 ∧
    (bufOf F 7).val = MODBUS_GetCheckSum (bufOf F) 6 / 256

/-- The request `01 03 00 02 00 03` with its checksum `A4 0B`. -/
def sampleRequest : List Byte := [0x01, 0x03, 0x00, 0x02, 0x00, 0x03, 0xA4, 0x0B]

/-- The first nine bytes of the response to `sampleRequest`. -/
def sampleResponseBody : List Byte := [0x01, 0x03, 0x06, 0x55, 0x66, 0x77, 0x88, 0x99, 0x00]

/-- A buffer holding one correctly checksummed read request for start address
`0xFFFF` and count 1, committed in full. -/
def wrapRequestMachine : Machine :=
  { boot with uiRxBuff := bufOf [0x01, 0x03, 0xFF, 0xFF, 0x00, 0x01, 0x84, 0x2E], uiRxIndex := 8 }

/-- A buffer holding `sampleRequest`, committed in full. -/
def sampleMachine : Machine :=
  { boot with uiRxBuff := bufOf sampleRequest, uiRxIndex := 8 }

/-- Flip bit `j` of a byte. -/
def flipBit (b : Byte) (j : Nat) : Byte := toByte (b.val ^^^ (1 <<< j))

/-- Flip bit `bit` (0 to 15) of the two checksum bytes of an eight-byte request:
bits 0 to 7 are in byte 6, bits 8 to 15 in byte 7. -/
def flipChecksumBit (F : List Byte) (bit : Nat) : List Byte :=
  F.set (6 + bit / 8) (flipBit (F.getD (6 + bit / 8) 0) (bit % 8))

/-- Every recorded read of `uiRxBuff` was at an index below the number of bytes
committed at the time. -/
def ReadsInBounds (m : Machine) : Prop := ∀ r, r ∈ m.rxReads → r.1 < r.2

/-! ## The reference CRC: polynomial division over GF(2)

A polynomial over GF(2) is written as the natural number whose bit `i` is the
coefficient of `x^i`; addition of polynomials is XOR and multiplication by `x`
is doubling. -/

/-- The low `w` bits of `c` in reverse order (bit 0 becomes bit `w - 1`). -/
def reflect : Nat → Nat → Nat
  | 0, _ => 0
  | w + 1, c => (c % 2) * 2 ^ w + reflect w (c / 2)

/-- Product of two polynomials over GF(2) (carry-less multiplication). -/
def polyMul (q g : Nat) : Nat :=
  if h : q = 0 then 0
  else (if q % 2 = 1 then g else 0) ^^^ (2 * polyMul (q / 2) g)
termination_by q
decreasing_by omega

/-- The generator of CRC-16: `x^16 + x^15 + x^2 + 1`.  Its low 16 bits are
`0x8005`, which is `0xA001` with the bits reversed. -/
def crcPoly : Nat := 0x18005

/-- Long division by `crcPoly`, one dividend bit at a time from the top: the
remainder of the higher bits is multiplied by `x`, the next bit is brought down,
and `crcPoly` is subtracted when the degree reaches 16.  The first argument
bounds the number of bits of the dividend. -/
def polyRemAux : Nat → Nat → Nat
  | 0, _ => 0
  | f + 1, a =>
    if a = 0 then 0
    else
      let t := 2 * polyRemAux f (a / 2) + a % 2
      if 2 ^ 16 ≤ t then t ^^^ crcPoly else t

/-- The remainder of the polynomial `a` on division by `crcPoly`. -/
def polyRem (a : Nat) : Nat := polyRemAux a a

/-- The message as a polynomial: the first byte holds the highest coefficients,
and within a byte bit 0 is the highest (bytes go out least significant bit
first). -/
def messagePoly (B : List Byte) : Nat :=
  B.foldl (fun acc b => acc * 256 + reflect 8 b.val) 0

/-- The dividend of CRC-16/MODBUS: the message times `x^16`, with the initial
register value `0xFFFF` added to its 16 highest coefficients. -/
def crcDividend (B : List Byte) : Nat :=
  (messagePoly B * 2 ^ 16) ^^^ (0xFFFF * 2 ^ (8 * B.length))

/-- CRC-16/MODBUS by its definition: the remainder of the dividend on division by
the generator, with its 16 coefficients in reflected order and no final XOR. -/
def crc16Reference (B : List Byte) : Nat :=
  reflect 16 (polyRem (crcDividend B))

/-- `r` is a remainder of `a` on division by `crcPoly`: `a = q * crcPoly + r` for
some polynomial `q`, and `r` has degree below 16. -/
def IsCrcRemainder (a r : Nat) : Prop :=
  r < 2 ^ 16 ∧ ∃ q, a = polyMul q crcPoly ^^^ r

/-- What happens between two machine states: an interrupt, or one scanner pass. -/
inductive Event where
  | irq (i : Irq)
  | pass

/-- The effect of one event. -/
def step (m : Machine) : Event → Machine
  | .irq i => UART_0_INST_IRQHandler i m
  | .pass => scannerPass m

/-- The effect of a sequence of events, first to last. -/
def run (es : List Event) (m : Machine) : Machine := es.foldl step m

deriving instance DecidableEq for Except

instance (rx : Nat → Byte) (n p : Nat) : Decidable (Accepts rx n p) := by
  unfold Accepts; infer_instance

instance (F : List Byte) : Decidable (IsReadRequest F) := by
  unfold IsReadRequest; infer_instance

/-- Position `q` is one the scanner steps over: it does not hold the device id,
or it holds a full candidate that is not accepted. -/
def Skippable (rx : Nat → Byte) (n q : Nat) : Prop :=
  rx q ≠ DEVICE_ID ∨ (q + 8 ≤ n ∧ ¬ Accepts rx n q)

instance (rx : Nat → Byte) (n q : Nat) : Decidable (Skippable rx n q) := by
  unfold Skippable; infer_instance

/-- A full buffer of arbitrary cursor and wait counter that holds `sampleRequest`
at position 0, with the error flag raised. -/
def errorMachine : Machine :=
  { boot with uiRxBuff := bufOf sampleRequest, uiRxIndex := 100, uiCheckIndex := 37,
              uiWaitCount := 512, bErrorFlag := true }

/-- Eight committed bytes: a correctly checksummed frame for the write command
`0x04`. -/
def writeRequestMachine : Machine :=
  { boot with uiRxBuff := bufOf [0x01, 0x04, 0x00, 0x02, 0x00, 0x03, 0x11, 0xCB],
              uiRxIndex := 8 }

/-- A buffer holding one correctly checksummed read request for 48 registers
from address 0. -/
def overRangeMachine : Machine :=
  { boot with uiRxBuff := bufOf [0x01, 0x03, 0x00, 0x00, 0x00, 0x30, 0x45, 0xDE], uiRxIndex := 8 }

/-- A request is in range when it asks for no register or only for registers of
the table. -/
def InRange (rx : Nat → Byte) (p : Nat) : Prop :=
  requestCount rx p = 0 ∨ requestStart rx p + requestCount rx p ≤ 10

instance (rx : Nat → Byte) (p : Nat) : Decidable (InRange rx p) := by
  unfold InRange; infer_instance

/-- A full receive buffer: 100 bytes committed, the first eight of them
`sampleRequest`, the error flag clear. -/
def fullMachine : Machine :=
  { boot with uiRxBuff := bufOf sampleRequest, uiRxIndex := 100 }

/-- Eight buffered bytes whose only device id is at position 1: an incomplete
candidate. -/
def stallMachine : Machine :=
  { boot with uiRxBuff := bufOf [0x00, 0x01, 0x00, 0x00, 0x00, 0x00, 0x00, 0x00], uiRxIndex := 8 }

/-- The state of `stallMachine` after three passes and the arrival of a ninth
byte `0x01`: the cursor is at position 1, where the last pass stopped, and three
incomplete observations have been counted. -/
def advancedMachine : Machine :=
  { boot with uiRxBuff := bufOf [0x00, 0x01, 0x00, 0x00, 0x00, 0x00, 0x00, 0x00, 0x01],
              uiRxIndex := 9, uiCheckIndex := 1, uiWaitCount := 3 }

/-- The session invariant: the cursor is within the buffered bytes, the buffered
bytes within the buffer, and the wait counter within its maximum. -/
def SessionInv (m : Machine) : Prop :=
  m.uiCheckIndex ≤ m.uiRxIndex ∧ m.uiRxIndex ≤ BUFFER_SIZE ∧ m.uiWaitCount ≤ MAXWAITCOUNT

/-- A scanner pass as the specification describes it: the loop resumes from the
cursor value saved by the previous pass. It is `scannerPass` without the
assignment `uiCheckIndex = ZERO_INDEX` of line 54. -/
def scannerPassResume (m : Machine) : Machine :=
  if m.fault.isSome && m.hung then m
  else
    let m := if m.bErrorFlag = true then MODBUS_ResetState m else m
    if PACKET_SIZE ≤ m.uiRxIndex then
      let m := scanLoop 256 m
      if m.fault.isSome && m.hung then m
      else if m.uiCheckIndex = m.uiRxIndex then MODBUS_ResetState m
      else m
    else m

/-- The machine without its read log. -/
def dropLog (m : Machine) : Machine := { m with rxReads := [] }

/-- Every position below the cursor is one the scanner steps over. -/
def CursorInv (m : Machine) : Prop :=
  ∀ q, q < m.uiCheckIndex → Skippable m.uiRxBuff m.uiRxIndex q

/-- The request of `overRangeMachine` arrives and is answered by a pass; then
eight bytes with a single device id, at position 1, arrive and a pass follows. -/
def overRangeEvents : List Event :=
  ([0x01, 0x03, 0x00, 0x00, 0x00, 0x30, 0x45, 0xDE].map (fun b => Event.irq (.RX b))) ++
    [Event.pass] ++
  ([0x00, 0x01, 0x00, 0x00, 0x00, 0x00, 0x00, 0x00].map (fun b => Event.irq (.RX b))) ++
    [Event.pass]

/-- The four session variables as `MODBUS_ResetState` leaves them. -/
def IsCleared (m : Machine) : Prop :=
  m.uiRxIndex = 0 ∧ m.uiCheckIndex = 0 ∧ m.uiWaitCount = 0 ∧ m.bErrorFlag = false

/-- What one step can do to the wait counter: leave it, add one to it, or clear
it together with the rest of the session. -/
def WaitStep (m0 m : Machine) : Prop :=
  m.uiWaitCount = m0.uiWaitCount ∨ m.uiWaitCount = m0.uiWaitCount + 1 ∨ IsCleared m

/-- Every recorded read of `uiRxBuff` was made with at most `BUFFER_SIZE` bytes
committed. -/
def ReadsInBuffer (m : Machine) : Prop := ∀ r, r ∈ m.rxReads → r.2 ≤ BUFFER_SIZE

/-- A buffer holding one correctly checksummed read request for no register, from
start address `0xFFFF`. -/
def emptyRequestMachine : Machine :=
  { boot with uiRxBuff := bufOf [0x01, 0x03, 0xFF, 0xFF, 0x00, 0x00, 0x45, 0xEE], uiRxIndex := 8 }

/-! # Theorems -/

/-! ## Checksum engine: bounds and unfolding -/

theorem crcShift_lt {c : Nat} (h : c < 65536) : crcShift c < 65536 := by
  unfold crcShift
  have h1 : c >>> 1 < 2 ^ 16 := by
    rw [Nat.shiftRight_eq_div_pow]; omega
  split
  · exact Nat.xor_lt_two_pow h1 (by decide)
  · exact h1

theorem crcBits_lt (i : Nat) {c : Nat} (h : c < 65536) : crcBits i c < 65536 := by
  induction i generalizing c with
  | zero => simpa [crcBits] using h
  | succ i ih => exact ih (crcShift_lt h)

theorem crcByte_lt {c : Nat} (b : Byte) (h : c < 65536) : crcByte c b < 65536 := by
  unfold crcByte
  apply crcBits_lt
  exact Nat.xor_lt_two_pow (n := 16) h (by have := b.isLt; omega)

theorem MODBUS_GetCheckSum_succ (buf : Nat → Byte) (n : Nat) :
    MODBUS_GetCheckSum buf (n + 1) = crcByte (MODBUS_GetCheckSum buf n) (buf n) := by
  simp [ MODBUS_GetCheckSum, List.range_succ, List.foldl_append]

theorem MODBUS_GetCheckSum_lt (buf : Nat → Byte) (n : Nat) :
    MODBUS_GetCheckSum buf n < 65536 := by
  induction n with
  | zero => simp [ MODBUS_GetCheckSum]
  | succ n ih => rw [ MODBUS_GetCheckSum_succ]; exact crcByte_lt _ ih

theorem MODBUS_GetCheckSum_congr {buf buf' : Nat → Byte} {n : Nat}
    (h : ∀ i, i < n → buf i = buf' i) :
    MODBUS_GetCheckSum buf n = MODBUS_GetCheckSum buf' n := by
  induction n with
  | zero => simp [ MODBUS_GetCheckSum]
  | succ n ih =>
    rw [ MODBUS_GetCheckSum_succ, MODBUS_GetCheckSum_succ, ih (fun i hi => h i (by omega)),
      h n (by omega)]

/-- A 16-bit value assembled from two bytes, as the C code does it. -/
theorem shl8_or (a b : Nat) (ha : a < 256) (hb : b < 256) :
    ((a <<< 8) % 65536) ||| b = a * 256 + b := by
  rw [Nat.shiftLeft_eq, Nat.mod_eq_of_lt (by omega)]
  have := Nat.mul_add_lt_is_or (i := 8) (b := b) (by omega) a
  rw [Nat.mul_comm] at this
  simpa using this.symm

theorem verifyCopy_aux (rx : Nat → Byte) (bound : Nat) (hb : bound ≤ 255) :
    ∀ (k fuel uiCount uiIndex : Nat) (pkt : Nat → Byte),
      uiCount + k = bound → uiIndex + k = 6 → k < fuel →
      ∃ pkt', verifyCopy rx bound fuel uiCount uiIndex pkt = .ok pkt' ∧
        (∀ j, j < uiIndex → pkt' j = pkt j) ∧
        (∀ j, j < k → pkt' (uiIndex + j) = rx (uiCount + j)) := by
  intro k
  induction k with
  | zero =>
    intro fuel uiCount uiIndex pkt h1 _ h3
    obtain ⟨f, rfl⟩ : ∃ f, fuel = f + 1 := ⟨fuel - 1, by omega⟩
    refine ⟨pkt, ?_, fun _ _ => rfl, fun j hj => by omega⟩
    have : ¬ uiCount < bound := by omega
    simp [verifyCopy, this]
  | succ k ih =>
    intro fuel uiCount uiIndex pkt h1 h2 h3
    obtain ⟨f, rfl⟩ : ∃ f, fuel = f + 1 := ⟨fuel - 1, by omega⟩
    have c1 : uiCount < bound := by omega
    have c2 : ¬ 6 ≤ uiIndex := by omega
    have e1 : (uiCount + 1) % 256 = uiCount + 1 := Nat.mod_eq_of_lt (by omega)
    have e2 : (uiIndex + 1) % 256 = uiIndex + 1 := Nat.mod_eq_of_lt (by omega)
    obtain ⟨pkt', hp, hlow, hnew⟩ :=
      ih f (uiCount + 1) (uiIndex + 1) (Function.update pkt uiIndex (rx uiCount))
        (by omega) (by omega) (by omega)
    refine ⟨pkt', ?_, ?_, ?_⟩
    · simp only [verifyCopy, c1, c2, e1, e2, if_true, if_false]
      exact hp
    · intro j hj
      rw [hlow j (by omega), Function.update_noteq (by omega)]
    · intro j hj
      cases j with
      | zero =>
        rw [Nat.add_zero, Nat.add_zero, hlow uiIndex (by omega), Function.update_same]
      | succ j =>
        have := hnew j (by omega)
        rw [show uiIndex + (j + 1) = uiIndex + 1 + j by omega,
          show uiCount + (j + 1) = uiCount + 1 + j by omega]
        exact this

theorem verifyCopy_ok (rx : Nat → Byte) (ci : Nat) (h : ci + 6 ≤ 255) (pkt : Nat → Byte) :
    ∃ pkt', verifyCopy rx (ci + 6) 256 ci 0 pkt = .ok pkt' ∧ ∀ k, k < 6 → pkt' k = rx (ci + k) := by
  obtain ⟨pkt', h1, _, h3⟩ := verifyCopy_aux rx (ci + 6) h 6 256 ci 0 pkt rfl rfl (by decide)
  exact ⟨pkt', h1, fun k hk => by simpa using h3 k hk⟩

/-- What `MODBUS_VerifyChecksum` computes when its `uint8_t` counters cannot wrap. -/
theorem MODBUS_VerifyChecksum_eq (rx : Nat → Byte) (ci : Nat) (h : ci + 6 ≤ 255) :
    MODBUS_VerifyChecksum ci rx =
      .ok (decide ((rx (ci + 7)).val * 256 + (rx (ci + 6)).val =
        MODBUS_GetCheckSum (fun k => rx (ci + k)) 6)) := by
  obtain ⟨pkt', h1, h2⟩ := verifyCopy_ok rx ci h (fun _ => 0)
  unfold MODBUS_VerifyChecksum
  simp only [h1]
  rw [shl8_or _ _ (rx (ci + 7)).isLt (rx (ci + 6)).isLt,
    MODBUS_GetCheckSum_congr h2]

theorem register_lookup {count : Nat} (h : count < 10) :
    uiModbusRegister[count]? = some (uiModbusRegister.getD count 0) := by
  have hl : count < uiModbusRegister.length := by simpa [uiModbusRegister] using h
  simp [List.getD, List.getElem?_eq_getElem hl]

theorem register_lt (k : Nat) : uiModbusRegister.getD k 0 < 65536 := by
  by_cases h : k < 10
  · interval_cases k <;> decide
  · have hl : uiModbusRegister.length ≤ k := by simpa [uiModbusRegister] using h
    simp [List.getD, List.getElem?_eq_none hl]

theorem respLoop_aux (bound : Nat) (hb : bound ≤ 10) :
    ∀ (k fuel count : Nat) (tx : Nat → Byte) (ti : Nat),
      count + k = bound → ti + 2 * k ≤ 100 → k < fuel →
      ∃ tx', respLoop bound fuel count tx ti = .ok (tx', ti + 2 * k) ∧
        (∀ j, j < ti → tx' j = tx j) ∧
        (∀ j, j < k →
          tx' (ti + 2 * j) = toByte (uiModbusRegister.getD (count + j) 0 >>> 8) ∧
          tx' (ti + 2 * j + 1) = toByte (uiModbusRegister.getD (count + j) 0)) := by
  intro k
  induction k with
  | zero =>
    intro fuel count tx ti h1 _ h3
    obtain ⟨f, rfl⟩ : ∃ f, fuel = f + 1 := ⟨fuel - 1, by omega⟩
    refine ⟨tx, ?_, fun _ _ => rfl, fun j hj => by omega⟩
    have : ¬ count < bound := by omega
    simp [respLoop, this]
  | succ k ih =>
    intro fuel count tx ti h1 h2 h3
    obtain ⟨f, rfl⟩ : ∃ f, fuel = f + 1 := ⟨fuel - 1, by omega⟩
    have c1 : count < bound := by omega
    have c2 : ¬ BUFFER_SIZE ≤ ti := by simp only [BUFFER_SIZE]; omega
    have c3 : ¬ BUFFER_SIZE ≤ ti + 1 := by simp only [BUFFER_SIZE]; omega
    have e1 : (ti + 1) % 256 = ti + 1 := Nat.mod_eq_of_lt (by omega)
    have e2 : (ti + 1 + 1) % 256 = ti + 2 := Nat.mod_eq_of_lt (by omega)
    have e3 : (count + 1) % 65536 = count + 1 := Nat.mod_eq_of_lt (by omega)
    obtain ⟨tx', hp, hlow, hnew⟩ :=
      ih f (count + 1)
        (Function.update
          (Function.update tx ti (toByte (uiModbusRegister.getD count 0 >>> 8)))
          (ti + 1) (toByte (uiModbusRegister.getD count 0)))
        (ti + 2) (by omega) (by omega) (by omega)
    refine ⟨tx', ?_, ?_, ?_⟩
    · simp only [respLoop, c1, register_lookup (show count < 10 by omega), c2, c3, e1, e2, e3,
        if_true, if_false]
      rw [hp]
      congr 2
      omega
    · intro j hj
      rw [hlow j (by omega), Function.update_noteq (by omega), Function.update_noteq (by omega)]
    · intro j hj
      cases j with
      | zero =>
        simp only [Nat.mul_zero, Nat.add_zero]
        constructor
        · rw [hlow ti (by omega), Function.update_noteq (by omega), Function.update_same]
        · rw [hlow (ti + 1) (by omega), Function.update_same]
      | succ j =>
        have := hnew j (by omega)
        rw [show ti + 2 * (j + 1) = ti + 2 + 2 * j by omega,
          show count + (j + 1) = count + 1 + j by omega]
        exact this

theorem toByte_val (n : Nat) : (toByte n).val = n % 256 := rfl

/-- The response laid out by `MODBUS_PrepareResponse` for an in-range request. -/
theorem MODBUS_PrepareResponse_layout (i : Nat) (rx tx : Nat → Byte) (start count : Nat)
    (hs : start = (rx (i + 2)).val * 256 + (rx (i + 3)).val)
    (hc : count = (rx (i + 4)).val * 256 + (rx (i + 5)).val)
    (h : start + count ≤ 10) :
    ∃ tx', MODBUS_PrepareResponse i rx tx = .ok (tx', 2 * count + 5) ∧
      tx' 0 = rx i ∧ tx' 1 = rx (i + 1) ∧ (tx' 2).val = 2 * count ∧
      (∀ j, j < count →
        (tx' (3 + 2 * j)).val = uiModbusRegister.getD (start + j) 0 / 256 ∧
        (tx' (4 + 2 * j)).val = uiModbusRegister.getD (start + j) 0 % 256) ∧
      (tx' (3 + 2 * count)).val = MODBUS_GetCheckSum tx' (3 + 2 * count) % 256 ∧
      (tx' (4 + 2 * count)).val = MODBUS_GetCheckSum tx' (3 + 2 * count) / 256 := by
  have es : (((rx (i + 2)).val <<< 8) % 65536) ||| (rx (i + 3)).val = start := by
    rw [hs]; exact shl8_or _ _ (rx (i + 2)).isLt (rx (i + 3)).isLt
  have ec : (((rx (i + 4)).val <<< 8) % 65536) ||| (rx (i + 5)).val = count := by
    rw [hc]; exact shl8_or _ _ (rx (i + 4)).isLt (rx (i + 5)).isLt
  obtain ⟨t1, hp, hlow, hnew⟩ :=
    respLoop_aux (count + start) (by omega) count 65536 start
      (Function.update (Function.update (Function.update tx 0 (rx i)) 1 (rx (i + 1))) 2
        (toByte ((count % 256) * 2)))
      3 (by omega) (by omega) (by omega)
  have c1 : ¬ BUFFER_SIZE ≤ 3 + 2 * count := by simp only [BUFFER_SIZE]; omega
  have c2 : ¬ BUFFER_SIZE ≤ 3 + 2 * count + 1 := by simp only [BUFFER_SIZE]; omega
  have e1 : (3 + 2 * count + 1) % 256 = 3 + 2 * count + 1 := Nat.mod_eq_of_lt (by omega)
  have e2 : (3 + 2 * count + 1 + 1) % 256 = 2 * count + 5 := by
    rw [Nat.mod_eq_of_lt (by omega)]; omega
  have hcs := MODBUS_GetCheckSum_lt t1 (3 + 2 * count)
  refine ⟨Function.update (Function.update t1 (3 + 2 * count)
      (toByte (MODBUS_GetCheckSum t1 (3 + 2 * count)))) (3 + 2 * count + 1)
      (toByte (MODBUS_GetCheckSum t1 (3 + 2 * count) >>> 8)), ?_, ?_, ?_, ?_, ?_, ?_, ?_⟩
  · unfold MODBUS_PrepareResponse
    simp only [es, ec, hp, c1, c2, e1, e2, if_false]
  · rw [Function.update_noteq (by omega), Function.update_noteq (by omega), hlow 0 (by omega)]
    simp [Function.update]
  · rw [Function.update_noteq (by omega), Function.update_noteq (by omega), hlow 1 (by omega)]
    simp [Function.update]
  · rw [Function.update_noteq (by omega), Function.update_noteq (by omega), hlow 2 (by omega),
      Function.update_same, toByte_val]
    omega
  · intro j hj
    obtain ⟨h1, h2⟩ := hnew j hj
    have hr := register_lt (start + j)
    constructor
    · rw [Function.update_noteq (by omega), Function.update_noteq (by omega), h1, toByte_val,
        Nat.shiftRight_eq_div_pow]
      omega
    · rw [show 4 + 2 * j = 3 + 2 * j + 1 by omega, Function.update_noteq (by omega),
        Function.update_noteq (by omega), h2, toByte_val]
  · rw [Function.update_noteq (by omega), Function.update_same, toByte_val]
    congr 1
    apply MODBUS_GetCheckSum_congr
    intro k hk
    rw [Function.update_noteq (by omega), Function.update_noteq (by omega)]
  · rw [show 4 + 2 * count = 3 + 2 * count + 1 by omega, Function.update_same, toByte_val]
    have : MODBUS_GetCheckSum
        (Function.update (Function.update t1 (3 + 2 * count)
          (toByte (MODBUS_GetCheckSum t1 (3 + 2 * count)))) (3 + 2 * count + 1)
          (toByte (MODBUS_GetCheckSum t1 (3 + 2 * count) >>> 8))) (3 + 2 * count) =
        MODBUS_GetCheckSum t1 (3 + 2 * count) := by
      apply MODBUS_GetCheckSum_congr
      intro k hk
      rw [Function.update_noteq (by omega), Function.update_noteq (by omega)]
    rw [this, Nat.shiftRight_eq_div_pow]
    omega

/-! ## Response builder -/

/-- C2: for a request at index `i` whose start address and count satisfy
`start + count ≤ 10`, `MODBUS_PrepareResponse` returns `2*count + 5` and leaves
`tx[0] = buf[i]`, `tx[1] = buf[i+1]`, `tx[2] = 2*count`, for every `j < count` the
high byte of `uiModbusRegister[start+j]` at `tx[3+2j]` and its low byte at
`tx[4+2j]`, and the low and high byte of `MODBUS_GetCheckSum` over
`tx[0 .. 3+2*count)` at `tx[3+2*count]` and `tx[4+2*count]`. -/
theorem MODBUS_PrepareResponse_in_range (i : Nat) (rx tx : Nat → Byte)
    (h : requestStart rx i + requestCount rx i ≤ 10) :
    ∃ tx', MODBUS_PrepareResponse i rx tx = .ok (tx', 2 * requestCount rx i + 5) ∧
      tx' 0 = rx i ∧ tx' 1 = rx (i + 1) ∧ (tx' 2).val = 2 * requestCount rx i ∧
      (∀ j, j < requestCount rx i →
        (tx' (3 + 2 * j)).val = uiModbusRegister.getD (requestStart rx i + j) 0 / 256 ∧
        (tx' (4 + 2 * j)).val = uiModbusRegister.getD (requestStart rx i + j) 0 % 256) ∧
      (tx' (3 + 2 * requestCount rx i)).val =
        MODBUS_GetCheckSum tx' (3 + 2 * requestCount rx i) % 256 ∧
      (tx' (4 + 2 * requestCount rx i)).val =
        MODBUS_GetCheckSum tx' (3 + 2 * requestCount rx i) / 256 :=
  MODBUS_PrepareResponse_layout i rx tx _ _ rfl rfl h

theorem MODBUS_PrepareResponse_in_range_witness :
    requestStart (bufOf sampleRequest) 0 + requestCount (bufOf sampleRequest) 0 ≤ 10 ∧
    ∃ tx', MODBUS_PrepareResponse 0 (bufOf sampleRequest) (fun _ => 0) =
        .ok (tx', 2 * requestCount (bufOf sampleRequest) 0 + 5) ∧
      tx' 0 = bufOf sampleRequest 0 ∧ tx' 1 = bufOf sampleRequest (0 + 1) ∧
      (tx' 2).val = 2 * requestCount (bufOf sampleRequest) 0 ∧
      (∀ j, j < requestCount (bufOf sampleRequest) 0 →
        (tx' (3 + 2 * j)).val =
          uiModbusRegister.getD (requestStart (bufOf sampleRequest) 0 + j) 0 / 256 ∧
        (tx' (4 + 2 * j)).val =
          uiModbusRegister.getD (requestStart (bufOf sampleRequest) 0 + j) 0 % 256) ∧
      (tx' (3 + 2 * requestCount (bufOf sampleRequest) 0)).val =
        MODBUS_GetCheckSum tx' (3 + 2 * requestCount (bufOf sampleRequest) 0) % 256 ∧
      (tx' (4 + 2 * requestCount (bufOf sampleRequest) 0)).val =
        MODBUS_GetCheckSum tx' (3 + 2 * requestCount (bufOf sampleRequest) 0) / 256 :=
  ⟨by decide, MODBUS_PrepareResponse_in_range 0 (bufOf sampleRequest) (fun _ => 0) (by decide)⟩

/-- C3: for the request `01 03 00 02 00 03` at index 0 of the receive buffer
(whatever follows it; the builder does not read the two checksum bytes),
`MODBUS_PrepareResponse` against the reference register table returns length 11
and produces `01 03 06 55 66 77 88 99 00` followed by the low byte and then the
high byte of `MODBUS_GetCheckSum` of those 9 bytes. -/
theorem MODBUS_PrepareResponse_reference (rx tx : Nat → Byte)
    (hreq : (List.range 6).map rx = [0x01, 0x03, 0x00, 0x02, 0x00, 0x03]) :
    ∃ tx', MODBUS_PrepareResponse 0 rx tx = .ok (tx', 11) ∧
      (List.range 9).map tx' = sampleResponseBody ∧
      (tx' 9).val = MODBUS_GetCheckSum (bufOf sampleResponseBody) 9 % 256 ∧
      (tx' 10).val = MODBUS_GetCheckSum (bufOf sampleResponseBody) 9 / 256 := by
  simp only [List.range, List.range.loop, List.map, List.cons.injEq, and_true] at hreq
  obtain ⟨r0, r1, r2, r3, r4, r5⟩ := hreq
  have hs : (2 : Nat) = (rx (0 + 2)).val * 256 + (rx (0 + 3)).val := by
    simp only [Nat.zero_add, r2, r3]; decide
  have hc : (3 : Nat) = (rx (0 + 4)).val * 256 + (rx (0 + 5)).val := by
    simp only [Nat.zero_add, r4, r5]; decide
  obtain ⟨tx', h0, t0, t1, t2, treg, tlo, thi⟩ :=
    MODBUS_PrepareResponse_layout 0 rx tx 2 3 hs hc (by decide)
  have b0 := treg 0 (by decide)
  have b1 := treg 1 (by decide)
  have b2 := treg 2 (by decide)
  have hbody : (List.range 9).map tx' = sampleResponseBody := by
    simp only [List.range, List.range.loop, List.map, sampleResponseBody, List.cons.injEq,
      and_true]
    refine ⟨?_, ?_, ?_, ?_, ?_, ?_, ?_, ?_, ?_⟩
    · rw [t0, r0]
    · rw [t1]; exact r1
    · exact Fin.ext t2
    · exact Fin.ext b0.1
    · exact Fin.ext b0.2
    · exact Fin.ext b1.1
    · exact Fin.ext b1.2
    · exact Fin.ext b2.1
    · exact Fin.ext b2.2
  have hcs : MODBUS_GetCheckSum tx' 9 = MODBUS_GetCheckSum (bufOf sampleResponseBody) 9 := by
    apply MODBUS_GetCheckSum_congr
    intro k hk
    have := congrArg (fun l => l.getD k 0) hbody
    simp only [List.range, List.range.loop, List.map] at this
    interval_cases k <;> simpa [bufOf] using this
  refine ⟨tx', h0, hbody, ?_, ?_⟩
  · rw [← hcs]; exact tlo
  · rw [← hcs]; exact thi

theorem MODBUS_PrepareResponse_reference_witness :
    (List.range 6).map (bufOf sampleRequest) = [0x01, 0x03, 0x00, 0x02, 0x00, 0x03] ∧
    ∃ tx', MODBUS_PrepareResponse 0 (bufOf sampleRequest) (fun _ => 0) = .ok (tx', 11) ∧
      (List.range 9).map tx' = sampleResponseBody ∧
      (tx' 9).val = MODBUS_GetCheckSum (bufOf sampleResponseBody) 9 % 256 ∧
      (tx' 10).val = MODBUS_GetCheckSum (bufOf sampleResponseBody) 9 / 256 :=
  ⟨by decide,
    MODBUS_PrepareResponse_reference (bufOf sampleRequest) (fun _ => 0) (by decide)⟩

/-! ## Checksum verification -/

/-- C5: checksum round trip.  If `buf[i+6]` is the low byte and `buf[i+7]` the
high byte of `MODBUS_GetCheckSum` over the six bytes `buf[i .. i+6)`, with
`i + 8 ≤ 100`, then `MODBUS_VerifyChecksum(i, buf)` returns true. -/
theorem MODBUS_VerifyChecksum_round_trip (i : Nat) (rx : Nat → Byte) (hi : i + 8 ≤ 100)
    (hlo : (rx (i + 6)).val = MODBUS_GetCheckSum (fun k => rx (i + k)) 6 % 256)
    (hhi : (rx (i + 7)).val = MODBUS_GetCheckSum (fun k => rx (i + k)) 6 / 256) :
    MODBUS_VerifyChecksum i rx = .ok true := by
  rw [ MODBUS_VerifyChecksum_eq rx i (by omega), hlo, hhi]
  congr 1
  apply decide_eq_true
  omega

theorem MODBUS_VerifyChecksum_round_trip_witness :
    (0 + 8 ≤ 100 ∧
      (bufOf sampleRequest (0 + 6)).val =
        MODBUS_GetCheckSum (fun k => bufOf sampleRequest (0 + k)) 6 % 256 ∧
      (bufOf sampleRequest (0 + 7)).val =
        MODBUS_GetCheckSum (fun k => bufOf sampleRequest (0 + k)) 6 / 256) ∧
    MODBUS_VerifyChecksum 0 (bufOf sampleRequest) = .ok true :=
  ⟨⟨by decide, by decide, by decide⟩,
    MODBUS_VerifyChecksum_round_trip 0 (bufOf sampleRequest) (by decide) (by decide) (by decide)⟩

/-! ## Frame scanner: the loop and one pass -/

theorem MODBUS_VerifyChecksum_false_of_not_accepts (rx : Nat → Byte) (n p : Nat)
    (h1 : p + 8 ≤ n) (h2 : n ≤ 255) (hd : rx p = DEVICE_ID) (hr : rx (p + 1) = READ_COMMAND)
    (h3 : ¬ Accepts rx n p) : MODBUS_VerifyChecksum p rx = .ok false := by
  have hv := MODBUS_VerifyChecksum_eq rx p (by omega)
  rw [hv]
  congr 1
  by_contra hne
  apply h3
  refine ⟨h1, hd, hr, ?_⟩
  rw [hv]
  congr 1
  simpa using hne

/-- One pass through the loop body at a full position that is not accepted moves
the cursor one step and changes nothing else but the read log. -/
theorem scanBody_skip (m : Machine) (h1 : m.uiCheckIndex + 8 ≤ m.uiRxIndex)
    (h2 : m.uiRxIndex ≤ 255) (h3 : ¬ Accepts m.uiRxBuff m.uiRxIndex m.uiCheckIndex) :
    ∃ log, scanBody m =
      ({ m with uiCheckIndex := m.uiCheckIndex + 1, rxReads := log }, true) := by
  have c2 : m.uiCheckIndex + 7 < m.uiRxIndex := by omega
  have e1 : (m.uiCheckIndex + 1) % 256 = m.uiCheckIndex + 1 := Nat.mod_eq_of_lt (by omega)
  by_cases hd : DEVICE_ID = m.uiRxBuff m.uiCheckIndex
  · by_cases hr : m.uiRxBuff (m.uiCheckIndex + 1) = READ_COMMAND
    · have hfalse := MODBUS_VerifyChecksum_false_of_not_accepts _ _ _ h1 h2 hd.symm hr h3
      refine ⟨(logReads (logReads (logReads m [m.uiCheckIndex]) [m.uiCheckIndex + 1])
        (MODBUS_VerifyChecksum_reads m.uiCheckIndex)).rxReads, ?_⟩
      unfold scanBody scanDispatch
      simp only [logReads]
      rw [if_pos hd, if_pos c2, if_pos hr, hfalse, e1]
    · refine ⟨(logReads (logReads m [m.uiCheckIndex]) [m.uiCheckIndex + 1]).rxReads, ?_⟩
      unfold scanBody scanDispatch
      simp only [logReads]
      rw [if_pos hd, if_pos c2, if_neg hr, e1]
  · refine ⟨(logReads m [m.uiCheckIndex]).rxReads, ?_⟩
    unfold scanBody
    simp only [logReads]
    rw [if_neg hd, e1]

/-- The loop body at an accepted position whose response can be built. -/
theorem scanBody_accept (m : Machine) (tx : Nat → Byte) (len : Nat)
    (h : Accepts m.uiRxBuff m.uiRxIndex m.uiCheckIndex)
    (hp : MODBUS_PrepareResponse m.uiCheckIndex m.uiRxBuff m.uiTxBuff = .ok (tx, len)) :
    ∃ log, scanBody m = (responded m tx len log, true) := by
  obtain ⟨h1, hd, hr, hv⟩ := h
  have c2 : m.uiCheckIndex + 7 < m.uiRxIndex := by omega
  refine ⟨(logReads (logReads (logReads (logReads m [m.uiCheckIndex]) [m.uiCheckIndex + 1])
    (MODBUS_VerifyChecksum_reads m.uiCheckIndex))
    (MODBUS_PrepareResponse_reads m.uiCheckIndex)).rxReads, ?_⟩
  unfold scanBody scanDispatch scanRespond
  simp only [logReads]
  rw [if_pos hd.symm, if_pos c2, if_pos hr, hv]
  simp only [hp]
  rfl

/-- The loop skips a run of full positions none of which is accepted. -/
theorem scanLoop_skip (k : Nat) :
    ∀ (f : Nat) (m : Machine), m.uiCheckIndex + k + 7 ≤ m.uiRxIndex → m.uiRxIndex ≤ 255 →
      (∀ q, m.uiCheckIndex ≤ q → q < m.uiCheckIndex + k → ¬ Accepts m.uiRxBuff m.uiRxIndex q) →
      ∃ log, scanLoop (f + k) m =
        scanLoop f { m with uiCheckIndex := m.uiCheckIndex + k, rxReads := log } := by
  induction k with
  | zero => intro f m _ _ _; exact ⟨m.rxReads, rfl⟩
  | succ k ih =>
    intro f m h1 h2 h3
    obtain ⟨log, hb⟩ := scanBody_skip m (by omega) h2 (h3 _ (Nat.le_refl _) (by omega))
    obtain ⟨log', hl⟩ := ih f { m with uiCheckIndex := m.uiCheckIndex + 1, rxReads := log }
      (by simp only; omega) h2 (fun q hq1 hq2 => h3 q (by simp only at hq1; omega)
        (by simp only at hq2; omega))
    refine ⟨log', ?_⟩
    rw [show f + (k + 1) = (f + k) + 1 by omega, scanLoop, if_pos (by omega), hb]
    simp only
    rw [hl]
    simp only [Nat.add_assoc, Nat.add_comm 1 k]

/-- A pass with the error flag clear. -/
theorem scannerPass_clear (m : Machine) (hf : m.fault = none) (he : m.bErrorFlag = false) :
    scannerPass m =
      if 8 ≤ m.uiRxIndex then
        if (scanLoop 256 { m with uiCheckIndex := 0 }).fault.isSome &&
            (scanLoop 256 { m with uiCheckIndex := 0 }).hung then
          scanLoop 256 { m with uiCheckIndex := 0 }
        else if (scanLoop 256 { m with uiCheckIndex := 0 }).uiCheckIndex =
            (scanLoop 256 { m with uiCheckIndex := 0 }).uiRxIndex then
          MODBUS_ResetState (scanLoop 256 { m with uiCheckIndex := 0 })
        else scanLoop 256 { m with uiCheckIndex := 0 }
      else m := by
  unfold scannerPass
  simp only [hf, he, PACKET_SIZE, Option.isSome_none, Bool.false_and, Bool.false_eq_true, if_false]

/-- A pass that finds an accepted position whose response can be built, with no
accepted position before it, transmits that response and resets. -/
theorem scannerPass_accept (m : Machine) (p : Nat) (tx : Nat → Byte) (len : Nat)
    (hf : m.fault = none) (he : m.bErrorFlag = false) (h2 : m.uiRxIndex ≤ 255)
    (ha : Accepts m.uiRxBuff m.uiRxIndex p)
    (hleast : ∀ q, q < p → ¬ Accepts m.uiRxBuff m.uiRxIndex q)
    (hp : MODBUS_PrepareResponse p m.uiRxBuff m.uiTxBuff = .ok (tx, len)) :
    ∃ log, scannerPass m = responded m tx len log := by
  have hp8 : p + 8 ≤ m.uiRxIndex := ha.1
  obtain ⟨log, hs⟩ := scanLoop_skip p (254 - p + 2) { m with uiCheckIndex := 0 }
    (by simp only; omega) h2 (fun q _ hq => hleast q (by simp only at hq; omega))
  obtain ⟨log', hb⟩ := scanBody_accept { m with uiCheckIndex := 0 + p, rxReads := log } tx len
    (by simpa using ha) (by simpa using hp)
  have hloop : scanLoop 256 { m with uiCheckIndex := 0 } = responded m tx len log' := by
    rw [show 256 = 254 - p + 2 + p by omega, hs, scanLoop, if_pos (by simp only; omega), hb]
    simp only [scanLoop, responded, Nat.lt_irrefl, if_false]
  refine ⟨log', ?_⟩
  rw [scannerPass_clear m hf he, if_pos (by omega), hloop]
  simp only [responded, hf, Option.isSome_none, Bool.false_and, Bool.false_eq_true, if_false, if_true,
    MODBUS_ResetState]

theorem irqTX_iterate (k : Nat) :
    ∀ m : Machine, m.fault = none → m.uiTxIndex + k ≤ m.uiTxBuffLength →
      m.uiTxBuffLength ≤ 100 →
      (UART_0_INST_IRQHandler .TX)^[k] m =
        { m with uiTxIndex := m.uiTxIndex + k,
                 wire := m.wire ++ (List.range' m.uiTxIndex k).map m.uiTxBuff } := by
  induction k with
  | zero => intro m _ _ _; simp
  | succ k ih =>
    intro m hf h1 h2
    have hstep : UART_0_INST_IRQHandler .TX m =
        { m with uiTxIndex := m.uiTxIndex + 1, wire := m.wire ++ [m.uiTxBuff m.uiTxIndex] } := by
      have e1 : (m.uiTxIndex + 1) % 256 = m.uiTxIndex + 1 := Nat.mod_eq_of_lt (by omega)
      unfold UART_0_INST_IRQHandler
      simp only [txByte, hf, Option.isSome_none, Bool.false_and, Bool.false_eq_true, if_false,
        UART_transmitByte, BUFFER_SIZE]
      rw [if_pos (by omega), if_neg (by omega), e1]
    rw [Function.iterate_succ_apply, hstep,
      ih { m with uiTxIndex := m.uiTxIndex + 1, wire := m.wire ++ [m.uiTxBuff m.uiTxIndex] } hf
        (by simp only; omega) h2]
    simp only [List.range'_succ, List.map_cons, List.append_assoc, List.singleton_append,
      Nat.add_assoc, Nat.add_comm 1 k]

/-- The bytes on the wire once a response has been handed over and drained. -/
theorem txDrain_responded (m : Machine) (tx : Nat → Byte) (len : Nat) (log : List (Nat × Nat))
    (hf : m.fault = none) (h1 : 1 ≤ len) (h2 : len ≤ 100) :
    (txDrain (responded m tx len log)).wire = m.wire ++ (List.range len).map tx := by
  obtain ⟨k, rfl⟩ : ∃ k, len = k + 1 := ⟨len - 1, by omega⟩
  unfold txDrain
  have hk := irqTX_iterate k (responded m tx (k + 1) log) hf (by simp [responded]; omega)
    (by simpa [responded] using h2)
  rw [show (responded m tx (k + 1) log).uiTxBuffLength = k + 1 from rfl,
    Function.iterate_succ_apply', hk]
  unfold UART_0_INST_IRQHandler
  simp only [responded, hf, Option.isSome_none, Bool.false_and, Bool.false_eq_true, if_false]
  rw [if_neg (by omega)]
  simp only [List.range_eq_range', List.range'_succ, List.map_cons, List.append_assoc,
    List.singleton_append]

theorem scanBody_no_accept (m : Machine)
    (hn : ∀ p, ¬ Accepts m.uiRxBuff m.uiRxIndex p) (h2 : m.uiRxIndex ≤ 255)
    (hc : m.uiCheckIndex < m.uiRxIndex) :
    (scanBody m).1.wire = m.wire ∧ (scanBody m).1.uiRxBuff = m.uiRxBuff ∧
      ((scanBody m).2 = true → (scanBody m).1.uiRxIndex = m.uiRxIndex) := by
  by_cases h8 : m.uiCheckIndex + 8 ≤ m.uiRxIndex
  · obtain ⟨log, hb⟩ := scanBody_skip m h8 h2 (hn _)
    rw [hb]
    exact ⟨rfl, rfl, fun _ => rfl⟩
  · have c2 : ¬ m.uiCheckIndex + 7 < m.uiRxIndex := by omega
    unfold scanBody
    simp only [logReads]
    by_cases hd : DEVICE_ID = m.uiRxBuff m.uiCheckIndex
    · rw [if_pos hd, if_neg c2]
      unfold scanWait
      by_cases hw : m.uiWaitCount ≥ MAXWAITCOUNT
      · simp [if_pos hw, MODBUS_ResetState]
      · simp [if_neg hw]
    · rw [if_neg hd]
      exact ⟨rfl, rfl, fun _ => rfl⟩

theorem scanLoop_no_accept (f : Nat) :
    ∀ m : Machine, (∀ p, ¬ Accepts m.uiRxBuff m.uiRxIndex p) → m.uiRxIndex ≤ 255 →
      (scanLoop f m).wire = m.wire := by
  induction f with
  | zero => intro m _ _; rfl
  | succ f ih =>
    intro m hn h2
    rw [scanLoop]
    by_cases hc : m.uiCheckIndex < m.uiRxIndex
    · rw [if_pos hc]
      obtain ⟨hw, hrx, hidx⟩ := scanBody_no_accept m hn h2 hc
      rcases hb : scanBody m with ⟨m', b⟩
      rw [hb] at hw hrx hidx
      cases b with
      | true =>
        simp only at hw hrx hidx ⊢
        rw [ih m' (by rw [hrx, hidx trivial]; exact hn) (by rw [hidx trivial]; exact h2), hw]
      | false => exact hw
    · rw [if_neg hc]

theorem scannerPass_no_accept (m : Machine) (hf : m.fault = none) (he : m.bErrorFlag = false)
    (h2 : m.uiRxIndex ≤ 255) (hn : ∀ p, ¬ Accepts m.uiRxBuff m.uiRxIndex p) :
    (scannerPass m).wire = m.wire := by
  have hl := scanLoop_no_accept 256 { m with uiCheckIndex := 0 } hn h2
  rw [scannerPass_clear m hf he]
  split
  · split
    · exact hl
    · split
      · exact hl
      · exact hl
  · rfl


/-! ## Byte intake -/

/-- C9: the receive interrupt on a session with `n ≤ 100` bytes buffered.  When
`n < 100` it stores the byte at index `n`, sets the length to `n + 1`, and changes
no other buffer byte and not the error flag; when `n = 100` it sets the error
flag and leaves the length and every buffer byte unchanged.  Either way the
length stays at most 100. -/
theorem UART_receive_append (m : Machine) (b : Byte) (hf : m.fault = none)
    (hn : m.uiRxIndex ≤ 100) :
    (m.uiRxIndex < 100 →
      (UART_0_INST_IRQHandler (.RX b) m).uiRxBuff m.uiRxIndex = b ∧
      (UART_0_INST_IRQHandler (.RX b) m).uiRxIndex = m.uiRxIndex + 1 ∧
      (∀ i, i ≠ m.uiRxIndex →
        (UART_0_INST_IRQHandler (.RX b) m).uiRxBuff i = m.uiRxBuff i) ∧
      (UART_0_INST_IRQHandler (.RX b) m).bErrorFlag = m.bErrorFlag) ∧
    (m.uiRxIndex = 100 →
      (UART_0_INST_IRQHandler (.RX b) m).bErrorFlag = true ∧
      (UART_0_INST_IRQHandler (.RX b) m).uiRxIndex = 100 ∧
      ∀ i, (UART_0_INST_IRQHandler (.RX b) m).uiRxBuff i = m.uiRxBuff i) ∧
    (UART_0_INST_IRQHandler (.RX b) m).uiRxIndex ≤ 100 ∧
    (UART_0_INST_IRQHandler (.RX b) m).fault = none := by
  unfold UART_0_INST_IRQHandler
  simp only [hf, Option.isSome_none, Bool.false_and, Bool.false_eq_true, if_false, BUFFER_SIZE]
  by_cases h : m.uiRxIndex = 100
  · simp [h]
  · have hlt : m.uiRxIndex < 100 := by omega
    have e1 : (m.uiRxIndex + 1) % 256 = m.uiRxIndex + 1 := Nat.mod_eq_of_lt (by omega)
    rw [if_pos (by simpa using h), if_neg (by omega)]
    simp only [e1, Function.update_same, hf]
    refine ⟨fun _ => ⟨trivial, trivial, fun i hi => Function.update_noteq hi _ _, trivial⟩,
      fun h' => absurd h' h, by omega, trivial⟩

theorem UART_receive_append_witness :
    ((stallMachine.fault = none ∧ stallMachine.uiRxIndex = 8) ∧
      (UART_0_INST_IRQHandler (.RX 0x01) stallMachine).uiRxBuff stallMachine.uiRxIndex = 0x01 ∧
      (UART_0_INST_IRQHandler (.RX 0x01) stallMachine).uiRxIndex = stallMachine.uiRxIndex + 1 ∧
      (∀ i, i ≠ stallMachine.uiRxIndex →
        (UART_0_INST_IRQHandler (.RX 0x01) stallMachine).uiRxBuff i = stallMachine.uiRxBuff i) ∧
      (UART_0_INST_IRQHandler (.RX 0x01) stallMachine).bErrorFlag = stallMachine.bErrorFlag) ∧
    ((fullMachine.fault = none ∧ fullMachine.uiRxIndex = 100 ∧
        fullMachine.bErrorFlag = false) ∧
      (UART_0_INST_IRQHandler (.RX 0x01) fullMachine).bErrorFlag = true ∧
      (UART_0_INST_IRQHandler (.RX 0x01) fullMachine).uiRxIndex = 100 ∧
      ∀ i, (UART_0_INST_IRQHandler (.RX 0x01) fullMachine).uiRxBuff i = fullMachine.uiRxBuff i) :=
  ⟨⟨⟨rfl, rfl⟩, (UART_receive_append stallMachine 0x01 rfl (by decide)).1 (by decide)⟩,
    ⟨⟨rfl, rfl, rfl⟩, (UART_receive_append fullMachine 0x01 rfl (by decide)).2.1 rfl⟩⟩

/-- The receive interrupt, while there is room, extends the committed bytes. -/
theorem receiveBytes_spec (l : List Byte) :
    ∀ m : Machine, m.fault = none → m.uiRxIndex + l.length ≤ 100 →
      ∃ rx, receiveBytes l m =
          { m with uiRxBuff := rx, uiRxIndex := m.uiRxIndex + l.length } ∧
        (∀ i, i < l.length → rx (m.uiRxIndex + i) = l.getD i 0) ∧
        (∀ i, i < m.uiRxIndex → rx i = m.uiRxBuff i) := by
  induction l with
  | nil => intro m _ _; exact ⟨m.uiRxBuff, rfl, fun i hi => by simp at hi, fun _ _ => rfl⟩
  | cons b l ih =>
    intro m hf hn
    simp only [List.length_cons] at hn
    have hstep : UART_0_INST_IRQHandler (.RX b) m =
        { m with uiRxBuff := Function.update m.uiRxBuff m.uiRxIndex b,
                 uiRxIndex := m.uiRxIndex + 1 } := by
      have e1 : (m.uiRxIndex + 1) % 256 = m.uiRxIndex + 1 := Nat.mod_eq_of_lt (by omega)
      unfold UART_0_INST_IRQHandler
      simp only [hf, Option.isSome_none, Bool.false_and, Bool.false_eq_true, if_false, BUFFER_SIZE]
      rw [if_pos (by omega), if_neg (by omega), e1]
    obtain ⟨rx, h1, h2, h3⟩ :=
      ih { m with uiRxBuff := Function.update m.uiRxBuff m.uiRxIndex b,
                  uiRxIndex := m.uiRxIndex + 1 } hf (by simp only; omega)
    simp only at h1 h2 h3
    refine ⟨rx, ?_, ?_, ?_⟩
    · simp only [receiveBytes, List.foldl_cons] at h1 ⊢
      rw [hstep, h1]
      simp only [List.length_cons, Nat.add_assoc, Nat.add_comm 1]
    · intro i hi
      cases i with
      | zero =>
        rw [Nat.add_zero, h3 m.uiRxIndex (by omega), Function.update_same]
        rfl
      | succ i =>
        simp only [List.length_cons] at hi
        rw [show m.uiRxIndex + (i + 1) = m.uiRxIndex + 1 + i by omega, h2 i (by omega)]
        rfl
    · intro i hi
      rw [h3 i (by omega), Function.update_noteq (by omega)]

/-- With fewer than 8 bytes committed and the error flag clear, a pass does
nothing. -/
theorem scannerPass_short (m : Machine) (hf : m.fault = none) (he : m.bErrorFlag = false)
    (h : m.uiRxIndex < 8) : scannerPass m = m := by
  rw [scannerPass_clear m hf he, if_neg (by omega)]

theorem scannerPass_short_iterate (m : Machine) (hf : m.fault = none)
    (he : m.bErrorFlag = false) (h : m.uiRxIndex < 8) (j : Nat) : scannerPass^[j] m = m := by
  induction j with
  | zero => rfl
  | succ j ih => rw [Function.iterate_succ_apply', ih, scannerPass_short m hf he h]


theorem MODBUS_PrepareResponse_congr (i j : Nat) (rx rx' tx : Nat → Byte)
    (h : ∀ k, k < 6 → rx (i + k) = rx' (j + k)) :
    MODBUS_PrepareResponse i rx tx = MODBUS_PrepareResponse j rx' tx := by
  have h0 := h 0 (by decide)
  have h1 := h 1 (by decide)
  have h2 := h 2 (by decide)
  have h3 := h 3 (by decide)
  have h4 := h 4 (by decide)
  have h5 := h 5 (by decide)
  simp only [Nat.add_zero] at h0
  unfold MODBUS_PrepareResponse
  rw [h0, h1, h2, h3, h4, h5]

theorem requestStart_congr (i j : Nat) (rx rx' : Nat → Byte)
    (h : ∀ k, k < 6 → rx (i + k) = rx' (j + k)) :
    requestStart rx i = requestStart rx' j := by
  unfold requestStart; rw [h 2 (by decide), h 3 (by decide)]

theorem requestCount_congr (i j : Nat) (rx rx' : Nat → Byte)
    (h : ∀ k, k < 6 → rx (i + k) = rx' (j + k)) :
    requestCount rx i = requestCount rx' j := by
  unfold requestCount; rw [h 4 (by decide), h 5 (by decide)]

/-- A read request committed at position `p` of the buffer is accepted there. -/
theorem accepts_request (F : List Byte) (hF : IsReadRequest F) (rx : Nat → Byte) (n p : Nat)
    (hp : p + 8 ≤ n) (hn : n ≤ 255) (hrx : ∀ k, k < 8 → rx (p + k) = bufOf F k) :
    Accepts rx n p := by
  obtain ⟨_, f0, f1, _, flo, fhi⟩ := hF
  refine ⟨hp, ?_, ?_, ?_⟩
  · have := hrx 0 (by decide); rw [Nat.add_zero] at this; rw [this, f0]
  · rw [hrx 1 (by decide), f1]
  · rw [ MODBUS_VerifyChecksum_eq rx p (by omega), hrx 7 (by decide), hrx 6 (by decide),
      MODBUS_GetCheckSum_congr (fun k hk => hrx k (by omega)), flo, fhi]
    congr 1
    apply decide_eq_true
    omega

/-- The response to a read request committed at position `p` can be built, and is
the response to the request itself. -/
theorem response_request (F : List Byte) (hF : IsReadRequest F) (rx tx : Nat → Byte) (p : Nat)
    (hrx : ∀ k, k < 8 → rx (p + k) = bufOf F k) :
    ∃ tx' len, MODBUS_PrepareResponse 0 (bufOf F) tx = .ok (tx', len) ∧
      MODBUS_PrepareResponse p rx tx = .ok (tx', len) ∧ 1 ≤ len ∧ len ≤ 100 := by
  obtain ⟨_, _, _, hr, _, _⟩ := hF
  obtain ⟨tx', h0, _⟩ := MODBUS_PrepareResponse_layout 0 (bufOf F) tx _ _ rfl rfl hr
  refine ⟨tx', _, h0, ?_, by omega, ?_⟩
  · rw [ MODBUS_PrepareResponse_congr p 0 rx (bufOf F) tx
      (fun k hk => by rw [hrx k (by omega), Nat.zero_add]), h0]
  · unfold requestStart requestCount at hr
    simp only [Nat.zero_add] at hr ⊢
    omega

/-- C8 (as amended): from the reset state, after `k` bytes with `1 ≤ k < 8` and
nothing further, scanner passes never force a reset: every pass leaves the
session state unchanged, so after any number `j` of passes the buffer length is
still `k` and the wait counter still 0. -/
theorem short_buffer_never_reset (l : List Byte) (m : Machine) (hm : IsResetState m)
    (h1 : 1 ≤ l.length) (h8 : l.length < 8) (j : Nat) :
    scannerPass^[j] (receiveBytes l m) = receiveBytes l m ∧
    (scannerPass^[j] (receiveBytes l m)).uiRxIndex = l.length ∧
    (scannerPass^[j] (receiveBytes l m)).uiWaitCount = 0 := by
  obtain ⟨hf, hi, _, hw, he⟩ := hm
  obtain ⟨rx1, e1, _, _⟩ := receiveBytes_spec l m hf (by rw [hi]; omega)
  rw [hi, Nat.zero_add] at e1
  have hfix : scannerPass^[j] (receiveBytes l m) = receiveBytes l m := by
    rw [e1]
    exact scannerPass_short_iterate { m with uiRxBuff := rx1, uiRxIndex := l.length } hf he h8 j
  rw [hfix]
  refine ⟨rfl, ?_, ?_⟩
  · rw [e1]
  · rw [e1]; exact hw

theorem short_buffer_never_reset_witness :
    (IsResetState boot ∧ 1 ≤ [DEVICE_ID].length ∧ [DEVICE_ID].length < 8) ∧
    (scannerPass^[1000] (receiveBytes [DEVICE_ID] boot) = receiveBytes [DEVICE_ID] boot ∧
    (scannerPass^[1000] (receiveBytes [DEVICE_ID] boot)).uiRxIndex = [DEVICE_ID].length ∧
    (scannerPass^[1000] (receiveBytes [DEVICE_ID] boot)).uiWaitCount = 0) :=
  ⟨⟨⟨rfl, rfl, rfl, rfl, rfl⟩, by decide, by decide⟩,
    short_buffer_never_reset [DEVICE_ID] boot ⟨rfl, rfl, rfl, rfl, rfl⟩ (by decide) (by decide)
      1000⟩

/-- C8 fails as stated: with the single byte `0x01` buffered, the buffer length
after `MAXWAITCOUNT` (1000) passes is still 1, not 0. -/
theorem short_buffer_not_reset_after_MAXWAITCOUNT :
    IsResetState boot ∧ [DEVICE_ID].length = 1 ∧
    (scannerPass^[MAXWAITCOUNT] (receiveBytes [DEVICE_ID] boot)).uiRxIndex = 1 ∧
    (scannerPass^[MAXWAITCOUNT] (receiveBytes [DEVICE_ID] boot)).uiRxIndex ≠ 0 := by
  have hfix : scannerPass^[MAXWAITCOUNT] (receiveBytes [DEVICE_ID] boot) =
      receiveBytes [DEVICE_ID] boot :=
    scannerPass_short_iterate (receiveBytes [DEVICE_ID] boot) rfl rfl (by decide) MAXWAITCOUNT
  rw [hfix]
  exact ⟨⟨rfl, rfl, rfl, rfl, rfl⟩, rfl, by decide, by decide⟩

/-! ## A damaged checksum followed by a genuine request -/

theorem flipBit_ne : ∀ (b : Byte) (j : Fin 8), (flipBit b j.val).val ≠ b.val := by decide

theorem crc_false_match_5 :
    ∀ x : Byte, 256 ≤ MODBUS_GetCheckSum (bufOf [0x01, 0x03, x, 0x01, 0x03, 0x00]) 6 := by
  decide

theorem crc_false_match_6 :
    ∀ s : Byte, MODBUS_GetCheckSum (bufOf [0x01, 0x03, 0x01, 0x03, 0x00, s]) 6 % 256 ≠ 0 := by
  decide

theorem list_length_eight (l : List Byte) (h : l.length = 8) :
    ∃ a b c d e f g k, l = [a, b, c, d, e, f, g, k] := by
  match l, h with
  | [a, b, c, d, e, f, g, k], _ => exact ⟨a, b, c, d, e, f, g, k, rfl⟩


theorem flipChecksumBit_cases (a b c d e f g k : Byte) (bit : Nat) (h : bit < 16) :
    ∃ x y, flipChecksumBit [a, b, c, d, e, f, g, k] bit = [a, b, c, d, e, f, x, y] ∧
      (x.val ≠ g.val ∨ y.val ≠ k.val) := by
  by_cases h8 : bit < 8
  · have e1 : bit / 8 = 0 := by omega
    have e2 : bit % 8 = bit := by omega
    refine ⟨flipBit g bit, k, ?_, Or.inl (flipBit_ne g ⟨bit, h8⟩)⟩
    simp [flipChecksumBit, e1, e2]
  · have e1 : bit / 8 = 1 := by omega
    have h8' : bit % 8 < 8 := by omega
    refine ⟨g, flipBit k (bit % 8), ?_, Or.inr (flipBit_ne k ⟨bit % 8, h8'⟩)⟩
    simp [flipChecksumBit, e1]

/-- In a buffer that holds a read request with a damaged checksum followed by a
genuine read request, no position before the genuine request is accepted. -/
theorem no_accept_before_genuine (rx : Nat → Byte) (f2 f3 f4 f5 f6 f7 x y g3 g4 g5 : Byte)
    (hstart : f2.val * 256 + f3.val + (f4.val * 256 + f5.val) ≤ 10)
    (hg : g4.val * 256 + g5.val ≤ 10)
    (hlo : f6.val = MODBUS_GetCheckSum (bufOf [DEVICE_ID, READ_COMMAND, f2, f3, f4, f5]) 6 % 256)
    (hhi : f7.val = MODBUS_GetCheckSum (bufOf [DEVICE_ID, READ_COMMAND, f2, f3, f4, f5]) 6 / 256)
    (hxy : x.val ≠ f6.val ∨ y.val ≠ f7.val)
    (hrx : ∀ i, i < 14 → rx i =
      bufOf [DEVICE_ID, READ_COMMAND, f2, f3, f4, f5, x, y,
             DEVICE_ID, READ_COMMAND, 0, g3, g4, g5] i) :
    ∀ q, q < 8 → ¬ Accepts rx 16 q := by
  have r0 : rx 0 = DEVICE_ID := hrx 0 (by decide)
  have r1 : rx 1 = READ_COMMAND := hrx 1 (by decide)
  have r2 : rx 2 = f2 := hrx 2 (by decide)
  have r3 : rx 3 = f3 := hrx 3 (by decide)
  have r4 : rx 4 = f4 := hrx 4 (by decide)
  have r5 : rx 5 = f5 := hrx 5 (by decide)
  have r6 : rx 6 = x := hrx 6 (by decide)
  have r7 : rx 7 = y := hrx 7 (by decide)
  have r8 : rx 8 = DEVICE_ID := hrx 8 (by decide)
  have r9 : rx 9 = READ_COMMAND := hrx 9 (by decide)
  have r10 : rx 10 = 0 := hrx 10 (by decide)
  have r11 : rx 11 = g3 := hrx 11 (by decide)
  have r12 : rx 12 = g4 := hrx 12 (by decide)
  have r13 : rx 13 = g5 := hrx 13 (by decide)
  have hf2 : f2.val = 0 := by omega
  have hf4 : f4.val = 0 := by omega
  have hg4 : g4.val = 0 := by omega
  have hx := x.isLt
  have hy := y.isLt
  have h6 := f6.isLt
  have h7 := f7.isLt
  intro q hq ⟨_, hd, hr, hv⟩
  rw [ MODBUS_VerifyChecksum_eq rx q (by omega)] at hv
  have hv' := of_decide_eq_true (Except.ok.inj hv)
  interval_cases q
  · -- position 0: the checksum bytes are not those of the request
    have hc : MODBUS_GetCheckSum (fun k => rx (0 + k)) 6 =
        MODBUS_GetCheckSum (bufOf [DEVICE_ID, READ_COMMAND, f2, f3, f4, f5]) 6 := by
      apply MODBUS_GetCheckSum_congr
      intro k hk
      rw [Nat.zero_add]
      interval_cases k <;> simp [bufOf, r0, r1, r2, r3, r4, r5]
    rw [hc] at hv'
    simp only [Nat.zero_add, r6, r7] at hv'
    omega
  · rw [r1] at hd; exact absurd hd (by decide)
  · rw [r2] at hd; rw [hd] at hf2; exact absurd hf2 (by decide)
  · simp only [Nat.reduceAdd] at hr; rw [r4] at hr; rw [hr] at hf4; exact absurd hf4 (by decide)
  · rw [r4] at hd; rw [hd] at hf4; exact absurd hf4 (by decide)
  · -- position 5: the checksum field would have to be below 256
    simp only [Nat.reduceAdd] at hr hv'
    have hc : MODBUS_GetCheckSum (fun k => rx (5 + k)) 6 =
        MODBUS_GetCheckSum (bufOf [0x01, 0x03, y, 0x01, 0x03, 0x00]) 6 := by
      apply MODBUS_GetCheckSum_congr
      intro k hk
      interval_cases k <;> simp [bufOf, r7, r8, r9, r10] <;> first | exact hd | exact hr | rfl
    have := crc_false_match_5 y
    rw [hc, r12, r11] at hv'
    have := g3.isLt
    omega
  · -- position 6: the low checksum byte would have to be 0
    simp only [Nat.reduceAdd] at hr hv'
    have hc : MODBUS_GetCheckSum (fun k => rx (6 + k)) 6 =
        MODBUS_GetCheckSum (bufOf [0x01, 0x03, 0x01, 0x03, 0x00, g3]) 6 := by
      apply MODBUS_GetCheckSum_congr
      intro k hk
      interval_cases k <;> simp [bufOf, r8, r9, r10, r11] <;> first | exact hd | exact hr | rfl
    have := crc_false_match_6 g3
    rw [hc, r13, r12] at hv'
    omega
  · simp only [Nat.reduceAdd] at hr; rw [r8] at hr; exact absurd hr (by decide)


theorem logReads_inBounds (m : Machine) (l : List Nat) (h : ReadsInBounds m)
    (hl : ∀ i, i ∈ l → i < m.uiRxIndex) : ReadsInBounds (logReads m l) := by
  intro r hr
  simp only [logReads, List.mem_append, List.mem_map] at hr
  rcases hr with hr | ⟨i, hi, rfl⟩
  · exact h r hr
  · exact hl i hi

theorem readsInBounds_of_eq {m m' : Machine} (h : m'.rxReads = m.rxReads)
    (hm : ReadsInBounds m) : ReadsInBounds m' := by
  intro r hr; rw [h] at hr; exact hm r hr

theorem scanRespond_inBounds (m : Machine) (h : ReadsInBounds m)
    (hc : m.uiCheckIndex + 7 < m.uiRxIndex) : ReadsInBounds (scanRespond m).1 := by
  have h1 := logReads_inBounds m (MODBUS_PrepareResponse_reads m.uiCheckIndex) h (by
    intro i hi
    simp only [ MODBUS_PrepareResponse_reads, List.mem_cons, List.mem_singleton,
      List.not_mem_nil, or_false] at hi
    omega)
  unfold scanRespond
  simp only
  split
  · split
    · exact readsInBounds_of_eq rfl h1
    · exact readsInBounds_of_eq rfl h1
  · exact readsInBounds_of_eq rfl h1

theorem scanDispatch_inBounds (m : Machine) (h : ReadsInBounds m)
    (hc : m.uiCheckIndex + 7 < m.uiRxIndex) : ReadsInBounds (scanDispatch m).1 := by
  have h1 := logReads_inBounds m [m.uiCheckIndex + 1] h (by
    intro i hi
    simp only [List.mem_singleton] at hi
    omega)
  have h2 := logReads_inBounds (logReads m [m.uiCheckIndex + 1])
    (MODBUS_VerifyChecksum_reads m.uiCheckIndex) h1 (by
    intro i hi
    simp only [ MODBUS_VerifyChecksum_reads, List.mem_append, List.mem_cons, List.mem_singleton,
      List.not_mem_nil, or_false, List.mem_map, List.mem_range] at hi
    rcases hi with hi | ⟨k, hk, rfl⟩
    · show i < m.uiRxIndex
      omega
    · show m.uiCheckIndex + k < m.uiRxIndex
      omega)
  unfold scanDispatch
  simp only
  split
  · split
    · exact readsInBounds_of_eq rfl h2
    · exact scanRespond_inBounds _ h2 hc
    · exact readsInBounds_of_eq rfl h2
  · exact readsInBounds_of_eq rfl h1

theorem scanBody_inBounds (m : Machine) (h : ReadsInBounds m)
    (hc : m.uiCheckIndex < m.uiRxIndex) : ReadsInBounds (scanBody m).1 := by
  have h1 := logReads_inBounds m [m.uiCheckIndex] h (by
    intro i hi
    simp only [List.mem_singleton] at hi
    omega)
  unfold scanBody
  simp only
  split
  · split
    · rename_i hc7
      exact scanDispatch_inBounds _ h1 hc7
    · unfold scanWait
      split
      · exact readsInBounds_of_eq rfl h1
      · exact readsInBounds_of_eq rfl h1
  · exact readsInBounds_of_eq rfl h1

theorem scanLoop_inBounds (f : Nat) :
    ∀ m : Machine, ReadsInBounds m → ReadsInBounds (scanLoop f m) := by
  induction f with
  | zero => intro m h; exact readsInBounds_of_eq rfl h
  | succ f ih =>
    intro m h
    rw [scanLoop]
    split
    · rename_i hc
      have hb := scanBody_inBounds m h hc
      rcases hs : scanBody m with ⟨m', b⟩
      rw [hs] at hb
      cases b with
      | true => exact ih m' hb
      | false => exact hb
    · exact h

theorem scannerPass_inBounds (m : Machine) (h : ReadsInBounds m) :
    ReadsInBounds (scannerPass m) := by
  have hreset : ∀ m' : Machine, ReadsInBounds m' → ReadsInBounds (MODBUS_ResetState m') :=
    fun m' h' => readsInBounds_of_eq rfl h'
  have h0 : ReadsInBounds (if m.bErrorFlag = true then MODBUS_ResetState m else m) := by
    split
    · exact hreset m h
    · exact h
  have body : ∀ m0 : Machine, ReadsInBounds m0 →
      ReadsInBounds
        (if PACKET_SIZE ≤ m0.uiRxIndex then
          if (scanLoop 256 { m0 with uiCheckIndex := 0 }).fault.isSome &&
              (scanLoop 256 { m0 with uiCheckIndex := 0 }).hung then
            scanLoop 256 { m0 with uiCheckIndex := 0 }
          else if (scanLoop 256 { m0 with uiCheckIndex := 0 }).uiCheckIndex =
              (scanLoop 256 { m0 with uiCheckIndex := 0 }).uiRxIndex then
            MODBUS_ResetState (scanLoop 256 { m0 with uiCheckIndex := 0 })
          else scanLoop 256 { m0 with uiCheckIndex := 0 }
        else m0) := by
    intro m0 hm0
    have hl := scanLoop_inBounds 256 { m0 with uiCheckIndex := 0 } (readsInBounds_of_eq rfl hm0)
    split
    · split
      · exact hl
      · split
        · exact hreset _ hl
        · exact hl
    · exact hm0
  unfold scannerPass
  split
  · exact h
  · exact body _ h0

theorem irq_rxReads (i : Irq) (m : Machine) :
    (UART_0_INST_IRQHandler i m).rxReads = m.rxReads := by
  unfold UART_0_INST_IRQHandler
  cases i <;> simp only [UART_transmitByte, recordFault] <;> (repeat' split) <;> rfl

theorem step_inBounds (m : Machine) (e : Event) (h : ReadsInBounds m) :
    ReadsInBounds (step m e) := by
  cases e with
  | irq i => exact readsInBounds_of_eq (irq_rxReads i m) h
  | pass => exact scannerPass_inBounds m h

theorem run_inBounds (es : List Event) :
    ∀ m : Machine, ReadsInBounds m → ReadsInBounds (run es m) := by
  induction es with
  | nil => intro m h; exact h
  | cons e es ih => intro m h; exact ih _ (step_inBounds m e h)

/-! ## The checksum engine against the reference CRC -/

/-- The reference gives the published check values of CRC-16/MODBUS. -/
theorem crc16Reference_check :
    crc16Reference [] = 0xFFFF ∧
    crc16Reference [0x31, 0x32, 0x33, 0x34, 0x35, 0x36, 0x37, 0x38, 0x39] = 0x4B37 := by
  decide

/-! ### Bits -/

theorem testBit_false_of_lt {c w i : Nat} (h : c < 2 ^ w) (hi : w ≤ i) : c.testBit i = false :=
  Nat.testBit_lt_two_pow (Nat.lt_of_lt_of_le h (Nat.pow_le_pow_right (by decide) hi))

theorem two_pow_mul_xor (k a b : Nat) : 2 ^ k * (a ^^^ b) = 2 ^ k * a ^^^ 2 ^ k * b := by
  apply Nat.eq_of_testBit_eq
  intro i
  simp only [Nat.testBit_mul_pow_two, Nat.testBit_xor]
  cases decide (i ≥ k) <;> simp

theorem two_mul_xor (a b : Nat) : 2 * (a ^^^ b) = 2 * a ^^^ 2 * b := by
  simpa using two_pow_mul_xor 1 a b

theorem two_pow_mul_add_eq_xor (w a : Nat) {b : Nat} (h : b < 2 ^ w) :
    2 ^ w * a + b = 2 ^ w * a ^^^ b := by
  apply Nat.eq_of_testBit_eq
  intro j
  simp only [Nat.testBit_mul_pow_two_add _ h, Nat.testBit_xor, Nat.testBit_mul_pow_two]
  by_cases hj : j < w
  · simp [hj, Nat.not_le_of_lt hj]
  · simp [hj, Nat.le_of_not_lt hj, testBit_false_of_lt h (Nat.le_of_not_lt hj)]

theorem xor_lt_of_same_top {w x y : Nat} (hx1 : 2 ^ w ≤ x) (hx2 : x < 2 ^ (w + 1))
    (hy1 : 2 ^ w ≤ y) (hy2 : y < 2 ^ (w + 1)) : x ^^^ y < 2 ^ w := by
  apply Nat.lt_pow_two_of_testBit
  intro i hi
  rw [Nat.testBit_xor]
  by_cases hiw : i = w
  · subst hiw
    have hxb : x.testBit i = true := by
      rw [show x = 2 ^ i + (x - 2 ^ i) by omega, Nat.testBit_two_pow_add_eq,
        Nat.testBit_lt_two_pow (by rw [Nat.pow_succ] at hx2; omega)]
      rfl
    have hyb : y.testBit i = true := by
      rw [show y = 2 ^ i + (y - 2 ^ i) by omega, Nat.testBit_two_pow_add_eq,
        Nat.testBit_lt_two_pow (by rw [Nat.pow_succ] at hy2; omega)]
      rfl
    rw [hxb, hyb]; rfl
  · rw [testBit_false_of_lt hx2 (by omega), testBit_false_of_lt hy2 (by omega)]; rfl

theorem xor_top_of_lt {w x y : Nat} (hx : x < 2 ^ w) (hy1 : 2 ^ w ≤ y) (hy2 : y < 2 ^ (w + 1)) :
    2 ^ w ≤ x ^^^ y ∧ x ^^^ y < 2 ^ (w + 1) := by
  constructor
  · apply Nat.testBit_implies_ge
    rw [Nat.testBit_xor, Nat.testBit_lt_two_pow hx,
      show y = 2 ^ w + (y - 2 ^ w) by omega, Nat.testBit_two_pow_add_eq,
      Nat.testBit_lt_two_pow (by rw [Nat.pow_succ] at hy2; omega)]
    rfl
  · exact Nat.xor_lt_two_pow (Nat.lt_of_lt_of_le hx (Nat.pow_le_pow_right (by decide)
      (Nat.le_succ w))) hy2

/-! ### Bit reversal -/

theorem reflect_lt (w c : Nat) : reflect w c < 2 ^ w := by
  induction w generalizing c with
  | zero => simp [reflect]
  | succ w ih =>
    have := ih (c / 2)
    have h2 : c % 2 < 2 := Nat.mod_lt _ (by decide)
    rw [reflect, Nat.pow_succ]
    rcases Nat.lt_or_ge (c % 2) 1 with h | h
    · have : c % 2 = 0 := by omega
      rw [this]; omega
    · have : c % 2 = 1 := by omega
      rw [this]; omega

theorem testBit_reflect (w : Nat) :
    ∀ c i, (reflect w c).testBit i = (decide (i < w) && c.testBit (w - 1 - i)) := by
  induction w with
  | zero => intro c i; simp [reflect]
  | succ w ih =>
    intro c i
    rw [reflect, Nat.mul_comm, Nat.testBit_mul_pow_two_add _ (reflect_lt w (c / 2))]
    by_cases hi : i < w
    · rw [if_pos hi, ih, Nat.testBit_div_two]
      simp only [hi, decide_True, Bool.true_and, show i < w + 1 by omega]
      congr 1
      omega
    · rw [if_neg hi]
      by_cases hiw : i = w
      · subst hiw
        simp only [Nat.sub_self, Nat.lt_succ_self, decide_True, Bool.true_and,
          Nat.add_sub_cancel, Nat.testBit_zero, Nat.mod_mod]
      · have h1 : ¬ i < w + 1 := by omega
        simp only [h1, decide_False, Bool.false_and]
        exact testBit_false_of_lt (w := 1) (Nat.mod_lt _ (by decide)) (by omega)

theorem reflect_xor (w a b : Nat) : reflect w (a ^^^ b) = reflect w a ^^^ reflect w b := by
  apply Nat.eq_of_testBit_eq
  intro i
  simp only [testBit_reflect, Nat.testBit_xor]
  cases decide (i < w) <;> simp

theorem reflect_add_of_lt (w k : Nat) {c : Nat} (h : c < 2 ^ w) :
    reflect (w + k) c = 2 ^ k * reflect w c := by
  apply Nat.eq_of_testBit_eq
  intro i
  simp only [testBit_reflect, Nat.testBit_mul_pow_two]
  by_cases hik : i < k
  · have : c.testBit (w + k - 1 - i) = false := testBit_false_of_lt h (by omega)
    simp [this, Nat.not_le_of_lt hik]
  · have e : w + k - 1 - i = w - 1 - (i - k) := by omega
    by_cases hiw : i < w + k
    · simp [hiw, Nat.le_of_not_lt hik, show i - k < w by omega, e]
    · simp [hiw, Nat.le_of_not_lt hik, show ¬ i - k < w by omega]

theorem reflect_reflect (w : Nat) {c : Nat} (h : c < 2 ^ w) : reflect w (reflect w c) = c := by
  apply Nat.eq_of_testBit_eq
  intro i
  simp only [testBit_reflect]
  by_cases hi : i < w
  · simp [hi, show w - 1 - i < w by omega, show w - 1 - (w - 1 - i) = i by omega]
  · simp [hi, testBit_false_of_lt h (Nat.le_of_not_lt hi)]


/-! ### Polynomial product -/

theorem polyMul_zero (g : Nat) : polyMul 0 g = 0 := by
  rw [polyMul]; simp

theorem polyMul_eq (q g : Nat) :
    polyMul q g = (if q % 2 = 1 then g else 0) ^^^ (2 * polyMul (q / 2) g) := by
  by_cases h : q = 0
  · subst h; simp [polyMul_zero]
  · rw [polyMul, dif_neg h]

theorem polyMul_one (g : Nat) : polyMul 1 g = g := by
  rw [polyMul_eq]; simp [polyMul_zero]

theorem polyMul_two_mul_add (q e g : Nat) (he : e < 2) :
    polyMul (2 * q + e) g = (if e = 1 then g else 0) ^^^ (2 * polyMul q g) := by
  rw [polyMul_eq, show (2 * q + e) % 2 = e by omega, show (2 * q + e) / 2 = q by omega]

theorem xor_left_comm' (a b c : Nat) : a ^^^ (b ^^^ c) = b ^^^ (a ^^^ c) := by
  rw [← Nat.xor_assoc, Nat.xor_comm a b, Nat.xor_assoc]

theorem polyMul_xor (g : Nat) : ∀ a b, polyMul (a ^^^ b) g = polyMul a g ^^^ polyMul b g := by
  intro a
  induction a using Nat.strong_induction_on with
  | _ a ih =>
    intro b
    by_cases ha : a = 0
    · subst ha; simp [polyMul_zero]
    · rw [polyMul_eq (a ^^^ b), polyMul_eq a, polyMul_eq b, Nat.xor_div_two,
        ih (a / 2) (by omega) (b / 2), two_mul_xor, Nat.xor_mod_two_eq]
      rcases Nat.mod_two_eq_zero_or_one a with h1 | h1 <;>
        rcases Nat.mod_two_eq_zero_or_one b with h2 | h2
      · rw [show (a + b) % 2 = 0 by omega, h1, h2]
        simp
      · rw [show (a + b) % 2 = 1 by omega, h1, h2]
        simp only [if_true, if_false, Nat.zero_ne_one, Nat.zero_xor]
        exact xor_left_comm' _ _ _
      · rw [show (a + b) % 2 = 1 by omega, h1, h2]
        simp only [if_true, if_false, Nat.zero_ne_one, Nat.zero_xor, Nat.xor_assoc]
      · rw [show (a + b) % 2 = 0 by omega, h1, h2]
        simp only [if_true, if_false, Nat.zero_ne_one, Nat.zero_xor, Nat.xor_assoc]
        rw [xor_left_comm' (2 * polyMul (a / 2) g) g, ← Nat.xor_assoc g g, Nat.xor_self,
          Nat.zero_xor]

/-- A nonzero multiple of a polynomial of degree 16 has degree at least 16. -/
theorem polyMul_degree (g : Nat) (hg1 : 2 ^ 16 ≤ g) (hg2 : g < 2 ^ 17) :
    ∀ q, q ≠ 0 → ∃ k, 2 ^ (16 + k) ≤ polyMul q g ∧ polyMul q g < 2 ^ (17 + k) := by
  intro q
  induction q using Nat.strong_induction_on with
  | _ q ih =>
    intro hq
    by_cases h1 : q / 2 = 0
    · have : q = 1 := by omega
      subst this
      exact ⟨0, by rw [polyMul_one]; exact hg1, by rw [polyMul_one]; exact hg2⟩
    · obtain ⟨k, hk1, hk2⟩ := ih (q / 2) (by omega) h1
      refine ⟨k + 1, ?_⟩
      rw [polyMul_eq]
      have hx : (if q % 2 = 1 then g else 0) < 2 ^ (17 + k) := by
        have : 2 ^ 17 ≤ 2 ^ (17 + k) := Nat.pow_le_pow_right (by decide) (by omega)
        split <;> omega
      have e1 : 2 ^ (16 + (k + 1)) = 2 ^ (17 + k) := by congr 1; omega
      have e2 : 2 ^ (17 + (k + 1)) = 2 ^ (17 + k + 1) := by congr 1
      have e3 : 2 ^ (17 + k) = 2 * 2 ^ (16 + k) := by
        rw [show 17 + k = (16 + k) + 1 by omega, Nat.pow_succ]; omega
      have e4 : 2 ^ (17 + k + 1) = 2 * 2 ^ (17 + k) := by rw [Nat.pow_succ]; omega
      rw [e1, e2]
      exact xor_top_of_lt hx (by omega) (by omega)

/-- The remainder is unique. -/
theorem isCrcRemainder_unique {a r r' : Nat} (h : IsCrcRemainder a r)
    (h' : IsCrcRemainder a r') : r = r' := by
  obtain ⟨hr, q, hq⟩ := h
  obtain ⟨hr', q', hq'⟩ := h'
  have hx : polyMul (q ^^^ q') crcPoly = r ^^^ r' := by
    rw [polyMul_xor]
    have : polyMul q crcPoly ^^^ r = polyMul q' crcPoly ^^^ r' := by rw [← hq, ← hq']
    have h2 := congrArg (fun z => z ^^^ (polyMul q' crcPoly ^^^ r)) this
    simp only at h2
    rw [Nat.xor_comm (polyMul q' crcPoly) r, ← Nat.xor_assoc, Nat.xor_assoc _ r r,
      Nat.xor_self, Nat.xor_zero] at h2
    rw [h2, Nat.xor_comm r (polyMul q' crcPoly), ← Nat.xor_assoc, Nat.xor_assoc _ r',
      Nat.xor_comm r', ← Nat.xor_assoc, Nat.xor_self, Nat.zero_xor, Nat.xor_comm]
  have hlt : r ^^^ r' < 2 ^ 16 := Nat.xor_lt_two_pow hr hr'
  have hz : q ^^^ q' = 0 := by
    by_contra hne
    obtain ⟨k, hk, _⟩ := polyMul_degree crcPoly (by decide) (by decide) _ hne
    have : 2 ^ 16 ≤ 2 ^ (16 + k) := Nat.pow_le_pow_right (by decide) (by omega)
    omega
  rw [hz, polyMul_zero] at hx
  have := congrArg (fun z => z ^^^ r') hx
  simp only [Nat.zero_xor, Nat.xor_assoc, Nat.xor_self, Nat.xor_zero] at this
  exact this.symm

theorem polyRemAux_spec (f : Nat) : ∀ a, a ≤ f → IsCrcRemainder a (polyRemAux f a) := by
  induction f with
  | zero =>
    intro a ha
    have : a = 0 := by omega
    subst this
    exact ⟨by decide, 0, by simp [polyRemAux, polyMul_zero]⟩
  | succ f ih =>
    intro a ha
    by_cases h0 : a = 0
    · subst h0
      exact ⟨by simp [polyRemAux], 0, by simp [polyRemAux, polyMul_zero]⟩
    · obtain ⟨hr, q, hq⟩ := ih (a / 2) (by omega)
      have hb : a % 2 < 2 ^ 1 := Nat.mod_lt _ (by decide)
      have ha2 : a = polyMul (2 * q) crcPoly ^^^ (2 * polyRemAux f (a / 2) + a % 2) := by
        have e := polyMul_two_mul_add q 0 crcPoly (by decide)
        simp only [Nat.add_zero, Nat.zero_ne_one, if_false, Nat.zero_xor] at e
        have h2 : 2 * polyRemAux f (a / 2) + a % 2 = 2 * polyRemAux f (a / 2) ^^^ a % 2 := by
          simpa using two_pow_mul_add_eq_xor 1 (polyRemAux f (a / 2)) hb
        rw [e, h2, ← Nat.xor_assoc, ← two_mul_xor, ← hq]
        have h3 : 2 * (a / 2) + a % 2 = 2 * (a / 2) ^^^ a % 2 := by
          simpa using two_pow_mul_add_eq_xor 1 (a / 2) hb
        rw [← h3]
        omega
      rw [polyRemAux, if_neg h0]
      simp only
      by_cases ht : 2 ^ 16 ≤ 2 * polyRemAux f (a / 2) + a % 2
      · rw [if_pos ht]
        refine ⟨xor_lt_of_same_top ht (by omega) (by decide) (by decide), 2 * q + 1, ?_⟩
        rw [polyMul_two_mul_add q 1 crcPoly (by decide)]
        have e := polyMul_two_mul_add q 0 crcPoly (by decide)
        simp only [Nat.add_zero, Nat.zero_ne_one, if_false, Nat.zero_xor] at e
        rw [e] at ha2
        simp only [if_true]
        rw [Nat.xor_comm crcPoly, Nat.xor_assoc, ← Nat.xor_assoc crcPoly,
          Nat.xor_comm crcPoly (2 * polyRemAux f (a / 2) + a % 2), Nat.xor_assoc,
          Nat.xor_self, Nat.xor_zero]
        exact ha2
      · rw [if_neg ht]
        exact ⟨by omega, 2 * q, ha2⟩

theorem polyRem_spec (a : Nat) : IsCrcRemainder a (polyRem a) :=
  polyRemAux_spec a a (Nat.le_refl a)


/-! ### The code against the reference -/

theorem crcShift_eq (c : Nat) :
    crcShift c = if c % 2 = 1 then (c / 2) ^^^ 0xA001 else c / 2 := by
  unfold crcShift
  rw [Nat.and_one_is_mod, Nat.shiftRight_eq_div_pow, Nat.pow_one]
  rcases Nat.mod_two_eq_zero_or_one c with h | h <;> simp [h]

/-- One shift of the register is one step of the division: the register, read
in reflected order, is multiplied by `x` and reduced by the generator. -/
theorem crcShift_division (c : Nat) (hc : c < 2 ^ 16) :
    ∃ e, e < 2 ∧ 2 * reflect 16 c = polyMul e crcPoly ^^^ reflect 16 (crcShift c) := by
  have h15 : c / 2 < 2 ^ 15 := by omega
  have hr : reflect 16 (c / 2) = 2 * reflect 15 (c / 2) := by
    simpa using reflect_add_of_lt 15 1 h15
  have hlt := reflect_lt 15 (c / 2)
  have hdef : reflect 16 c = (c % 2) * 2 ^ 15 + reflect 15 (c / 2) := rfl
  rw [crcShift_eq]
  rcases Nat.mod_two_eq_zero_or_one c with h | h
  · refine ⟨0, by decide, ?_⟩
    rw [hdef, h, if_neg (by decide), polyMul_zero, Nat.zero_xor, hr]
    omega
  · refine ⟨1, by decide, ?_⟩
    have hA001 : reflect 16 0xA001 = 0x8005 := by decide
    have hpoly : crcPoly = 2 ^ 16 * 1 ^^^ 0x8005 := by decide
    have hadd : 2 ^ 16 * 1 + 2 * reflect 15 (c / 2) = 2 ^ 16 * 1 ^^^ 2 * reflect 15 (c / 2) :=
      two_pow_mul_add_eq_xor 16 1 (by omega)
    rw [hdef, h, if_pos rfl, polyMul_one, reflect_xor, hr, hA001, hpoly, Nat.xor_assoc,
      xor_left_comm' 0x8005, Nat.xor_self, Nat.xor_zero, ← hadd]
    omega

theorem crcBits_division (k : Nat) :
    ∀ c A q, c < 2 ^ 16 → A = polyMul q crcPoly ^^^ reflect 16 c →
      ∃ q', 2 ^ k * A = polyMul q' crcPoly ^^^ reflect 16 (crcBits k c) := by
  induction k with
  | zero =>
    intro c A q _ hA
    exact ⟨q, by rw [Nat.pow_zero, Nat.one_mul]; exact hA⟩
  | succ k ih =>
    intro c A q hc hA
    obtain ⟨e, he, hstep⟩ := crcShift_division c hc
    have hpe : polyMul e crcPoly = if e = 1 then crcPoly else 0 := by
      rcases Nat.lt_or_ge e 1 with h | h
      · have : e = 0 := by omega
        subst this
        rw [polyMul_zero, if_neg (by decide)]
      · have : e = 1 := by omega
        subst this
        rw [polyMul_one, if_pos rfl]
    have h2 : 2 * A = polyMul (2 * q + e) crcPoly ^^^ reflect 16 (crcShift c) := by
      rw [hA, two_mul_xor, hstep, polyMul_two_mul_add q e crcPoly he, hpe, ← Nat.xor_assoc,
        Nat.xor_comm (2 * polyMul q crcPoly)]
    obtain ⟨q', hq'⟩ := ih (crcShift c) (2 * A) (2 * q + e)
      (crcShift_lt hc) h2
    refine ⟨q', ?_⟩
    rw [crcBits, ← hq', Nat.pow_succ, Nat.mul_assoc]

theorem messagePoly_append (B : List Byte) (b : Byte) :
    messagePoly (B ++ [b]) = messagePoly B * 256 + reflect 8 b.val := by
  simp [messagePoly, List.foldl_append]

theorem crcDividend_append (B : List Byte) (b : Byte) :
    crcDividend (B ++ [b]) = 2 ^ 8 * (crcDividend B ^^^ 2 ^ 8 * reflect 8 b.val) := by
  have hr := reflect_lt 8 b.val
  have h1 : (messagePoly B * 256 + reflect 8 b.val) * 2 ^ 16 =
      2 ^ 24 * messagePoly B ^^^ 2 ^ 16 * reflect 8 b.val := by
    rw [← two_pow_mul_add_eq_xor 24 (messagePoly B) (by omega)]
    omega
  have h2 : 0xFFFF * 2 ^ (8 * (B ++ [b]).length) = 2 ^ 8 * (0xFFFF * 2 ^ (8 * B.length)) := by
    rw [List.length_append, List.length_singleton, Nat.mul_add, Nat.pow_add]
    ring
  have h3 : 2 ^ 8 * (messagePoly B * 2 ^ 16) = 2 ^ 24 * messagePoly B := by omega
  have h4 : 2 ^ 8 * (2 ^ 8 * reflect 8 b.val) = 2 ^ 16 * reflect 8 b.val := by omega
  unfold crcDividend
  rw [messagePoly_append, h1, h2, two_pow_mul_xor, two_pow_mul_xor, h3, h4, Nat.xor_assoc,
    Nat.xor_assoc, Nat.xor_comm (2 ^ 16 * reflect 8 b.val)]

theorem MODBUS_GetCheckSum_append (B : List Byte) (b : Byte) :
    MODBUS_GetCheckSum (bufOf (B ++ [b])) (B ++ [b]).length =
      crcByte (MODBUS_GetCheckSum (bufOf B) B.length) b := by
  rw [List.length_append, List.length_singleton, MODBUS_GetCheckSum_succ]
  have h1 : bufOf (B ++ [b]) B.length = b := by
    simp [bufOf, List.getD_eq_getElem?_getD]
  have h2 : MODBUS_GetCheckSum (bufOf (B ++ [b])) B.length =
      MODBUS_GetCheckSum (bufOf B) B.length := by
    apply MODBUS_GetCheckSum_congr
    intro i hi
    simp [bufOf, List.getD_eq_getElem?_getD, List.getElem?_append_left hi]
  rw [h1, h2]

/-- The register after the whole message, read in reflected order, is a remainder
of the dividend. -/
theorem MODBUS_GetCheckSum_isCrcRemainder (B : List Byte) :
    IsCrcRemainder (crcDividend B) (reflect 16 (MODBUS_GetCheckSum (bufOf B) B.length)) := by
  refine ⟨reflect_lt 16 _, ?_⟩
  induction B using List.reverseRecOn with
  | nil => exact ⟨0, by rw [polyMul_zero]; decide⟩
  | append_singleton B b ih =>
    obtain ⟨q, hq⟩ := ih
    have hc := MODBUS_GetCheckSum_lt (bufOf B) B.length
    have hb : b.val < 2 ^ 8 := b.isLt
    have hx : MODBUS_GetCheckSum (bufOf B) B.length ^^^ b.val < 2 ^ 16 :=
      Nat.xor_lt_two_pow hc (by omega)
    have hA : crcDividend B ^^^ 2 ^ 8 * reflect 8 b.val =
        polyMul q crcPoly ^^^ reflect 16 (MODBUS_GetCheckSum (bufOf B) B.length ^^^ b.val) := by
      rw [reflect_xor, ← reflect_add_of_lt 8 8 hb, hq, Nat.xor_assoc]
    obtain ⟨q', hq'⟩ := crcBits_division 8 _ _ q hx hA
    exact ⟨q', by rw [crcDividend_append, MODBUS_GetCheckSum_append, hq']; rfl⟩

/-- C4: for every byte sequence `B`, `MODBUS_GetCheckSum(B, |B|)` is the
bit-reflected CRC-16 of `B` with generator `x^16 + x^15 + x^2 + 1` (`0xA001`
reflected), initial register `0xFFFF` and no final XOR, the reference being the
remainder of polynomial division over GF(2): the register in reflected order is
the one polynomial `r` of degree below 16 with `dividend = q * generator + r` for
some `q`.  The empty sequence gives `0xFFFF` and the ASCII bytes of `123456789`
give `0x4B37`. -/
theorem MODBUS_GetCheckSum_eq_crc16Reference :
    (∀ B : List Byte, MODBUS_GetCheckSum (bufOf B) B.length = crc16Reference B) ∧
    (∀ B : List Byte, ∀ r,
      (r < 2 ^ 16 ∧ ∃ q, crcDividend B = polyMul q crcPoly ^^^ r) ↔
        r = reflect 16 (MODBUS_GetCheckSum (bufOf B) B.length)) ∧
    MODBUS_GetCheckSum (bufOf []) 0 = 0xFFFF ∧
    MODBUS_GetCheckSum (bufOf [0x31, 0x32, 0x33, 0x34, 0x35, 0x36, 0x37, 0x38, 0x39]) 9 =
      0x4B37 := by
  refine ⟨?_, ?_, by decide, by decide⟩
  · intro B
    have h := isCrcRemainder_unique (MODBUS_GetCheckSum_isCrcRemainder B)
      (polyRem_spec (crcDividend B))
    unfold crc16Reference
    rw [← h, reflect_reflect 16 (MODBUS_GetCheckSum_lt _ _)]
  · intro B r
    constructor
    · intro hr
      exact isCrcRemainder_unique hr (MODBUS_GetCheckSum_isCrcRemainder B)
    · intro hr
      rw [hr]
      exact MODBUS_GetCheckSum_isCrcRemainder B

/-- The loop body at a position the scanner steps over. -/
theorem scanBody_skippable (m : Machine) (hc : m.uiCheckIndex < m.uiRxIndex)
    (h2 : m.uiRxIndex ≤ 255) (hs : Skippable m.uiRxBuff m.uiRxIndex m.uiCheckIndex) :
    ∃ log, scanBody m =
      ({ m with uiCheckIndex := m.uiCheckIndex + 1, rxReads := log }, true) := by
  rcases hs with hd | ⟨h8, hna⟩
  · have e1 : (m.uiCheckIndex + 1) % 256 = m.uiCheckIndex + 1 := Nat.mod_eq_of_lt (by omega)
    refine ⟨(logReads m [m.uiCheckIndex]).rxReads, ?_⟩
    unfold scanBody
    simp only [logReads]
    rw [if_neg (fun h => hd h.symm), e1]
  · exact scanBody_skip m h8 h2 hna

/-- The loop steps over a run of such positions. -/
theorem scanLoop_skippable (k : Nat) :
    ∀ (f : Nat) (m : Machine), m.uiCheckIndex + k ≤ m.uiRxIndex → m.uiRxIndex ≤ 255 →
      (∀ q, m.uiCheckIndex ≤ q → q < m.uiCheckIndex + k → Skippable m.uiRxBuff m.uiRxIndex q) →
      ∃ log, scanLoop (f + k) m =
        scanLoop f { m with uiCheckIndex := m.uiCheckIndex + k, rxReads := log } := by
  induction k with
  | zero => intro f m _ _ _; exact ⟨m.rxReads, rfl⟩
  | succ k ih =>
    intro f m h1 h2 h3
    obtain ⟨log, hb⟩ := scanBody_skippable m (by omega) h2 (h3 _ (Nat.le_refl _) (by omega))
    obtain ⟨log', hl⟩ := ih f { m with uiCheckIndex := m.uiCheckIndex + 1, rxReads := log }
      (by simp only; omega) h2 (fun q hq1 hq2 => h3 q (by simp only at hq1; omega)
        (by simp only at hq2; omega))
    refine ⟨log', ?_⟩
    rw [show f + (k + 1) = (f + k) + 1 by omega, scanLoop, if_pos (by omega), hb]
    simp only
    rw [hl]
    simp only [Nat.add_assoc, Nat.add_comm 1 k]

/-- The loop body at a device id with fewer than 8 bytes from it to the end of
the committed bytes. -/
theorem scanBody_incomplete (m : Machine) (hd : m.uiRxBuff m.uiCheckIndex = DEVICE_ID)
    (h8 : m.uiRxIndex < m.uiCheckIndex + 8) :
    scanBody m = scanWait (logReads m [m.uiCheckIndex]) := by
  unfold scanBody
  simp only [logReads]
  rw [if_pos hd.symm, if_neg (by omega)]

/-- A pass whose first position not stepped over is an incomplete candidate, with
the wait counter below its maximum: the counter goes up by one and the cursor
stays at the candidate. -/
theorem scannerPass_incomplete (m : Machine) (p : Nat) (hf : m.fault = none)
    (he : m.bErrorFlag = false) (h8 : 8 ≤ m.uiRxIndex) (h2 : m.uiRxIndex ≤ 255)
    (hp : p < m.uiRxIndex) (hp8 : m.uiRxIndex < p + 8) (hd : m.uiRxBuff p = DEVICE_ID)
    (hskip : ∀ q, q < p → Skippable m.uiRxBuff m.uiRxIndex q)
    (hw : m.uiWaitCount < MAXWAITCOUNT) :
    ∃ log, scannerPass m =
      { m with uiCheckIndex := p, uiWaitCount := m.uiWaitCount + 1, rxReads := log } := by
  obtain ⟨log, hs⟩ := scanLoop_skippable p (255 - p + 1) { m with uiCheckIndex := 0 }
    (by simp only; omega) h2 (fun q _ hq => hskip q (by simp only at hq; omega))
  have e1 : (m.uiWaitCount + 1) % 65536 = m.uiWaitCount + 1 :=
    Nat.mod_eq_of_lt (by simp only [MAXWAITCOUNT] at hw; omega)
  have hb := scanBody_incomplete { m with uiCheckIndex := 0 + p, rxReads := log }
    (by simpa using hd) (by simp only; omega)
  have hloop : scanLoop 256 { m with uiCheckIndex := 0 } =
      { m with uiCheckIndex := p, uiWaitCount := m.uiWaitCount + 1,
               rxReads := log ++ [(p, m.uiRxIndex)] } := by
    rw [show 256 = 255 - p + 1 + p by omega, hs, scanLoop, if_pos (by simp only; omega), hb]
    unfold scanWait
    simp only [logReads, Nat.zero_add, List.map_cons, List.map_nil]
    rw [if_neg (by omega), e1]
  refine ⟨log ++ [(p, m.uiRxIndex)], ?_⟩
  rw [scannerPass_clear m hf he, if_pos (by omega), hloop]
  simp only [hf, Option.isSome_none, Bool.false_and, Bool.false_eq_true, if_false]
  rw [if_neg (by omega)]

/-- The same pass once the wait counter has reached its maximum: full reset. -/
theorem scannerPass_incomplete_timeout (m : Machine) (p : Nat) (hf : m.fault = none)
    (he : m.bErrorFlag = false) (h8 : 8 ≤ m.uiRxIndex) (h2 : m.uiRxIndex ≤ 255)
    (hp : p < m.uiRxIndex) (hp8 : m.uiRxIndex < p + 8) (hd : m.uiRxBuff p = DEVICE_ID)
    (hskip : ∀ q, q < p → Skippable m.uiRxBuff m.uiRxIndex q)
    (hw : MAXWAITCOUNT ≤ m.uiWaitCount) :
    ∃ log, scannerPass m = { MODBUS_ResetState m with rxReads := log } := by
  obtain ⟨log, hs⟩ := scanLoop_skippable p (255 - p + 1) { m with uiCheckIndex := 0 }
    (by simp only; omega) h2 (fun q _ hq => hskip q (by simp only at hq; omega))
  have hb := scanBody_incomplete { m with uiCheckIndex := 0 + p, rxReads := log }
    (by simpa using hd) (by simp only; omega)
  have hloop : scanLoop 256 { m with uiCheckIndex := 0 } =
      { MODBUS_ResetState m with rxReads := log ++ [(p, m.uiRxIndex)] } := by
    rw [show 256 = 255 - p + 1 + p by omega, hs, scanLoop, if_pos (by simp only; omega), hb]
    unfold scanWait
    simp only [logReads, Nat.zero_add, List.map_cons, List.map_nil]
    rw [if_pos (by simpa using hw)]
    rfl
  refine ⟨log ++ [(p, m.uiRxIndex)], ?_⟩
  rw [scannerPass_clear m hf he, if_pos (by omega), hloop]
  simp only [hf, MODBUS_ResetState, Option.isSome_none, Bool.false_and, Bool.false_eq_true, if_false, if_true]

/-- A pass that steps over every committed position: full reset. -/
theorem scannerPass_exhaust (m : Machine) (hf : m.fault = none) (he : m.bErrorFlag = false)
    (h8 : 8 ≤ m.uiRxIndex) (h2 : m.uiRxIndex ≤ 255)
    (hskip : ∀ q, q < m.uiRxIndex → Skippable m.uiRxBuff m.uiRxIndex q) :
    ∃ log, scannerPass m = { MODBUS_ResetState m with rxReads := log } := by
  obtain ⟨log, hs⟩ := scanLoop_skippable m.uiRxIndex (255 - m.uiRxIndex + 1)
    { m with uiCheckIndex := 0 } (by simp only; omega) h2
    (fun q _ hq => hskip q (by simp only at hq; omega))
  have hloop : scanLoop 256 { m with uiCheckIndex := 0 } =
      { m with uiCheckIndex := m.uiRxIndex, rxReads := log } := by
    rw [show 256 = 255 - m.uiRxIndex + 1 + m.uiRxIndex by omega, hs, scanLoop,
      if_neg (by simp only; omega)]
    simp only [Nat.zero_add]
  refine ⟨log, ?_⟩
  rw [scannerPass_clear m hf he, if_pos (by omega), hloop]
  simp only [hf, MODBUS_ResetState, Option.isSome_none, Bool.false_and, Bool.false_eq_true, if_false, if_true]

/-- A pass with the error flag set. -/
theorem scannerPass_error (m : Machine) (hf : m.fault = none) (he : m.bErrorFlag = true) :
    scannerPass m = MODBUS_ResetState m := by
  unfold scannerPass
  simp only [hf, he, Option.isSome_none, Bool.false_and, Bool.false_eq_true, if_false, if_true,
    MODBUS_ResetState, PACKET_SIZE]
  rw [if_neg (by decide)]

/-- What a scan from position 0 meets first: nothing, an accepted candidate, or a
device id too close to the end of the committed bytes. -/
theorem scan_cases (rx : Nat → Byte) (n : Nat) :
    (∀ q, q < n → Skippable rx n q) ∨
    ∃ p, p < n ∧ (∀ q, q < p → Skippable rx n q) ∧
      (Accepts rx n p ∨ (rx p = DEVICE_ID ∧ n < p + 8)) := by
  by_cases h : ∃ p, p < n ∧ ¬ Skippable rx n p
  · right
    have hs := Nat.find_spec h
    refine ⟨Nat.find h, hs.1, ?_, ?_⟩
    · intro q hq
      have := Nat.find_min h hq
      by_contra hc
      exact this ⟨by omega, hc⟩
    · have hns := hs.2
      unfold Skippable at hns
      have hd : rx (Nat.find h) = DEVICE_ID := by
        by_contra hc
        exact hns (Or.inl hc)
      by_cases h8 : Nat.find h + 8 ≤ n
      · left
        by_contra hc
        exact hns (Or.inr ⟨h8, hc⟩)
      · right
        exact ⟨hd, by omega⟩
  · left
    intro q hq
    by_contra hc
    exact h ⟨q, hq, hc⟩

theorem not_accepts_of_skippable {rx : Nat → Byte} {n q : Nat} (h : Skippable rx n q) :
    ¬ Accepts rx n q := by
  rcases h with h | h
  · exact fun ha => h ha.2.1
  · exact h.2

/-! ## The error flag -/

/-- C13: if the error flag is set at the start of a scanner pass then, for every
buffer content, length, cursor and wait-counter value, the pass reads no byte of
the receive buffer (it inspects no frame), transmits nothing, leaves the transmit
buffer alone, and ends in the full-reset state: buffer length 0, cursor 0, wait
counter 0, error flag clear. -/
theorem scannerPass_error_flag (m : Machine) (hf : m.fault = none)
    (he : m.bErrorFlag = true) :
    (scannerPass m).rxReads = m.rxReads ∧ (scannerPass m).wire = m.wire ∧
      (scannerPass m).uiTxBuff = m.uiTxBuff ∧ IsResetState (scannerPass m) := by
  rw [scannerPass_error m hf he]
  exact ⟨rfl, rfl, rfl, hf, rfl, rfl, rfl, rfl⟩

theorem scannerPass_error_flag_witness :
    (errorMachine.fault = none ∧ errorMachine.bErrorFlag = true) ∧
    ((scannerPass errorMachine).rxReads = errorMachine.rxReads ∧
      (scannerPass errorMachine).wire = errorMachine.wire ∧
      (scannerPass errorMachine).uiTxBuff = errorMachine.uiTxBuff ∧
      IsResetState (scannerPass errorMachine)) :=
  ⟨⟨rfl, rfl⟩, scannerPass_error_flag errorMachine rfl rfl⟩

/-! ## Commands other than read -/

/-- C12: for every 8-byte buffer whose byte 0 is the device id `0x01` and whose
byte 1 is any value other than the read command `0x03` (the write constant `0x04`
included, whatever bytes 6 and 7 are), one scanner pass from the reset state
transmits nothing, builds no response (`uiTxBuff` and `uiTxLength` are unchanged)
and stays within defined behaviour; the loop body at position 0 advances the
cursor to position 1 and continues the scan. The pass then ends with the cursor
at a later position, an incomplete candidate among positions 1 to 7, or, when
there is none, in the full-reset state. -/
theorem scannerPass_other_command (m : Machine) (hf : m.fault = none)
    (he : m.bErrorFlag = false) (hci : m.uiCheckIndex = 0) (hw : m.uiWaitCount = 0)
    (hn : m.uiRxIndex = 8) (_h0 : m.uiRxBuff 0 = DEVICE_ID)
    (h1 : m.uiRxBuff 1 ≠ READ_COMMAND) :
    (scannerPass m).wire = m.wire ∧ (scannerPass m).uiTxBuff = m.uiTxBuff ∧
      (scannerPass m).uiTxLength = m.uiTxLength ∧ (scannerPass m).fault = none ∧
      (∃ log, scanBody m = ({ m with uiCheckIndex := 1, rxReads := log }, true)) ∧
      (IsResetState (scannerPass m) ∨
        (0 < (scannerPass m).uiCheckIndex ∧ (scannerPass m).uiRxIndex = 8)) := by
  have hna : ∀ p, ¬ Accepts m.uiRxBuff m.uiRxIndex p := by
    intro p ⟨h8, _, hr, _⟩
    have : p = 0 := by omega
    subst this
    exact h1 hr
  have hs0 : Skippable m.uiRxBuff m.uiRxIndex m.uiCheckIndex :=
    Or.inr ⟨by omega, hna _⟩
  obtain ⟨log0, hb⟩ := scanBody_skippable m (by omega) (by omega) hs0
  have hstep : ∃ log, scanBody m = ({ m with uiCheckIndex := 1, rxReads := log }, true) := by
    refine ⟨log0, ?_⟩
    rw [hb, hci]
  rcases scan_cases m.uiRxBuff m.uiRxIndex with hall | ⟨p, hp, hskip, hacc | ⟨hd, hp8⟩⟩
  · obtain ⟨log, hs⟩ := scannerPass_exhaust m hf he (by omega) (by omega) hall
    rw [hs]
    exact ⟨rfl, rfl, rfl, hf, hstep, Or.inl ⟨hf, rfl, rfl, rfl, rfl⟩⟩
  · exact absurd hacc (hna p)
  · obtain ⟨log, hs⟩ := scannerPass_incomplete m p hf he (by omega) (by omega) hp hp8 hd hskip
      (by rw [hw]; decide)
    rw [hs]
    exact ⟨rfl, rfl, rfl, hf, hstep, Or.inr ⟨by show 0 < p; omega, hn⟩⟩

theorem scannerPass_other_command_witness :
    (writeRequestMachine.fault = none ∧ writeRequestMachine.bErrorFlag = false ∧
      writeRequestMachine.uiCheckIndex = 0 ∧ writeRequestMachine.uiWaitCount = 0 ∧
      writeRequestMachine.uiRxIndex = 8 ∧ writeRequestMachine.uiRxBuff 0 = DEVICE_ID ∧
      writeRequestMachine.uiRxBuff 1 ≠ READ_COMMAND ∧
      MODBUS_VerifyChecksum 0 writeRequestMachine.uiRxBuff = .ok true) ∧
    ((scannerPass writeRequestMachine).wire = writeRequestMachine.wire ∧
      (scannerPass writeRequestMachine).uiTxBuff = writeRequestMachine.uiTxBuff ∧
      (scannerPass writeRequestMachine).uiTxLength = writeRequestMachine.uiTxLength ∧
      (scannerPass writeRequestMachine).fault = none ∧
      (∃ log, scanBody writeRequestMachine =
        ({ writeRequestMachine with uiCheckIndex := 1, rxReads := log }, true)) ∧
      (IsResetState (scannerPass writeRequestMachine) ∨
        (0 < (scannerPass writeRequestMachine).uiCheckIndex ∧
          (scannerPass writeRequestMachine).uiRxIndex = 8))) :=
  ⟨⟨rfl, rfl, rfl, rfl, rfl, by decide, by decide, by decide⟩,
    scannerPass_other_command writeRequestMachine rfl rfl rfl rfl rfl (by decide) (by decide)⟩

/-! ## Requests out of range -/

theorem register_none {count : Nat} (h : 10 ≤ count) : uiModbusRegister[count]? = none := by
  have hl : uiModbusRegister.length ≤ count := by simpa [uiModbusRegister] using h
  exact List.getElem?_eq_none hl

/-- The register loop with a bound beyond the table reaches index 10 and faults
there, unless it starts beyond the table and faults at once. -/
theorem respLoop_fault (bound : Nat) (hb : 10 < bound) :
    ∀ (k fuel count : Nat) (tx : Nat → Byte) (ti : Nat),
      count + k = 10 → ti + 2 * k ≤ 100 → k < fuel →
      respLoop bound fuel count tx ti = .error (.registerIndex 10) := by
  intro k
  induction k with
  | zero =>
    intro fuel count tx ti h1 _ h3
    obtain ⟨f, rfl⟩ : ∃ f, fuel = f + 1 := ⟨fuel - 1, by omega⟩
    have hc : count = 10 := by omega
    subst hc
    rw [respLoop, if_pos hb, register_none (Nat.le_refl 10)]
  | succ k ih =>
    intro fuel count tx ti h1 h2 h3
    obtain ⟨f, rfl⟩ : ∃ f, fuel = f + 1 := ⟨fuel - 1, by omega⟩
    have c1 : count < bound := by omega
    have c2 : ¬ BUFFER_SIZE ≤ ti := by simp only [BUFFER_SIZE]; omega
    have c3 : ¬ BUFFER_SIZE ≤ ti + 1 := by simp only [BUFFER_SIZE]; omega
    have e1 : (ti + 1) % 256 = ti + 1 := Nat.mod_eq_of_lt (by omega)
    have e2 : (ti + 1 + 1) % 256 = ti + 2 := Nat.mod_eq_of_lt (by omega)
    have e3 : (count + 1) % 65536 = count + 1 := Nat.mod_eq_of_lt (by omega)
    simp only [respLoop, c1, register_lookup (show count < 10 by omega), c2, c3, e1, e2, e3,
      if_true, if_false]
    exact ih f (count + 1) _ (ti + 2) (by omega) (by omega) (by omega)

/-- `MODBUS_PrepareResponse` on a request with `count > 0` and
`start + count > 10`: the register table is indexed out of range. -/
theorem MODBUS_PrepareResponse_out_of_range (i : Nat) (rx tx : Nat → Byte)
    (hc : 0 < requestCount rx i) (h : 10 < requestStart rx i + requestCount rx i) :
    ∃ k, 10 ≤ k ∧ MODBUS_PrepareResponse i rx tx = .error (.registerIndex k) := by
  have es : (((rx (i + 2)).val <<< 8) % 65536) ||| (rx (i + 3)).val = requestStart rx i :=
    shl8_or _ _ (rx (i + 2)).isLt (rx (i + 3)).isLt
  have ec : (((rx (i + 4)).val <<< 8) % 65536) ||| (rx (i + 5)).val = requestCount rx i :=
    shl8_or _ _ (rx (i + 4)).isLt (rx (i + 5)).isLt
  by_cases hs : 10 ≤ requestStart rx i
  · refine ⟨requestStart rx i, hs, ?_⟩
    unfold MODBUS_PrepareResponse
    simp only [es, ec]
    rw [show (65536 : Nat) = 65535 + 1 from rfl, respLoop, if_pos (by omega), register_none hs]
  · refine ⟨10, Nat.le_refl 10, ?_⟩
    have hl := respLoop_fault (requestCount rx i + requestStart rx i) (by omega)
      (10 - requestStart rx i) 65536 (requestStart rx i)
      (Function.update (Function.update (Function.update tx 0 (rx i)) 1 (rx (i + 1))) 2
        (toByte ((requestCount rx i % 256) * 2))) 3 (by omega) (by omega) (by omega)
    unfold MODBUS_PrepareResponse
    simp only [es, ec, hl]

/-- `MODBUS_PrepareResponse` on a request for no registers: the register table is
not read, whatever the start address. -/
theorem MODBUS_PrepareResponse_empty (i : Nat) (rx tx : Nat → Byte)
    (hc : requestCount rx i = 0) :
    ∃ tx', MODBUS_PrepareResponse i rx tx = .ok (tx', 5) := by
  have es : (((rx (i + 2)).val <<< 8) % 65536) ||| (rx (i + 3)).val = requestStart rx i :=
    shl8_or _ _ (rx (i + 2)).isLt (rx (i + 3)).isLt
  have ec : (((rx (i + 4)).val <<< 8) % 65536) ||| (rx (i + 5)).val = 0 := by
    rw [← hc]; exact shl8_or _ _ (rx (i + 4)).isLt (rx (i + 5)).isLt
  unfold MODBUS_PrepareResponse
  simp only [es, ec]
  rw [show (65536 : Nat) = 65535 + 1 from rfl, respLoop, if_neg (by omega)]
  simp only [BUFFER_SIZE, Nat.reduceLeDiff, if_false, Nat.reduceAdd, Nat.reduceMod]
  exact ⟨_, rfl⟩

/-- The loop body at an accepted position calls the response builder, whatever
the request. -/
theorem scanBody_accepts (m : Machine)
    (h : Accepts m.uiRxBuff m.uiRxIndex m.uiCheckIndex) :
    scanBody m = scanRespond (logReads (logReads (logReads m [m.uiCheckIndex])
      [m.uiCheckIndex + 1]) (MODBUS_VerifyChecksum_reads m.uiCheckIndex)) := by
  obtain ⟨h1, hd, hr, hv⟩ := h
  have c2 : m.uiCheckIndex + 7 < m.uiRxIndex := by omega
  unfold scanBody scanDispatch
  simp only [logReads]
  rw [if_pos hd.symm, if_pos c2, if_pos hr, hv]

/-! ## The response builder outside its arrays -/

/-- Within defined behaviour the builder on the memory as it is does what
`respLoop` does. -/
theorem respLoopFlat_of_ok (outside : Nat → Nat) (bound : Nat) :
    ∀ (fuel count : Nat) (tx : Nat → Byte) (ti : Nat) (r : (Nat → Byte) × Nat),
      respLoop bound fuel count tx ti = .ok r →
      respLoopFlat outside bound fuel count tx ti = some r := by
  intro fuel
  induction fuel with
  | zero => intro count tx ti r h; simp [respLoop] at h
  | succ f ih =>
    intro count tx ti r h
    rw [respLoop] at h
    rw [respLoopFlat]
    by_cases hc : count < bound
    · rw [if_pos hc] at h ⊢
      cases hr : uiModbusRegister[count]? with
      | none => rw [hr] at h; cases h
      | some r0 =>
        rw [hr] at h
        have hg : uiModbusRegister.getD count (outside count) = r0 := by
          rw [List.getD_eq_getElem?_getD, hr]; rfl
        dsimp only at h
        by_cases c1 : BUFFER_SIZE ≤ ti
        · rw [if_pos c1] at h; cases h
        · rw [if_neg c1] at h
          by_cases c2 : BUFFER_SIZE ≤ (ti + 1) % 256
          · rw [if_pos c2] at h; cases h
          · rw [if_neg c2] at h
            simp only [hg]
            exact ih _ _ _ r h
    · rw [if_neg hc] at h ⊢
      cases h
      rfl

theorem MODBUS_PrepareResponse_flat_of_ok (outside : Nat → Nat) (i : Nat) (rx tx : Nat → Byte)
    (r : (Nat → Byte) × Nat) (h : MODBUS_PrepareResponse i rx tx = .ok r) :
    MODBUS_PrepareResponse_flat outside i rx tx = some r := by
  unfold MODBUS_PrepareResponse at h
  unfold MODBUS_PrepareResponse_flat
  simp only at h ⊢
  split at h
  · cases h
  · rename_i tx1 ti heq
    rw [respLoopFlat_of_ok outside _ _ _ _ _ _ heq]
    simp only
    split at h
    · cases h
    · split at h
      · cases h
      · cases h
        rfl

/-- The register loop with a bound of 65536 or more has no exit: the 16-bit
counter is always below the bound. -/
theorem respLoopFlat_never_exits (outside : Nat → Nat) (bound : Nat) (hb : 65536 ≤ bound) :
    ∀ (fuel count : Nat) (tx : Nat → Byte) (ti : Nat),
      count < 65536 → respLoopFlat outside bound fuel count tx ti = none := by
  intro fuel
  induction fuel with
  | zero => intro count tx ti _; rfl
  | succ f ih =>
    intro count tx ti hc
    rw [respLoopFlat, if_pos (by omega)]
    exact ih _ _ _ (Nat.mod_lt _ (by decide))

/-- The register loop with a bound below 65536 returns. -/
theorem respLoopFlat_returns (outside : Nat → Nat) (bound : Nat) (hb : bound < 65536) :
    ∀ (k fuel count : Nat) (tx : Nat → Byte) (ti : Nat),
      count + k = bound → k < fuel →
      ∃ r, respLoopFlat outside bound fuel count tx ti = some r := by
  intro k
  induction k with
  | zero =>
    intro fuel count tx ti h1 h2
    obtain ⟨f, rfl⟩ : ∃ f, fuel = f + 1 := ⟨fuel - 1, by omega⟩
    rw [respLoopFlat, if_neg (by omega)]
    exact ⟨_, rfl⟩
  | succ k ih =>
    intro fuel count tx ti h1 h2
    obtain ⟨f, rfl⟩ : ∃ f, fuel = f + 1 := ⟨fuel - 1, by omega⟩
    rw [respLoopFlat, if_pos (by omega)]
    have e3 : (count + 1) % 65536 = count + 1 := Nat.mod_eq_of_lt (by omega)
    simp only [e3]
    exact ih f (count + 1) _ _ (by omega) (by omega)

/-- The builder returns exactly when `start + count < 65536`. -/
theorem MODBUS_PrepareResponse_flat_returns (outside : Nat → Nat) (i : Nat) (rx tx : Nat → Byte) :
    (∃ r, MODBUS_PrepareResponse_flat outside i rx tx = some r) ↔
      requestStart rx i + requestCount rx i < 65536 := by
  have es : (((rx (i + 2)).val <<< 8) % 65536) ||| (rx (i + 3)).val = requestStart rx i :=
    shl8_or _ _ (rx (i + 2)).isLt (rx (i + 3)).isLt
  have ec : (((rx (i + 4)).val <<< 8) % 65536) ||| (rx (i + 5)).val = requestCount rx i :=
    shl8_or _ _ (rx (i + 4)).isLt (rx (i + 5)).isLt
  have hs : requestStart rx i < 65536 := by
    have h2 := (rx (i + 2)).isLt
    have h3 := (rx (i + 3)).isLt
    unfold requestStart
    omega
  unfold MODBUS_PrepareResponse_flat
  simp only [es, ec]
  by_cases hb : requestStart rx i + requestCount rx i < 65536
  · obtain ⟨r, hr⟩ := respLoopFlat_returns outside (requestCount rx i + requestStart rx i)
      (by omega) (requestCount rx i) 65536 (requestStart rx i)
      (Function.update (Function.update (Function.update tx 0 (rx i)) 1 (rx (i + 1))) 2
        (toByte ((requestCount rx i % 256) * 2))) 3 (by omega)
      (by have h4 := (rx (i + 4)).isLt
          have h5 := (rx (i + 5)).isLt
          unfold requestCount
          omega)
    rw [hr]
    simp only [hb, iff_true]
    exact ⟨_, rfl⟩
  · rw [respLoopFlat_never_exits outside _ (by omega) _ _ _ _ hs]
    simp only [hb, iff_false]
    rintro ⟨r, hr⟩
    cases hr

theorem MODBUS_PrepareResponse_flat_none (outside : Nat → Nat) (i : Nat) (rx tx : Nat → Byte)
    (h : 65536 ≤ requestStart rx i + requestCount rx i) :
    MODBUS_PrepareResponse_flat outside i rx tx = none := by
  cases hr : MODBUS_PrepareResponse_flat outside i rx tx with
  | none => rfl
  | some r =>
    have := (MODBUS_PrepareResponse_flat_returns outside i rx tx).1 ⟨r, hr⟩
    omega

/-- The session after an out-of-range request has been answered from the memory
as it is: the response handed to the UART, the state reset, the fault recorded. -/
theorem scanRespond_error_returns (m : Machine) (f : Fault) (tx : Nat → Byte) (len : Nat)
    (hp : MODBUS_PrepareResponse m.uiCheckIndex m.uiRxBuff m.uiTxBuff = .error f)
    (hq : MODBUS_PrepareResponse_flat (m.outside 0) m.uiCheckIndex m.uiRxBuff m.uiTxBuff =
      some (tx, len)) :
    scanRespond m =
      ({ responded m tx len
            (logReads m (MODBUS_PrepareResponse_reads m.uiCheckIndex)).rxReads with
          fault := some (m.fault.getD f), hung := m.fault.isSome && m.hung,
          outside := fun c => m.outside (c + 1) }, true) := by
  unfold scanRespond
  simp only [logReads, recordFault, hp, hq]
  rfl

theorem scanRespond_error_hangs (m : Machine) (f : Fault)
    (hp : MODBUS_PrepareResponse m.uiCheckIndex m.uiRxBuff m.uiTxBuff = .error f)
    (hq : MODBUS_PrepareResponse_flat (m.outside 0) m.uiCheckIndex m.uiRxBuff m.uiTxBuff = none) :
    scanRespond m =
      ({ logReads m (MODBUS_PrepareResponse_reads m.uiCheckIndex) with
          fault := some (m.fault.getD f), hung := true }, false) := by
  unfold scanRespond
  simp only [logReads, recordFault, hp, hq]

/-- A pass that finds an accepted position whose request takes the builder
outside its arrays, in a loop without exit: the fault is recorded and the main
loop is hung, with nothing handed to the UART. -/
theorem scannerPass_accept_hangs (m : Machine) (p : Nat) (f : Fault)
    (hf : m.fault = none) (he : m.bErrorFlag = false) (h2 : m.uiRxIndex ≤ 255)
    (ha : Accepts m.uiRxBuff m.uiRxIndex p)
    (hleast : ∀ q, q < p → ¬ Accepts m.uiRxBuff m.uiRxIndex q)
    (hp : MODBUS_PrepareResponse p m.uiRxBuff m.uiTxBuff = .error f)
    (hq : MODBUS_PrepareResponse_flat (m.outside 0) p m.uiRxBuff m.uiTxBuff = none) :
    ∃ log, scannerPass m =
      { m with uiCheckIndex := p, rxReads := log, fault := some f, hung := true } := by
  have hp8 : p + 8 ≤ m.uiRxIndex := ha.1
  obtain ⟨log, hs⟩ := scanLoop_skip p (254 - p + 2) { m with uiCheckIndex := 0 }
    (by simp only; omega) h2 (fun q _ hq => hleast q (by simp only at hq; omega))
  have hb := scanBody_accepts { m with uiCheckIndex := 0 + p, rxReads := log }
    (by simpa using ha)
  have hr := scanRespond_error_hangs
    (logReads (logReads (logReads { m with uiCheckIndex := 0 + p, rxReads := log } [0 + p])
      [0 + p + 1]) (MODBUS_VerifyChecksum_reads (0 + p))) f (by simpa [logReads] using hp)
    (by simpa [logReads] using hq)
  have hloop : ∃ log', scanLoop 256 { m with uiCheckIndex := 0 } =
      { m with uiCheckIndex := p, rxReads := log', fault := some f, hung := true } := by
    refine ⟨(logReads (logReads (logReads (logReads
      { m with uiCheckIndex := 0 + p, rxReads := log } [0 + p])
      [0 + p + 1]) (MODBUS_VerifyChecksum_reads (0 + p)))
      (MODBUS_PrepareResponse_reads (0 + p))).rxReads, ?_⟩
    rw [show 256 = 254 - p + 2 + p by omega, hs, scanLoop, if_pos (by simp only; omega), hb, hr]
    simp only [logReads, hf, Option.getD_none, Nat.zero_add]
  obtain ⟨log', hl⟩ := hloop
  refine ⟨log', ?_⟩
  rw [scannerPass_clear m hf he, if_pos (by omega), hl]
  simp only [Option.isSome_some, Bool.and_self, if_true]

/-- The same pass when the builder returns: the response built from the memory
as it is is handed to the UART and the state reset, with the fault recorded. -/
theorem scannerPass_accept_returns (m : Machine) (p : Nat) (f : Fault) (tx : Nat → Byte)
    (len : Nat) (hf : m.fault = none) (he : m.bErrorFlag = false) (h2 : m.uiRxIndex ≤ 255)
    (ha : Accepts m.uiRxBuff m.uiRxIndex p)
    (hleast : ∀ q, q < p → ¬ Accepts m.uiRxBuff m.uiRxIndex q)
    (hp : MODBUS_PrepareResponse p m.uiRxBuff m.uiTxBuff = .error f)
    (hq : MODBUS_PrepareResponse_flat (m.outside 0) p m.uiRxBuff m.uiTxBuff = some (tx, len)) :
    ∃ log, scannerPass m =
      { responded m tx len log with
          fault := some f, hung := false, outside := fun c => m.outside (c + 1) } := by
  have hp8 : p + 8 ≤ m.uiRxIndex := ha.1
  obtain ⟨log, hs⟩ := scanLoop_skip p (254 - p + 2) { m with uiCheckIndex := 0 }
    (by simp only; omega) h2 (fun q _ hq => hleast q (by simp only at hq; omega))
  have hb := scanBody_accepts { m with uiCheckIndex := 0 + p, rxReads := log }
    (by simpa using ha)
  have hr := scanRespond_error_returns
    (logReads (logReads (logReads { m with uiCheckIndex := 0 + p, rxReads := log } [0 + p])
      [0 + p + 1]) (MODBUS_VerifyChecksum_reads (0 + p))) f tx len
    (by simpa [logReads] using hp) (by simpa [logReads] using hq)
  have hloop : ∃ log', scanLoop 256 { m with uiCheckIndex := 0 } =
      { responded m tx len log' with
          fault := some f, hung := false, outside := fun c => m.outside (c + 1) } := by
    refine ⟨(logReads (logReads (logReads (logReads
      { m with uiCheckIndex := 0 + p, rxReads := log } [0 + p])
      [0 + p + 1]) (MODBUS_VerifyChecksum_reads (0 + p)))
      (MODBUS_PrepareResponse_reads (0 + p))).rxReads, ?_⟩
    rw [show 256 = 254 - p + 2 + p by omega, hs, scanLoop, if_pos (by simp only; omega), hb, hr]
    simp only [scanLoop, responded, logReads, hf, Option.getD_none, Option.isSome_none,
      Bool.false_and, Nat.lt_irrefl, if_false]
  obtain ⟨log', hl⟩ := hloop
  refine ⟨log', ?_⟩
  rw [scannerPass_clear m hf he, if_pos (by omega), hl]
  simp only [responded, Option.isSome_some, Bool.and_false, Bool.false_eq_true, if_false,
    if_true, MODBUS_ResetState]

theorem MODBUS_PrepareResponse_ok_of_inRange (i : Nat) (rx tx : Nat → Byte) (h : InRange rx i) :
    ∃ tx', MODBUS_PrepareResponse i rx tx = .ok (tx', 2 * requestCount rx i + 5) := by
  rcases h with h | h
  · obtain ⟨tx', h'⟩ := MODBUS_PrepareResponse_empty i rx tx h
    exact ⟨tx', by rw [h', h]⟩
  · obtain ⟨tx', h', _⟩ := MODBUS_PrepareResponse_layout i rx tx _ _ rfl rfl h
    exact ⟨tx', h'⟩

theorem MODBUS_PrepareResponse_ok_iff (i : Nat) (rx tx : Nat → Byte) :
    (∃ r, MODBUS_PrepareResponse i rx tx = .ok r) ↔ InRange rx i := by
  constructor
  · rintro ⟨r, hr⟩
    by_contra hn
    unfold InRange at hn
    obtain ⟨k, _, hk⟩ := MODBUS_PrepareResponse_out_of_range i rx tx (by omega) (by omega)
    rw [hk] at hr
    cases hr
  · intro h
    obtain ⟨tx', h'⟩ := MODBUS_PrepareResponse_ok_of_inRange i rx tx h
    exact ⟨_, h'⟩

/-- The register loop of a request with `start + count = 65536` never exits: the
16-bit counter is always below the bound. -/
theorem respLoop_never_exits :
    ∀ (fuel count : Nat) (tx : Nat → Byte) (ti : Nat) (r : (Nat → Byte) × Nat),
      count < 65536 → respLoop 65536 fuel count tx ti ≠ .ok r := by
  intro fuel
  induction fuel with
  | zero => intro count tx ti r _ h; simp [respLoop] at h
  | succ f ih =>
    intro count tx ti r hc h
    rw [respLoop, if_pos hc] at h
    split at h
    · cases h
    · split at h
      · cases h
      · simp only at h
        split at h
        · cases h
        · exact ih _ _ _ r (Nat.mod_lt _ (by decide)) h

/-- C11 fails: the buffer holds a correctly checksummed read request for 48
registers from address 0. The pass accepts it at position 0 and calls
`MODBUS_PrepareResponse` although `start + count = 48 > 10` and
`2 * count + 5 = 101 > 100`; the builder indexes `uiModbusRegister` at 10. -/
theorem scannerPass_calls_builder_out_of_range :
    Accepts overRangeMachine.uiRxBuff overRangeMachine.uiRxIndex 0 ∧
    10 < requestStart overRangeMachine.uiRxBuff 0 + requestCount overRangeMachine.uiRxBuff 0 ∧
    100 < 2 * requestCount overRangeMachine.uiRxBuff 0 + 5 ∧
    scanBody overRangeMachine =
      scanRespond (logReads (logReads (logReads overRangeMachine [0]) [1])
        (MODBUS_VerifyChecksum_reads 0)) ∧
    (scannerPass overRangeMachine).fault = some (.registerIndex 10) :=
  ⟨by decide, by decide, by decide, scanBody_accepts overRangeMachine (by decide), by decide⟩

/-- C11 (amended): the scanner makes no range check. At every accepted position
(device id, read command, checksum verified, eight bytes buffered) the loop body
calls `MODBUS_PrepareResponse`, whatever the start address and count of the
request. The builder stays within `uiModbusRegister` and `uiTxBuff` exactly when
the request is in range (`count = 0` or `start + count ≤ 10`); the response length
is then `2 * count + 5 ≤ 25`. Otherwise it indexes `uiModbusRegister` at some
`k ≥ 10`. -/
theorem scanner_calls_builder_unchecked (m : Machine)
    (h : Accepts m.uiRxBuff m.uiRxIndex m.uiCheckIndex) :
    scanBody m = scanRespond (logReads (logReads (logReads m [m.uiCheckIndex])
      [m.uiCheckIndex + 1]) (MODBUS_VerifyChecksum_reads m.uiCheckIndex)) ∧
    ((∃ r, MODBUS_PrepareResponse m.uiCheckIndex m.uiRxBuff m.uiTxBuff = .ok r) ↔
      InRange m.uiRxBuff m.uiCheckIndex) ∧
    (InRange m.uiRxBuff m.uiCheckIndex →
      2 * requestCount m.uiRxBuff m.uiCheckIndex + 5 ≤ 25 ∧
      ∃ tx, MODBUS_PrepareResponse m.uiCheckIndex m.uiRxBuff m.uiTxBuff =
        .ok (tx, 2 * requestCount m.uiRxBuff m.uiCheckIndex + 5)) ∧
    (¬ InRange m.uiRxBuff m.uiCheckIndex →
      ∃ k, 10 ≤ k ∧ MODBUS_PrepareResponse m.uiCheckIndex m.uiRxBuff m.uiTxBuff =
        .error (.registerIndex k)) := by
  refine ⟨scanBody_accepts m h, MODBUS_PrepareResponse_ok_iff _ _ _, ?_, ?_⟩
  · intro hr
    refine ⟨?_, MODBUS_PrepareResponse_ok_of_inRange _ _ _ hr⟩
    unfold InRange at hr
    omega
  · intro hr
    unfold InRange at hr
    exact MODBUS_PrepareResponse_out_of_range _ _ _ (by omega) (by omega)

theorem scanner_calls_builder_unchecked_witness :
    Accepts sampleMachine.uiRxBuff sampleMachine.uiRxIndex sampleMachine.uiCheckIndex ∧
    InRange sampleMachine.uiRxBuff sampleMachine.uiCheckIndex ∧
    ∃ tx, MODBUS_PrepareResponse sampleMachine.uiCheckIndex sampleMachine.uiRxBuff
      sampleMachine.uiTxBuff = .ok (tx, 11) :=
  ⟨by decide, by decide,
    ((scanner_calls_builder_unchecked sampleMachine (by decide)).2.2.1 (by decide)).2⟩

/-! ## Termination of a pass -/

theorem isResetState_responded (m : Machine) (hf : m.fault = none) (tx : Nat → Byte) (len : Nat)
    (log : List (Nat × Nat)) : IsResetState (responded m tx len log) :=
  ⟨hf, rfl, rfl, rfl, rfl⟩

theorem isResetState_reset (m : Machine) (hf : m.fault = none) (log : List (Nat × Nat)) :
    IsResetState { MODBUS_ResetState m with rxReads := log } :=
  ⟨hf, rfl, rfl, rfl, rfl⟩

/-- A pass on a machine within defined behaviour, whose least accepted request
(if any) is in range, ends within defined behaviour, in the reset state or with
the buffer length unchanged. -/
theorem scannerPass_outcome (m : Machine) (hf : m.fault = none) (hn : m.uiRxIndex ≤ 100)
    (hin : ∀ p, Accepts m.uiRxBuff m.uiRxIndex p →
      (∀ q, q < p → ¬ Accepts m.uiRxBuff m.uiRxIndex q) → InRange m.uiRxBuff p) :
    (scannerPass m).fault = none ∧
      (IsResetState (scannerPass m) ∨ (scannerPass m).uiRxIndex = m.uiRxIndex) := by
  cases he : m.bErrorFlag with
  | true =>
    rw [scannerPass_error m hf he]
    exact ⟨hf, Or.inl ⟨hf, rfl, rfl, rfl, rfl⟩⟩
  | false =>
    by_cases h8 : m.uiRxIndex < 8
    · rw [scannerPass_short m hf he h8]; exact ⟨hf, Or.inr rfl⟩
    · have h8 : 8 ≤ m.uiRxIndex := by omega
      rcases scan_cases m.uiRxBuff m.uiRxIndex with hall | ⟨p, hp, hskip, hacc | ⟨hd, hinc⟩⟩
      · obtain ⟨log, hl⟩ := scannerPass_exhaust m hf he h8 (by omega) hall
        rw [hl]
        exact ⟨hf, Or.inl (isResetState_reset m hf log)⟩
      · have hleast : ∀ q, q < p → ¬ Accepts m.uiRxBuff m.uiRxIndex q :=
          fun q hq => not_accepts_of_skippable (hskip q hq)
        obtain ⟨tx, htx⟩ := MODBUS_PrepareResponse_ok_of_inRange p m.uiRxBuff m.uiTxBuff
          (hin p hacc hleast)
        obtain ⟨log, hl⟩ := scannerPass_accept m p tx _ hf he (by omega) hacc hleast htx
        rw [hl]
        exact ⟨hf, Or.inl (isResetState_responded m hf _ _ _)⟩
      · by_cases hw : m.uiWaitCount < MAXWAITCOUNT
        · obtain ⟨log, hl⟩ := scannerPass_incomplete m p hf he h8 (by omega) hp hinc hd hskip hw
          rw [hl]
          exact ⟨hf, Or.inr rfl⟩
        · obtain ⟨log, hl⟩ := scannerPass_incomplete_timeout m p hf he h8 (by omega) hp hinc hd
            hskip (by omega)
          rw [hl]
          exact ⟨hf, Or.inl (isResetState_reset m hf log)⟩

/-- The pass on `wrapRequestMachine`: the request is accepted at position 0, the
builder indexes the register table at 65535, and its loop has no exit. -/
theorem wrapRequest_pass :
    ∃ log, scannerPass wrapRequestMachine =
      { wrapRequestMachine with
          uiCheckIndex := 0, rxReads := log, fault := some (.registerIndex 65535),
          hung := true } :=
  scannerPass_accept_hangs wrapRequestMachine 0 (.registerIndex 65535) rfl rfl (by decide)
    (by decide) (fun q hq => absurd hq (Nat.not_lt_zero q)) rfl
    (MODBUS_PrepareResponse_flat_none _ _ _ _ (by decide))

/-- C14 fails: the buffer holds a correctly checksummed read request for one
register from address `0xFFFF`. The pass calls the response builder, whose loop
runs `count` from 65535 while `count < 65536`; `count` is a `uint16_t`, so the
loop has no exit for any budget, and its first iteration indexes
`uiModbusRegister` at 65535. The pass does not end in the reset state. -/
theorem scannerPass_wrapRequest_no_exit :
    Accepts wrapRequestMachine.uiRxBuff wrapRequestMachine.uiRxIndex 0 ∧
    requestStart wrapRequestMachine.uiRxBuff 0 = 65535 ∧
    requestCount wrapRequestMachine.uiRxBuff 0 = 1 ∧
    (∀ fuel tx ti r, respLoop (1 + 65535) fuel 65535 tx ti ≠ .ok r) ∧
    (scannerPass wrapRequestMachine).fault = some (.registerIndex 65535) ∧
    ¬ IsResetState (scannerPass wrapRequestMachine) :=
  ⟨by decide, by decide, by decide,
    fun fuel tx ti r => respLoop_never_exits fuel 65535 tx ti r (by decide),
    by obtain ⟨log, h⟩ := wrapRequest_pass; rw [h],
    fun hr => by obtain ⟨log, h⟩ := wrapRequest_pass; rw [h] at hr; exact absurd hr.1 (by simp)⟩

/-- C14 (amended): for every session state within defined behaviour with at most
100 bytes buffered (any buffer content, cursor, wait counter and error flag) in
which the request at the least accepted position, if there is one, is in range
(`count = 0` or `start + count ≤ 10`), one scanner pass terminates within defined
behaviour, and it ends either in the full-reset state or with the buffer length
unchanged. -/
theorem scannerPass_terminates (m : Machine) (hf : m.fault = none) (hn : m.uiRxIndex ≤ 100)
    (hin : ∀ p, Accepts m.uiRxBuff m.uiRxIndex p →
      (∀ q, q < p → ¬ Accepts m.uiRxBuff m.uiRxIndex q) → InRange m.uiRxBuff p) :
    (scannerPass m).fault = none ∧
      (IsResetState (scannerPass m) ∨ (scannerPass m).uiRxIndex = m.uiRxIndex) :=
  scannerPass_outcome m hf hn hin

theorem scannerPass_terminates_witness :
    sampleMachine.fault = none ∧ sampleMachine.uiRxIndex ≤ 100 ∧
    (scannerPass sampleMachine).fault = none ∧
      (IsResetState (scannerPass sampleMachine) ∨
        (scannerPass sampleMachine).uiRxIndex = sampleMachine.uiRxIndex) :=
  ⟨rfl, by decide, scannerPass_terminates sampleMachine rfl (by decide) (fun p hp _ => by
    have h0 : p = 0 := by
      have h1 : p + 8 ≤ 8 := hp.1
      omega
    subst h0
    decide)⟩

/-! ## The wait counter -/

/-- Passes over a stalled incomplete candidate: each of the first
`MAXWAITCOUNT - uiWaitCount` passes adds one to the wait counter and changes
nothing else but the cursor and the read log. -/
theorem scannerPass_stall (m : Machine) (p : Nat) (hf : m.fault = none)
    (he : m.bErrorFlag = false) (h8 : 8 ≤ m.uiRxIndex) (h2 : m.uiRxIndex ≤ 255)
    (hp : p < m.uiRxIndex) (hp8 : m.uiRxIndex < p + 8) (hd : m.uiRxBuff p = DEVICE_ID)
    (hskip : ∀ q, q < p → Skippable m.uiRxBuff m.uiRxIndex q) :
    ∀ j, m.uiWaitCount + j ≤ MAXWAITCOUNT →
      ∃ ci log, scannerPass^[j] m =
        { m with uiCheckIndex := ci, uiWaitCount := m.uiWaitCount + j, rxReads := log } := by
  intro j
  induction j with
  | zero => intro _; exact ⟨m.uiCheckIndex, m.rxReads, rfl⟩
  | succ j ih =>
    intro hj
    obtain ⟨ci, log, hi⟩ := ih (by omega)
    obtain ⟨log', hl⟩ := scannerPass_incomplete
      { m with uiCheckIndex := ci, uiWaitCount := m.uiWaitCount + j, rxReads := log } p
      hf he h8 h2 hp hp8 hd hskip (by simp only; omega)
    exact ⟨p, log', by rw [Function.iterate_succ_apply', hi, hl]; rfl⟩

/-- A stalled incomplete candidate, counted from 0: the first `MAXWAITCOUNT`
passes count and keep the buffer; the next pass resets. -/
theorem scannerPass_stall_reset (m : Machine) (p : Nat) (hf : m.fault = none)
    (he : m.bErrorFlag = false) (h8 : 8 ≤ m.uiRxIndex) (h2 : m.uiRxIndex ≤ 100)
    (hp : p < m.uiRxIndex) (hp8 : m.uiRxIndex < p + 8) (hd : m.uiRxBuff p = DEVICE_ID)
    (hskip : ∀ q, q < p → Skippable m.uiRxBuff m.uiRxIndex q) (hw : m.uiWaitCount = 0) :
    (∀ j, j ≤ MAXWAITCOUNT →
      (scannerPass^[j] m).uiWaitCount = j ∧ (scannerPass^[j] m).uiRxIndex = m.uiRxIndex ∧
      (scannerPass^[j] m).uiRxBuff = m.uiRxBuff ∧ (scannerPass^[j] m).wire = m.wire ∧
      (scannerPass^[j] m).fault = none) ∧
    IsResetState (scannerPass^[MAXWAITCOUNT + 1] m) := by
  have hst := scannerPass_stall m p hf he h8 (by omega) hp hp8 hd hskip
  constructor
  · intro j hj
    obtain ⟨ci, log, hi⟩ := hst j (by omega)
    rw [hi]
    exact ⟨by simp only [hw, Nat.zero_add], rfl, rfl, rfl, hf⟩
  · obtain ⟨ci, log, hi⟩ := hst MAXWAITCOUNT (by omega)
    obtain ⟨log', hl⟩ := scannerPass_incomplete_timeout
      { m with uiCheckIndex := ci, uiWaitCount := m.uiWaitCount + MAXWAITCOUNT, rxReads := log } p
      hf he h8 (by simp only; omega) hp hp8 hd hskip (by simp only; omega)
    rw [Function.iterate_succ_apply', hi, hl]
    exact ⟨hf, rfl, rfl, rfl, rfl⟩

theorem stallMachine_skippable :
    ∀ q, q < 1 → Skippable stallMachine.uiRxBuff stallMachine.uiRxIndex q := by decide

/-- C15 fails: eight buffered bytes whose only device id is at position 1 (an
incomplete candidate), error flag clear, wait counter 0. After the 1000th pass
the wait counter is 1000 and the buffer still holds its eight bytes; the reset
is performed by pass 1001. -/
theorem stall_not_reset_by_pass_1000 :
    (stallMachine.bErrorFlag = false ∧ 8 ≤ stallMachine.uiRxIndex ∧
      stallMachine.uiWaitCount = 0 ∧ stallMachine.uiRxBuff 1 = DEVICE_ID ∧
      stallMachine.uiRxIndex < 1 + 8 ∧ stallMachine.uiRxBuff 0 ≠ DEVICE_ID) ∧
    (scannerPass^[1000] stallMachine).uiWaitCount = 1000 ∧
    (scannerPass^[1000] stallMachine).uiRxIndex = 8 ∧
    ¬ IsResetState (scannerPass^[1000] stallMachine) ∧
    IsResetState (scannerPass^[1001] stallMachine) := by
  have h := scannerPass_stall_reset stallMachine 1 rfl rfl (by decide) (by decide) (by decide)
    (by decide) (by decide) stallMachine_skippable rfl
  have h1 := h.1 1000 (by decide)
  refine ⟨by decide, h1.1, h1.2.1, ?_, h.2⟩
  intro hr
  have h0 := hr.2.1
  rw [h1.2.1] at h0
  exact absurd h0 (by decide)

/-- C15 (amended): with the error flag clear, at least 8 and at most 100 bytes
buffered, every position before `p` either not the device id or a full candidate
that is rejected, position `p` a device id with fewer than 8 bytes from it
(`p + 8 > length`), no further bytes arriving and the wait counter starting at 0:
each of the first 1000 passes increments the wait counter (after pass `j` it is
`j`) and keeps the buffer, transmitting nothing; the full reset is performed by
pass 1001, the first pass that finds the counter at `MAXWAITCOUNT`. -/
theorem wait_counter_reset_on_pass_1001 (m : Machine) (p : Nat) (hf : m.fault = none)
    (he : m.bErrorFlag = false) (h8 : 8 ≤ m.uiRxIndex) (h2 : m.uiRxIndex ≤ 100)
    (hp : p < m.uiRxIndex) (hp8 : m.uiRxIndex < p + 8) (hd : m.uiRxBuff p = DEVICE_ID)
    (hskip : ∀ q, q < p → Skippable m.uiRxBuff m.uiRxIndex q) (hw : m.uiWaitCount = 0) :
    (∀ j, j ≤ 1000 →
      (scannerPass^[j] m).uiWaitCount = j ∧ (scannerPass^[j] m).uiRxIndex = m.uiRxIndex ∧
      (scannerPass^[j] m).uiRxBuff = m.uiRxBuff ∧ (scannerPass^[j] m).wire = m.wire ∧
      (scannerPass^[j] m).fault = none) ∧
    IsResetState (scannerPass^[1001] m) :=
  scannerPass_stall_reset m p hf he h8 h2 hp hp8 hd hskip hw

theorem wait_counter_reset_on_pass_1001_witness :
    (∀ j, j ≤ 1000 →
      (scannerPass^[j] stallMachine).uiWaitCount = j ∧
      (scannerPass^[j] stallMachine).uiRxIndex = stallMachine.uiRxIndex ∧
      (scannerPass^[j] stallMachine).uiRxBuff = stallMachine.uiRxBuff ∧
      (scannerPass^[j] stallMachine).wire = stallMachine.wire ∧
      (scannerPass^[j] stallMachine).fault = none) ∧
    IsResetState (scannerPass^[1001] stallMachine) :=
  wait_counter_reset_on_pass_1001 stallMachine 1 rfl rfl (by decide) (by decide) (by decide)
    (by decide) (by decide) (by decide) rfl

/-- C16 fails: three passes stop at the incomplete candidate at position 1 of
`stallMachine` and count 3. A ninth byte `0x01` then arrives: position 1 is now a
full candidate, which the next pass rejects, and that pass stops at the new
incomplete candidate at position 8. The wait counter is then 4, not 1. -/
theorem wait_counter_not_reset_on_advance :
    (run [.pass, .pass, .pass] stallMachine).uiCheckIndex = 1 ∧
    (run [.pass, .pass, .pass] stallMachine).uiWaitCount = 3 ∧
    (run [.pass, .pass, .pass, .irq (.RX 0x01), .pass] stallMachine).uiCheckIndex = 8 ∧
    (run [.pass, .pass, .pass, .irq (.RX 0x01), .pass] stallMachine).uiRxIndex = 9 ∧
    (run [.pass, .pass, .pass, .irq (.RX 0x01), .pass] stallMachine).uiWaitCount = 4 := by
  decide

/-! ## The session invariant -/

theorem sessionInv_of_eq {m m' : Machine} (h : SessionInv m)
    (h1 : m'.uiCheckIndex = m.uiCheckIndex) (h2 : m'.uiRxIndex = m.uiRxIndex)
    (h3 : m'.uiWaitCount = m.uiWaitCount) : SessionInv m' := by
  unfold SessionInv at *
  rw [h1, h2, h3]; exact h

theorem sessionInv_reset (m : Machine) : SessionInv (MODBUS_ResetState m) :=
  ⟨Nat.le_refl 0, Nat.zero_le _, Nat.zero_le _⟩

theorem sessionInv_advance {m : Machine} (h : SessionInv m) (hc : m.uiCheckIndex < m.uiRxIndex) :
    SessionInv { m with uiCheckIndex := (m.uiCheckIndex + 1) % 256 } := by
  refine ⟨?_, h.2.1, h.2.2⟩
  exact Nat.le_trans (Nat.mod_le _ _) hc

theorem irq_sessionInv (i : Irq) (m : Machine) (h : SessionInv m) :
    SessionInv (UART_0_INST_IRQHandler i m) := by
  unfold UART_0_INST_IRQHandler
  cases i with
  | RX data =>
    simp only
    split
    · rename_i h1
      have hn : m.uiRxIndex ≤ 100 := h.2.1
      split
      · rename_i h2
        simp only [BUFFER_SIZE] at h1 h2
        omega
      · have e : (m.uiRxIndex + 1) % 256 = m.uiRxIndex + 1 := Nat.mod_eq_of_lt (by omega)
        simp only [BUFFER_SIZE] at h1
        refine ⟨?_, ?_, h.2.2⟩
        · show m.uiCheckIndex ≤ (m.uiRxIndex + 1) % 256
          rw [e]; exact Nat.le_succ_of_le h.1
        · show (m.uiRxIndex + 1) % 256 ≤ BUFFER_SIZE
          rw [e]; simp only [BUFFER_SIZE]; omega
    · exact sessionInv_of_eq h rfl rfl rfl
  | TX =>
    simp only
    split
    · split
      · exact sessionInv_of_eq h rfl rfl rfl
      · exact sessionInv_of_eq h rfl rfl rfl
    · exact sessionInv_of_eq h rfl rfl rfl
  | PARITY_ERROR => exact sessionInv_of_eq h rfl rfl rfl
  | OVERRUN_ERROR => exact sessionInv_of_eq h rfl rfl rfl
  | OTHER => exact h

theorem scanRespond_sessionInv (m : Machine) (h : SessionInv m) :
    SessionInv (scanRespond m).1 := by
  unfold scanRespond
  simp only
  split
  · split
    · exact sessionInv_of_eq h rfl rfl rfl
    · exact sessionInv_reset _
  · exact sessionInv_reset _

theorem scanDispatch_sessionInv (m : Machine) (h : SessionInv m)
    (hc : m.uiCheckIndex < m.uiRxIndex) : SessionInv (scanDispatch m).1 := by
  unfold scanDispatch
  simp only
  split
  · split
    · exact sessionInv_of_eq h rfl rfl rfl
    · exact scanRespond_sessionInv _ (sessionInv_of_eq h rfl rfl rfl)
    · exact sessionInv_advance (sessionInv_of_eq h rfl rfl rfl) hc
  · exact sessionInv_advance (sessionInv_of_eq h rfl rfl rfl) hc

theorem scanWait_sessionInv (m : Machine) (h : SessionInv m) : SessionInv (scanWait m).1 := by
  unfold scanWait
  split
  · exact sessionInv_reset _
  · rename_i hw
    have hlt : m.uiWaitCount < 1000 := by simpa [MAXWAITCOUNT] using hw
    refine ⟨h.1, h.2.1, ?_⟩
    show (m.uiWaitCount + 1) % 65536 ≤ MAXWAITCOUNT
    rw [Nat.mod_eq_of_lt (by omega)]
    simp only [MAXWAITCOUNT]; omega

theorem scanBody_sessionInv (m : Machine) (h : SessionInv m)
    (hc : m.uiCheckIndex < m.uiRxIndex) : SessionInv (scanBody m).1 := by
  unfold scanBody
  simp only
  split
  · split
    · exact scanDispatch_sessionInv _ (sessionInv_of_eq h rfl rfl rfl) hc
    · exact scanWait_sessionInv _ (sessionInv_of_eq h rfl rfl rfl)
  · exact sessionInv_advance (sessionInv_of_eq h rfl rfl rfl) hc

theorem scanLoop_sessionInv : ∀ (fuel : Nat) (m : Machine), SessionInv m →
    SessionInv (scanLoop fuel m) := by
  intro fuel
  induction fuel with
  | zero => intro m h; exact sessionInv_of_eq h rfl rfl rfl
  | succ f ih =>
    intro m h
    rw [scanLoop]
    split
    · rename_i hc
      have hb := scanBody_sessionInv m h hc
      split
      · rename_i m' heq
        rw [heq] at hb
        exact ih _ hb
      · rename_i m' heq
        rw [heq] at hb
        exact hb
    · exact h

theorem scanTail_sessionInv (m : Machine) (h : SessionInv m) :
    SessionInv (if PACKET_SIZE ≤ m.uiRxIndex then
      if (scanLoop 256 { m with uiCheckIndex := 0 }).fault.isSome &&
          (scanLoop 256 { m with uiCheckIndex := 0 }).hung then
        scanLoop 256 { m with uiCheckIndex := 0 }
      else if (scanLoop 256 { m with uiCheckIndex := 0 }).uiCheckIndex =
          (scanLoop 256 { m with uiCheckIndex := 0 }).uiRxIndex then
        MODBUS_ResetState (scanLoop 256 { m with uiCheckIndex := 0 })
      else scanLoop 256 { m with uiCheckIndex := 0 }
    else m) := by
  have hl : SessionInv (scanLoop 256 { m with uiCheckIndex := 0 }) :=
    scanLoop_sessionInv _ _ ⟨Nat.zero_le _, h.2.1, h.2.2⟩
  split
  · split
    · exact hl
    · split
      · exact sessionInv_reset _
      · exact hl
  · exact h

theorem scannerPass_sessionInv (m : Machine) (h : SessionInv m) :
    SessionInv (scannerPass m) := by
  by_cases hf : (m.fault.isSome && m.hung) = true
  · unfold scannerPass
    rw [if_pos hf]
    exact h
  · unfold scannerPass
    rw [if_neg hf]
    by_cases he : m.bErrorFlag = true
    · simp only [he, if_true]
      exact scanTail_sessionInv _ (sessionInv_reset m)
    · simp only [he, if_false]
      exact scanTail_sessionInv _ h

theorem step_sessionInv (m : Machine) (e : Event) (h : SessionInv m) :
    SessionInv (step m e) := by
  cases e with
  | irq i => exact irq_sessionInv i m h
  | pass => exact scannerPass_sessionInv m h

theorem run_sessionInv (es : List Event) : ∀ m, SessionInv m → SessionInv (run es m) := by
  induction es with
  | nil => intro m h; exact h
  | cons e es ih => intro m h; exact ih _ (step_sessionInv m e h)

/-- C17: in every state reachable from the initial state (length 0, cursor 0,
wait counter 0, error flag clear) by any sequence of interrupts (receive
interrupts that append a byte, parity and overrun error signals, transmit
interrupts) and complete scanner passes, the cursor is at most the buffer length,
the buffer length at most 100 and the wait counter at most `MAXWAITCOUNT` = 1000.
Passes on in-range requests are among them; the invariant is also kept by a pass
that answers an out-of-range request or hangs in it. -/
theorem session_invariant (es : List Event) :
    (boot.uiRxIndex = 0 ∧ boot.uiCheckIndex = 0 ∧ boot.uiWaitCount = 0 ∧
      boot.bErrorFlag = false) ∧
    (run es boot).uiCheckIndex ≤ (run es boot).uiRxIndex ∧
    (run es boot).uiRxIndex ≤ 100 ∧ (run es boot).uiWaitCount ≤ 1000 :=
  ⟨⟨rfl, rfl, rfl, rfl⟩, run_sessionInv es boot ⟨Nat.le_refl 0, Nat.zero_le _, Nat.zero_le _⟩⟩

/-! ## The residue of a checksummed message -/

theorem crcBits_high : ∀ h : Fin 256, crcBits 8 (256 * h.val) = h.val := by decide

theorem xor_low_byte (c : Nat) : c ^^^ (c % 256) = 256 * (c / 256) := by
  have h1 : c = 2 ^ 8 * (c / 256) ^^^ (c % 256) := by
    rw [← two_pow_mul_add_eq_xor 8 (c / 256) (show c % 256 < 2 ^ 8 from Nat.mod_lt _ (by decide))]
    omega
  calc c ^^^ (c % 256) = (2 ^ 8 * (c / 256) ^^^ (c % 256)) ^^^ (c % 256) := by rw [← h1]
    _ = 256 * (c / 256) := by rw [Nat.xor_assoc, Nat.xor_self, Nat.xor_zero]; rfl

/-- Feeding a register its own low byte and then its own high byte clears it. -/
theorem crcByte_residue (c : Nat) (_hc : c < 65536) (lo hi : Byte) (hlo : lo.val = c % 256)
    (hhi : hi.val = c / 256) : crcByte (crcByte c lo) hi = 0 := by
  have h1 : crcByte c lo = c / 256 := by
    unfold crcByte
    rw [hlo, xor_low_byte]
    exact crcBits_high ⟨c / 256, by omega⟩
  rw [h1]
  unfold crcByte
  rw [hhi, Nat.xor_self]
  decide

/-- A buffer whose bytes `n` and `n + 1` are the low and high byte of the checksum
of its first `n` bytes has checksum 0 over `n + 2` bytes. -/
theorem MODBUS_GetCheckSum_residue (buf : Nat → Byte) (n : Nat)
    (hlo : (buf n).val = MODBUS_GetCheckSum buf n % 256)
    (hhi : (buf (n + 1)).val = MODBUS_GetCheckSum buf n / 256) :
    MODBUS_GetCheckSum buf (n + 2) = 0 := by
  rw [ MODBUS_GetCheckSum_succ, MODBUS_GetCheckSum_succ]
  exact crcByte_residue _ (MODBUS_GetCheckSum_lt buf n) _ _ hlo hhi

/-- A request accepted by `MODBUS_VerifyChecksum` has checksum 0 over its eight
bytes. -/
theorem MODBUS_VerifyChecksum_residue (i : Nat) (rx : Nat → Byte) (hi : i + 6 ≤ 255)
    (h : MODBUS_VerifyChecksum i rx = .ok true) :
    MODBUS_GetCheckSum (fun k => rx (i + k)) 8 = 0 := by
  rw [ MODBUS_VerifyChecksum_eq rx i hi] at h
  have he : (rx (i + 7)).val * 256 + (rx (i + 6)).val =
      MODBUS_GetCheckSum (fun k => rx (i + k)) 6 := by
    simpa using h
  have h6 := (rx (i + 6)).isLt
  have h7 := (rx (i + 7)).isLt
  exact MODBUS_GetCheckSum_residue (fun k => rx (i + k)) 6 (by show (rx (i + 6)).val = _; omega)
    (by show (rx (i + 7)).val = _; omega)

theorem MODBUS_GetCheckSum_append_two (B : List Byte) (lo hi : Byte) :
    MODBUS_GetCheckSum (bufOf (B ++ [lo, hi])) (B ++ [lo, hi]).length =
      crcByte (crcByte (MODBUS_GetCheckSum (bufOf B) B.length) lo) hi := by
  have e : B ++ [lo, hi] = (B ++ [lo]) ++ [hi] := by simp
  rw [e, MODBUS_GetCheckSum_append, MODBUS_GetCheckSum_append]

/-- C19: for every byte sequence `B` with `c = MODBUS_GetCheckSum(B, |B|)`, the
sequence `B` followed by the low byte of `c` and then the high byte of `c` has
checksum 0 over its full length. In particular the response produced by
`MODBUS_PrepareResponse` for an in-range request has checksum 0 over its
`2 * count + 5` bytes, and every request accepted by `MODBUS_VerifyChecksum` has
checksum 0 over its eight bytes. -/
theorem MODBUS_GetCheckSum_residue_zero (B : List Byte) :
    MODBUS_GetCheckSum
        (bufOf (B ++ [toByte (MODBUS_GetCheckSum (bufOf B) B.length),
                      toByte (MODBUS_GetCheckSum (bufOf B) B.length >>> 8)]))
        (B.length + 2) = 0 ∧
    (∀ (i : Nat) (rx tx : Nat → Byte), requestStart rx i + requestCount rx i ≤ 10 →
      ∃ tx', MODBUS_PrepareResponse i rx tx = .ok (tx', 2 * requestCount rx i + 5) ∧
        MODBUS_GetCheckSum tx' (2 * requestCount rx i + 5) = 0) ∧
    (∀ (i : Nat) (rx : Nat → Byte), i + 6 ≤ 255 → MODBUS_VerifyChecksum i rx = .ok true →
      MODBUS_GetCheckSum (fun k => rx (i + k)) 8 = 0) := by
  refine ⟨?_, ?_, fun i rx hi h => MODBUS_VerifyChecksum_residue i rx hi h⟩
  · have hl : B.length + 2 = (B ++ [toByte (MODBUS_GetCheckSum (bufOf B) B.length),
        toByte (MODBUS_GetCheckSum (bufOf B) B.length >>> 8)]).length := by simp
    have hc := MODBUS_GetCheckSum_lt (bufOf B) B.length
    rw [hl, MODBUS_GetCheckSum_append_two]
    apply crcByte_residue _ hc
    · rw [toByte_val]
    · rw [toByte_val, Nat.shiftRight_eq_div_pow]
      exact Nat.mod_eq_of_lt (by omega)
  · intro i rx tx h
    obtain ⟨tx', hp, _, _, _, _, hlo, hhi⟩ := MODBUS_PrepareResponse_layout i rx tx _ _ rfl rfl h
    refine ⟨tx', hp, ?_⟩
    rw [show 2 * requestCount rx i + 5 = (3 + 2 * requestCount rx i) + 2 by omega]
    exact MODBUS_GetCheckSum_residue tx' _ hlo
      (by rw [show 3 + 2 * requestCount rx i + 1 = 4 + 2 * requestCount rx i by omega]; exact hhi)

theorem MODBUS_GetCheckSum_residue_zero_witness :
    MODBUS_GetCheckSum (bufOf sampleRequest) 8 = 0 ∧
    (∃ tx', MODBUS_PrepareResponse 0 (bufOf sampleRequest) (fun _ => 0) = .ok (tx', 11) ∧
      MODBUS_GetCheckSum tx' 11 = 0) ∧
    MODBUS_GetCheckSum (fun k => bufOf sampleRequest (0 + k)) 8 = 0 :=
  ⟨(MODBUS_GetCheckSum_residue_zero [0x01, 0x03, 0x00, 0x02, 0x00, 0x03]).1,
    (MODBUS_GetCheckSum_residue_zero []).2.1 0 (bufOf sampleRequest) (fun _ => 0) (by decide),
    (MODBUS_GetCheckSum_residue_zero []).2.2 0 (bufOf sampleRequest) (by decide) (by decide)⟩

/-! ## Single-bit errors -/

theorem crcShift_xor (a b : Nat) : crcShift (a ^^^ b) = crcShift a ^^^ crcShift b := by
  have hd : (a ^^^ b) / 2 = a / 2 ^^^ b / 2 := by
    apply Nat.eq_of_testBit_eq
    intro j
    rw [Nat.testBit_xor, ← Nat.testBit_succ, ← Nat.testBit_succ, ← Nat.testBit_succ,
      Nat.testBit_xor]
  have hm : (a ^^^ b) % 2 = (a % 2 + b % 2) % 2 := by
    have h1 := Nat.testBit_xor a b 0
    simp only [Nat.testBit_zero] at h1
    rcases Nat.mod_two_eq_zero_or_one a with ha | ha <;>
    rcases Nat.mod_two_eq_zero_or_one b with hb | hb <;>
    rcases Nat.mod_two_eq_zero_or_one (a ^^^ b) with hab | hab <;>
    simp [ha, hb, hab] at h1 ⊢
  have hK : ∀ x y : Nat, x ^^^ 40961 ^^^ (y ^^^ 40961) = x ^^^ y := by
    intro x y
    rw [Nat.xor_assoc, ← Nat.xor_assoc 40961, Nat.xor_comm 40961 y, Nat.xor_assoc y,
      Nat.xor_self, Nat.xor_zero]
  rw [crcShift_eq, crcShift_eq a, crcShift_eq b, hd, hm]
  rcases Nat.mod_two_eq_zero_or_one a with ha | ha <;>
  rcases Nat.mod_two_eq_zero_or_one b with hb | hb
  · simp [ha, hb]
  · simp [ha, hb, Nat.xor_assoc]
  · simp only [ha, hb, Nat.add_zero, Nat.one_mod, if_true, Nat.zero_ne_one, if_false]
    rw [Nat.xor_assoc, Nat.xor_comm (b / 2), ← Nat.xor_assoc]
  · simp only [ha, hb, Nat.reduceAdd, Nat.mod_self, Nat.zero_ne_one, if_true, if_false]
    rw [hK]

theorem crcBits_xor (n : Nat) : ∀ a b, crcBits n (a ^^^ b) = crcBits n a ^^^ crcBits n b := by
  induction n with
  | zero => intro a b; rfl
  | succ n ih => intro a b; simp only [crcBits, crcShift_xor, ih]

theorem crcBits_add (a : Nat) : ∀ b x, crcBits (a + b) x = crcBits b (crcBits a x) := by
  induction a with
  | zero => intro b x; rw [Nat.zero_add]; rfl
  | succ a ih =>
    intro b x
    rw [show a + 1 + b = (a + b) + 1 by omega]
    simp only [crcBits, ih]

theorem crcByte_xor (c e : Nat) (b : Byte) : crcByte (c ^^^ e) b = crcByte c b ^^^ crcBits 8 e := by
  unfold crcByte
  rw [Nat.xor_assoc, Nat.xor_comm e, ← Nat.xor_assoc, crcBits_xor]

theorem flipBit_val : ∀ (b : Byte) (j : Fin 8), (flipBit b j.val).val = b.val ^^^ 2 ^ j.val := by
  decide

/-- The checksum of a buffer with bit `j` of byte `k` flipped differs from the
checksum of the buffer by the image of that bit under the remaining shifts. -/
theorem MODBUS_GetCheckSum_flip (buf : Nat → Byte) (k : Nat) (j : Fin 8) :
    ∀ d, MODBUS_GetCheckSum (Function.update buf k (flipBit (buf k) j.val)) (k + 1 + d) =
      MODBUS_GetCheckSum buf (k + 1 + d) ^^^ crcBits (8 * (d + 1)) (2 ^ j.val) := by
  intro d
  induction d with
  | zero =>
    rw [Nat.add_zero, MODBUS_GetCheckSum_succ, MODBUS_GetCheckSum_succ]
    have h0 : MODBUS_GetCheckSum (Function.update buf k (flipBit (buf k) j.val)) k =
        MODBUS_GetCheckSum buf k :=
      MODBUS_GetCheckSum_congr (fun i hi => Function.update_noteq (Nat.ne_of_lt hi) _ _)
    rw [h0, Function.update_same]
    unfold crcByte
    rw [flipBit_val, ← Nat.xor_assoc, crcBits_xor]
  | succ d ih =>
    rw [show k + 1 + (d + 1) = (k + 1 + d) + 1 by omega, MODBUS_GetCheckSum_succ,
      MODBUS_GetCheckSum_succ, ih, crcByte_xor,
      Function.update_noteq (show k + 1 + d ≠ k by omega),
      show 8 * (d + 1 + 1) = 8 * (d + 1) + 8 by omega, crcBits_add]

theorem crcBits_bit_ne_zero :
    ∀ (d j : Fin 8), crcBits (8 * (d.val + 1)) (2 ^ j.val) ≠ 0 := by decide

theorem window_update (buf : Nat → Byte) (i k : Nat) (b : Byte) :
    (fun t => Function.update buf (i + k) b (i + t)) =
      Function.update (fun t => buf (i + t)) k b := by
  funext t
  by_cases h : t = k
  · subst h; simp
  · rw [Function.update_noteq h, Function.update_noteq (by omega)]

/-- C20: for every receive buffer and index `i` (with `i + 6 ≤ 255`, the range in
which the `uint8_t` copy loop of the function does not wrap) at which
`MODBUS_VerifyChecksum(i, buf)` is true, flipping any one of the 64 bits of the
eight bytes `buf[i .. i+8)` (bit `j` of byte `i + k`, payload or checksum) yields
a buffer at which `MODBUS_VerifyChecksum(i, .)` is false. -/
theorem MODBUS_VerifyChecksum_single_bit (i : Nat) (buf : Nat → Byte) (k j : Fin 8)
    (hi : i + 6 ≤ 255) (h : MODBUS_VerifyChecksum i buf = .ok true) :
    MODBUS_VerifyChecksum i
      (Function.update buf (i + k.val) (flipBit (buf (i + k.val)) j.val)) = .ok false := by
  have hr := MODBUS_VerifyChecksum_residue i buf hi h
  rw [ MODBUS_VerifyChecksum_eq _ i hi]
  congr 1
  apply decide_eq_false
  intro he
  have hv : MODBUS_VerifyChecksum i
      (Function.update buf (i + k.val) (flipBit (buf (i + k.val)) j.val)) = .ok true := by
    rw [ MODBUS_VerifyChecksum_eq _ i hi]
    congr 1
    exact decide_eq_true he
  have hr' := MODBUS_VerifyChecksum_residue i _ hi hv
  rw [window_update] at hr'
  have hf := MODBUS_GetCheckSum_flip (fun t => buf (i + t)) k.val j (7 - k.val)
  have hk := k.isLt
  rw [show k.val + 1 + (7 - k.val) = 8 by omega] at hf
  rw [hf, hr, Nat.zero_xor] at hr'
  exact crcBits_bit_ne_zero ⟨7 - k.val, by omega⟩ j hr'

theorem MODBUS_VerifyChecksum_single_bit_witness :
    MODBUS_VerifyChecksum 0 (bufOf sampleRequest) = .ok true ∧
    MODBUS_VerifyChecksum 0
      (Function.update (bufOf sampleRequest) (0 + 3) (flipBit (bufOf sampleRequest (0 + 3)) 5)) =
        .ok false :=
  ⟨by decide, MODBUS_VerifyChecksum_single_bit 0 (bufOf sampleRequest) 3 5 (by decide) (by decide)⟩

/-! ## Restarting the scan from index 0 -/

theorem scanRespond_log (m : Machine) (l : List (Nat × Nat)) :
    ∃ l', scanRespond { m with rxReads := l } =
      ({ (scanRespond m).1 with rxReads := l' }, (scanRespond m).2) := by
  unfold scanRespond
  simp only [logReads, recordFault]
  rcases h : MODBUS_PrepareResponse m.uiCheckIndex m.uiRxBuff m.uiTxBuff with f | ⟨tx, len⟩
  · rcases hq : MODBUS_PrepareResponse_flat (m.outside 0) m.uiCheckIndex m.uiRxBuff m.uiTxBuff
      with _ | ⟨tx, len⟩
    · exact ⟨_, rfl⟩
    · exact ⟨_, rfl⟩
  · exact ⟨_, rfl⟩

theorem scanWait_log (m : Machine) (l : List (Nat × Nat)) :
    scanWait { m with rxReads := l } =
      ({ (scanWait m).1 with rxReads := l }, (scanWait m).2) := by
  unfold scanWait
  simp only
  split <;> rfl

theorem scanDispatch_log (m : Machine) (l : List (Nat × Nat)) :
    ∃ l', scanDispatch { m with rxReads := l } =
      ({ (scanDispatch m).1 with rxReads := l' }, (scanDispatch m).2) := by
  unfold scanDispatch
  simp only [logReads]
  by_cases hr : m.uiRxBuff (m.uiCheckIndex + 1) = READ_COMMAND
  · simp only [hr, if_true]
    rcases h : MODBUS_VerifyChecksum m.uiCheckIndex m.uiRxBuff with f | b
    · exact ⟨_, rfl⟩
    · cases b
      · exact ⟨_, rfl⟩
      · exact scanRespond_log (logReads (logReads m [m.uiCheckIndex + 1])
          (MODBUS_VerifyChecksum_reads m.uiCheckIndex)) _
  · simp only [hr, if_false]
    exact ⟨_, rfl⟩

theorem scanBody_log (m : Machine) (l : List (Nat × Nat)) :
    ∃ l', scanBody { m with rxReads := l } =
      ({ (scanBody m).1 with rxReads := l' }, (scanBody m).2) := by
  unfold scanBody
  simp only [logReads]
  by_cases hd : DEVICE_ID = m.uiRxBuff m.uiCheckIndex
  · simp only [hd, if_true]
    by_cases h7 : m.uiCheckIndex + 7 < m.uiRxIndex
    · simp only [h7, if_true]
      exact scanDispatch_log (logReads m [m.uiCheckIndex]) _
    · simp only [h7, if_false]
      exact ⟨_, scanWait_log (logReads m [m.uiCheckIndex]) _⟩
  · simp only [hd, if_false]
    exact ⟨_, rfl⟩

/-- The call of the builder either hangs, leaving the session as it is, or
returns, after which the session is reset. -/
theorem scanRespond_cases (m : Machine) :
    ((scanRespond m).2 = false ∧ (scanRespond m).1.uiRxBuff = m.uiRxBuff ∧
      (scanRespond m).1.uiRxIndex = m.uiRxIndex ∧
      (scanRespond m).1.uiCheckIndex = m.uiCheckIndex) ∨
    ((scanRespond m).1.uiRxIndex = 0 ∧ (scanRespond m).1.uiCheckIndex = 0 ∧
      (scanRespond m).2 = true) := by
  unfold scanRespond
  simp only [logReads, recordFault]
  rcases h : MODBUS_PrepareResponse m.uiCheckIndex m.uiRxBuff m.uiTxBuff with f | ⟨tx, len⟩
  · rcases hq : MODBUS_PrepareResponse_flat (m.outside 0) m.uiCheckIndex m.uiRxBuff m.uiTxBuff
      with _ | ⟨tx, len⟩
    · exact Or.inl ⟨rfl, rfl, rfl, rfl⟩
    · exact Or.inr ⟨rfl, rfl, rfl⟩
  · exact Or.inr ⟨rfl, rfl, rfl⟩

theorem scanWait_cases (m : Machine) :
    (scanWait m).2 = false ∧ (scanWait m).1.uiRxBuff = m.uiRxBuff ∧
    (scanWait m).1.fault = m.fault ∧
    (((scanWait m).1.uiRxIndex = 0 ∧ (scanWait m).1.uiCheckIndex = 0) ∨
      ((scanWait m).1.uiRxIndex = m.uiRxIndex ∧
        (scanWait m).1.uiCheckIndex = m.uiCheckIndex)) := by
  unfold scanWait
  split
  · exact ⟨rfl, rfl, rfl, Or.inl ⟨rfl, rfl⟩⟩
  · exact ⟨rfl, rfl, rfl, Or.inr ⟨rfl, rfl⟩⟩

/-- The three ways the loop body can go at a position. -/
theorem scanBody_cases (m : Machine) (hc : m.uiCheckIndex < m.uiRxIndex)
    (h2 : m.uiRxIndex ≤ 255) :
    (Skippable m.uiRxBuff m.uiRxIndex m.uiCheckIndex ∧
      ∃ log, scanBody m =
        ({ m with uiCheckIndex := m.uiCheckIndex + 1, rxReads := log }, true)) ∨
    (scanBody m = scanRespond (logReads (logReads (logReads m [m.uiCheckIndex])
      [m.uiCheckIndex + 1]) (MODBUS_VerifyChecksum_reads m.uiCheckIndex))) ∨
    (scanBody m = scanWait (logReads m [m.uiCheckIndex])) := by
  by_cases hs : Skippable m.uiRxBuff m.uiRxIndex m.uiCheckIndex
  · exact Or.inl ⟨hs, scanBody_skippable m hc h2 hs⟩
  · have hd : m.uiRxBuff m.uiCheckIndex = DEVICE_ID := by
      by_contra hd
      exact hs (Or.inl hd)
    by_cases h8 : m.uiCheckIndex + 8 ≤ m.uiRxIndex
    · have ha : Accepts m.uiRxBuff m.uiRxIndex m.uiCheckIndex := by
        by_contra ha
        exact hs (Or.inr ⟨h8, ha⟩)
      exact Or.inr (Or.inl (scanBody_accepts m ha))
    · exact Or.inr (Or.inr (scanBody_incomplete m hd (by omega)))

/-- An iteration of the loop body that returns to the loop condition brings the
cursor closer to the end of the committed bytes. -/
theorem scanBody_progress (m : Machine) (hc : m.uiCheckIndex < m.uiRxIndex)
    (h2 : m.uiRxIndex ≤ 255) (ht : (scanBody m).2 = true) :
    (scanBody m).1.uiRxIndex - (scanBody m).1.uiCheckIndex < m.uiRxIndex - m.uiCheckIndex ∧
      (scanBody m).1.uiRxIndex ≤ 255 := by
  rcases scanBody_cases m hc h2 with ⟨_, log, hb⟩ | hb | hb
  · rw [hb]
    exact ⟨by show m.uiRxIndex - (m.uiCheckIndex + 1) < _; omega, h2⟩
  · rw [hb] at ht ⊢
    rcases scanRespond_cases (logReads (logReads (logReads m [m.uiCheckIndex])
      [m.uiCheckIndex + 1]) (MODBUS_VerifyChecksum_reads m.uiCheckIndex)) with
      ⟨h, _⟩ | ⟨h1, h2, _⟩
    · rw [h] at ht; cases ht
    · rw [h1, h2]; omega
  · rw [hb] at ht
    rw [(scanWait_cases _).1] at ht
    cases ht

theorem scanLoop_fuel_log : ∀ (f g : Nat) (m : Machine) (l : List (Nat × Nat)),
    m.uiRxIndex ≤ 255 → m.uiRxIndex - m.uiCheckIndex < f → m.uiRxIndex - m.uiCheckIndex < g →
    dropLog (scanLoop f { m with rxReads := l }) = dropLog (scanLoop g m) := by
  intro f
  induction f with
  | zero => intro g m l _ h _; omega
  | succ f ih =>
    intro g m l h2 hf hg
    obtain ⟨g, rfl⟩ : ∃ g', g = g' + 1 := ⟨g - 1, by omega⟩
    by_cases hc : m.uiCheckIndex < m.uiRxIndex
    · obtain ⟨l', hl⟩ := scanBody_log m l
      have hp := scanBody_progress m hc h2
      rw [scanLoop, scanLoop, if_pos hc, if_pos (show _ < _ from hc), hl]
      rcases hb : scanBody m with ⟨m', b⟩
      rw [hb] at hp
      cases b
      · rfl
      · obtain ⟨hp1, hp2⟩ := hp rfl
        exact ih g m' l' hp2 (by simp only at hp1; omega) (by simp only at hp1; omega)
    · rw [scanLoop, scanLoop, if_neg hc, if_neg (show ¬ _ < _ from hc)]
      rfl

theorem scanBody_cursorInv (m : Machine) (hc : m.uiCheckIndex < m.uiRxIndex)
    (h2 : m.uiRxIndex ≤ 255) (h : CursorInv m) : CursorInv (scanBody m).1 := by
  rcases scanBody_cases m hc h2 with ⟨hs, log, hb⟩ | hb | hb
  · rw [hb]
    intro q hq
    by_cases hq' : q = m.uiCheckIndex
    · subst hq'; exact hs
    · exact h q (by simp only at hq; omega)
  · rw [hb]
    rcases scanRespond_cases (logReads (logReads (logReads m [m.uiCheckIndex])
      [m.uiCheckIndex + 1]) (MODBUS_VerifyChecksum_reads m.uiCheckIndex)) with
      ⟨_, hrx, hn, hci⟩ | ⟨_, h1, _⟩
    · intro q hq
      rw [hrx, hn]
      rw [hci] at hq
      exact h q hq
    · intro q hq
      rw [h1] at hq
      omega
  · rw [hb]
    obtain ⟨_, hrx, hfa, hc' | ⟨hn, hci⟩⟩ := scanWait_cases (logReads m [m.uiCheckIndex])
    · intro q hq
      rw [hc'.2] at hq
      omega
    · intro q hq
      rw [hrx, hn]
      rw [hci] at hq
      exact h q hq

theorem scanLoop_cursorInv : ∀ (f : Nat) (m : Machine), m.uiRxIndex ≤ 255 → CursorInv m →
    CursorInv (scanLoop f m) := by
  intro f
  induction f with
  | zero => intro m _ h; exact h
  | succ f ih =>
    intro m h2 h
    rw [scanLoop]
    by_cases hc : m.uiCheckIndex < m.uiRxIndex
    · rw [if_pos hc]
      have hb := scanBody_cursorInv m hc h2 h
      have hp := scanBody_progress m hc h2
      rcases hs : scanBody m with ⟨m', b⟩
      rw [hs] at hb hp
      cases b
      · exact hb
      · exact ih m' (hp rfl).2 hb
    · rw [if_neg hc]; exact h

theorem scanTail_cursorInv (m : Machine) (h2 : m.uiRxIndex ≤ 255) (h : CursorInv m) :
    CursorInv (if PACKET_SIZE ≤ m.uiRxIndex then
      if (scanLoop 256 { m with uiCheckIndex := 0 }).fault.isSome &&
          (scanLoop 256 { m with uiCheckIndex := 0 }).hung then
        scanLoop 256 { m with uiCheckIndex := 0 }
      else if (scanLoop 256 { m with uiCheckIndex := 0 }).uiCheckIndex =
          (scanLoop 256 { m with uiCheckIndex := 0 }).uiRxIndex then
        MODBUS_ResetState (scanLoop 256 { m with uiCheckIndex := 0 })
      else scanLoop 256 { m with uiCheckIndex := 0 }
    else m) := by
  have hl : CursorInv (scanLoop 256 { m with uiCheckIndex := 0 }) :=
    scanLoop_cursorInv _ _ h2 (fun q hq => absurd hq (Nat.not_lt_zero q))
  split
  · split
    · exact hl
    · split
      · exact fun q hq => absurd hq (Nat.not_lt_zero q)
      · exact hl
  · exact h

theorem scannerPass_cursorInv (m : Machine) (h2 : m.uiRxIndex ≤ 255) (h : CursorInv m) :
    CursorInv (scannerPass m) := by
  by_cases hf : (m.fault.isSome && m.hung) = true
  · unfold scannerPass
    rw [if_pos hf]
    exact h
  · unfold scannerPass
    rw [if_neg hf]
    by_cases he : m.bErrorFlag = true
    · simp only [he, if_true]
      exact scanTail_cursorInv _ (Nat.zero_le _) (fun q hq => absurd hq (Nat.not_lt_zero q))
    · simp only [he, if_false]
      exact scanTail_cursorInv _ h2 h

theorem MODBUS_VerifyChecksum_congr (q : Nat) (rx rx' : Nat → Byte) (hq : q + 6 ≤ 255)
    (h : ∀ k, k < 8 → rx' (q + k) = rx (q + k)) :
    MODBUS_VerifyChecksum q rx' = MODBUS_VerifyChecksum q rx := by
  rw [ MODBUS_VerifyChecksum_eq rx' q hq, MODBUS_VerifyChecksum_eq rx q hq, h 7 (by decide),
    h 6 (by decide),
    MODBUS_GetCheckSum_congr (fun k hk => h k (by omega) :
      ∀ k, k < 6 → (fun k => rx' (q + k)) k = (fun k => rx (q + k)) k)]

/-- A byte appended to the buffer leaves every position that the scanner steps
over a position that it steps over. -/
theorem skippable_append (rx : Nat → Byte) (n q : Nat) (data : Byte) (hq : q < n)
    (hn : n ≤ 100) (h : Skippable rx n q) :
    Skippable (Function.update rx n data) (n + 1) q := by
  have e0 : Function.update rx n data q = rx q := Function.update_noteq (by omega) _ _
  have e1 : q + 8 ≤ n → Function.update rx n data (q + 1) = rx (q + 1) :=
    fun _ => Function.update_noteq (by omega) _ _
  rcases h with hd | ⟨h8, hna⟩
  · exact Or.inl (by rw [e0]; exact hd)
  · refine Or.inr ⟨by omega, fun ha => hna ⟨h8, ?_, ?_, ?_⟩⟩
    · rw [← e0]; exact ha.2.1
    · rw [← e1 h8]; exact ha.2.2.1
    · rw [← MODBUS_VerifyChecksum_congr q rx (Function.update rx n data) (by omega)
        (fun k hk => Function.update_noteq (by omega) _ _)]
      exact ha.2.2.2

theorem cursorInv_of_eq {m m' : Machine} (h : CursorInv m)
    (h1 : m'.uiCheckIndex = m.uiCheckIndex) (h2 : m'.uiRxIndex = m.uiRxIndex)
    (h3 : m'.uiRxBuff = m.uiRxBuff) : CursorInv m' := by
  intro q hq
  rw [h2, h3]
  rw [h1] at hq
  exact h q hq

theorem irq_cursorInv (i : Irq) (m : Machine) (hs : SessionInv m) (h : CursorInv m) :
    CursorInv (UART_0_INST_IRQHandler i m) := by
  unfold UART_0_INST_IRQHandler
  cases i with
  | RX data =>
    simp only
    split
    · rename_i h1
      have hn : m.uiRxIndex ≤ 100 := hs.2.1
      split
      · rename_i h2
        simp only [BUFFER_SIZE] at h1 h2
        omega
      · simp only [BUFFER_SIZE] at h1
        have e : (m.uiRxIndex + 1) % 256 = m.uiRxIndex + 1 := Nat.mod_eq_of_lt (by omega)
        intro q hq
        show Skippable (Function.update m.uiRxBuff m.uiRxIndex data)
          ((m.uiRxIndex + 1) % 256) q
        rw [e]
        have hq' : q < m.uiCheckIndex := hq
        exact skippable_append _ _ _ _ (Nat.lt_of_lt_of_le hq' hs.1) (by omega) (h q hq')
    · exact cursorInv_of_eq h rfl rfl rfl
  | TX =>
    simp only
    split
    · split
      · exact cursorInv_of_eq h rfl rfl rfl
      · exact cursorInv_of_eq h rfl rfl rfl
    · exact cursorInv_of_eq h rfl rfl rfl
  | PARITY_ERROR => exact cursorInv_of_eq h rfl rfl rfl
  | OVERRUN_ERROR => exact cursorInv_of_eq h rfl rfl rfl
  | OTHER => exact h

theorem run_cursorInv (es : List Event) :
    ∀ m, SessionInv m → CursorInv m → SessionInv (run es m) ∧ CursorInv (run es m) := by
  induction es with
  | nil => intro m h1 h2; exact ⟨h1, h2⟩
  | cons e es ih =>
    intro m h1 h2
    refine ih _ (step_sessionInv m e h1) ?_
    cases e with
    | irq i => exact irq_cursorInv i m h1 h2
    | pass =>
      have hn : m.uiRxIndex ≤ 100 := h1.2.1
      exact scannerPass_cursorInv m (by omega) h2

theorem dropLog_fields (a b : Machine) (h : dropLog a = dropLog b) :
    a.wire = b.wire ∧ a.uiRxIndex = b.uiRxIndex ∧ a.uiCheckIndex = b.uiCheckIndex ∧
    a.uiWaitCount = b.uiWaitCount ∧ a.bErrorFlag = b.bErrorFlag ∧ a.uiTxBuff = b.uiTxBuff ∧
    a.fault = b.fault ∧ a.hung = b.hung := by
  have h1 := congrArg Machine.wire h
  have h2 := congrArg Machine.uiRxIndex h
  have h3 := congrArg Machine.uiCheckIndex h
  have h4 := congrArg Machine.uiWaitCount h
  have h5 := congrArg Machine.bErrorFlag h
  have h6 := congrArg Machine.uiTxBuff h
  have h7 := congrArg Machine.fault h
  have h8 := congrArg Machine.hung h
  exact ⟨h1, h2, h3, h4, h5, h6, h7, h8⟩

theorem scanTail_dropLog (a b : Machine) (h : dropLog a = dropLog b) :
    dropLog (if a.fault.isSome && a.hung then a
      else if a.uiCheckIndex = a.uiRxIndex then MODBUS_ResetState a else a) =
    dropLog (if b.fault.isSome && b.hung then b
      else if b.uiCheckIndex = b.uiRxIndex then MODBUS_ResetState b else b) := by
  obtain ⟨_, hn, hc, _, _, _, hf, hh⟩ := dropLog_fields a b h
  have hr : dropLog (MODBUS_ResetState a) = dropLog (MODBUS_ResetState b) := by
    have := congrArg MODBUS_ResetState h
    exact this
  rw [hf, hc, hn, hh]
  split
  · exact h
  · split
    · exact hr
    · exact h

/-- When every position below the cursor is one the scanner steps over, the pass
of the code and the pass that resumes from the cursor end in the same state, up
to the log of reads. -/
theorem scannerPass_eq_resume (m : Machine) (hs : SessionInv m) (hk : CursorInv m) :
    dropLog (scannerPass m) = dropLog (scannerPassResume m) := by
  by_cases hf : (m.fault.isSome && m.hung) = true
  · unfold scannerPass scannerPassResume
    rw [if_pos hf, if_pos hf]
  · by_cases he : m.bErrorFlag = true
    · unfold scannerPass scannerPassResume
      rw [if_neg hf, if_neg hf]
      simp only [he, if_true]
      rfl
    · by_cases h8 : PACKET_SIZE ≤ m.uiRxIndex
      · have hn : m.uiRxIndex ≤ 100 := hs.2.1
        obtain ⟨log, hsk⟩ := scanLoop_skippable m.uiCheckIndex (256 - m.uiCheckIndex)
          { m with uiCheckIndex := 0 } (by simp only [Nat.zero_add]; exact hs.1)
          (by simp only; omega)
          (fun q _ hq => hk q (by simp only [Nat.zero_add] at hq; exact hq))
        have hci : m.uiCheckIndex ≤ m.uiRxIndex := hs.1
        rw [show 256 - m.uiCheckIndex + m.uiCheckIndex = 256 by omega] at hsk
        simp only [Nat.zero_add] at hsk
        have hfl := scanLoop_fuel_log (256 - m.uiCheckIndex) 256 m log (by omega) (by omega)
          (by omega)
        have hL : dropLog (scanLoop 256 { m with uiCheckIndex := 0 }) =
            dropLog (scanLoop 256 m) := by
          rw [hsk]; exact hfl
        unfold scannerPass scannerPassResume
        rw [if_neg hf, if_neg hf]
        simp only [if_neg he, h8, if_true]
        exact scanTail_dropLog _ _ hL
      · unfold scannerPass scannerPassResume
        rw [if_neg hf, if_neg hf]
        simp only [if_neg he, h8, if_false]

theorem sessionInv_bootWith (outside : Nat → Nat → Nat) (spin : Nat → Byte) :
    SessionInv (bootWith outside spin) :=
  ⟨Nat.le_refl 0, Nat.zero_le _, Nat.zero_le _⟩

theorem cursorInv_bootWith (outside : Nat → Nat → Nat) (spin : Nat → Byte) :
    CursorInv (bootWith outside spin) :=
  fun q hq => absurd hq (Nat.not_lt_zero q)

/-- C18: in every state reachable from the initial state by interrupts and
complete scanner passes, whatever the requests received (in range or not) and
whatever the memory outside the arrays holds, each position below the saved
cursor is either not the device id or a full 8-byte candidate that is rejected,
and the scanner pass of the code, which sets the cursor to 0 before scanning,
ends with the same transmitted bytes, buffer length, cursor, wait counter, error
flag, transmit buffer, recorded fault and hang status as the pass that resumes
scanning from the saved cursor. -/
theorem restart_equals_resume (outside : Nat → Nat → Nat) (spin : Nat → Byte)
    (es : List Event) :
    (∀ q, q < (run es (bootWith outside spin)).uiCheckIndex →
      ((run es (bootWith outside spin)).uiRxBuff q ≠ DEVICE_ID ∨
        (q + 8 ≤ (run es (bootWith outside spin)).uiRxIndex ∧
          ¬ Accepts (run es (bootWith outside spin)).uiRxBuff
            (run es (bootWith outside spin)).uiRxIndex q))) ∧
    (scannerPass (run es (bootWith outside spin))).wire =
      (scannerPassResume (run es (bootWith outside spin))).wire ∧
    (scannerPass (run es (bootWith outside spin))).uiRxIndex =
      (scannerPassResume (run es (bootWith outside spin))).uiRxIndex ∧
    (scannerPass (run es (bootWith outside spin))).uiCheckIndex =
      (scannerPassResume (run es (bootWith outside spin))).uiCheckIndex ∧
    (scannerPass (run es (bootWith outside spin))).uiWaitCount =
      (scannerPassResume (run es (bootWith outside spin))).uiWaitCount ∧
    (scannerPass (run es (bootWith outside spin))).bErrorFlag =
      (scannerPassResume (run es (bootWith outside spin))).bErrorFlag ∧
    (scannerPass (run es (bootWith outside spin))).uiTxBuff =
      (scannerPassResume (run es (bootWith outside spin))).uiTxBuff ∧
    (scannerPass (run es (bootWith outside spin))).fault =
      (scannerPassResume (run es (bootWith outside spin))).fault ∧
    (scannerPass (run es (bootWith outside spin))).hung =
      (scannerPassResume (run es (bootWith outside spin))).hung := by
  obtain ⟨h1, h2⟩ := run_cursorInv es (bootWith outside spin)
    (sessionInv_bootWith outside spin) (cursorInv_bootWith outside spin)
  have h := scannerPass_eq_resume (run es (bootWith outside spin)) h1 h2
  exact ⟨h2, dropLog_fields _ _ h⟩

theorem restart_equals_resume_witness :
    ((run overRangeEvents boot).fault = some (.registerIndex 10) ∧
      (run overRangeEvents boot).uiCheckIndex = 1 ∧ (run overRangeEvents boot).uiRxIndex = 8) ∧
    (scannerPass (run overRangeEvents boot)).wire =
      (scannerPassResume (run overRangeEvents boot)).wire ∧
    (scannerPass (run overRangeEvents boot)).uiCheckIndex =
      (scannerPassResume (run overRangeEvents boot)).uiCheckIndex ∧
    (scannerPass (run overRangeEvents boot)).uiWaitCount =
      (scannerPassResume (run overRangeEvents boot)).uiWaitCount :=
  ⟨by decide, (restart_equals_resume (fun _ _ => 0) (fun _ => 0) overRangeEvents).2.1,
    (restart_equals_resume (fun _ _ => 0) (fun _ => 0) overRangeEvents).2.2.2.1,
    (restart_equals_resume (fun _ _ => 0) (fun _ => 0) overRangeEvents).2.2.2.2.1⟩

/-! ## Writes to the wait counter -/

theorem isCleared_reset (m : Machine) : IsCleared (MODBUS_ResetState m) := ⟨rfl, rfl, rfl, rfl⟩

theorem resetState_of_isCleared (m : Machine) (h : IsCleared m) : m = MODBUS_ResetState m := by
  obtain ⟨h1, h2, h3, h4⟩ := h
  cases m
  simp only at h1 h2 h3 h4
  subst h1 h2 h3 h4
  rfl

theorem scanRespond_wait (m : Machine) :
    ((scanRespond m).2 = false ∧ (scanRespond m).1.uiWaitCount = m.uiWaitCount) ∨
      IsCleared (scanRespond m).1 := by
  unfold scanRespond
  simp only [logReads, recordFault]
  rcases h : MODBUS_PrepareResponse m.uiCheckIndex m.uiRxBuff m.uiTxBuff with f | ⟨tx, len⟩
  · rcases hq : MODBUS_PrepareResponse_flat (m.outside 0) m.uiCheckIndex m.uiRxBuff m.uiTxBuff
      with _ | ⟨tx, len⟩
    · exact Or.inl ⟨rfl, rfl⟩
    · exact Or.inr ⟨rfl, rfl, rfl, rfl⟩
  · exact Or.inr ⟨rfl, rfl, rfl, rfl⟩

theorem scanDispatch_wait (m : Machine) :
    (scanDispatch m).1.uiWaitCount = m.uiWaitCount ∨ IsCleared (scanDispatch m).1 := by
  unfold scanDispatch
  simp only [logReads, recordFault]
  split
  · split
    · exact Or.inl rfl
    · rcases scanRespond_wait (logReads (logReads m [m.uiCheckIndex + 1])
        (MODBUS_VerifyChecksum_reads m.uiCheckIndex)) with ⟨_, h⟩ | h
      · exact Or.inl h
      · exact Or.inr h
    · exact Or.inl rfl
  · exact Or.inl rfl

theorem scanWait_wait (m : Machine) :
    (scanWait m).2 = false ∧
      ((scanWait m).1.uiWaitCount = m.uiWaitCount + 1 ∨ IsCleared (scanWait m).1) := by
  unfold scanWait
  split
  · exact ⟨rfl, Or.inr (isCleared_reset m)⟩
  · rename_i hw
    have hlt : m.uiWaitCount < 1000 := by simpa [MAXWAITCOUNT] using hw
    exact ⟨rfl, Or.inl (Nat.mod_eq_of_lt (by omega))⟩

/-- One iteration of the loop body: the wait counter is left alone, or the
session is cleared, or (and then control leaves the loop) one is added to it. -/
theorem scanBody_wait (m : Machine) :
    (scanBody m).1.uiWaitCount = m.uiWaitCount ∨ IsCleared (scanBody m).1 ∨
      ((scanBody m).2 = false ∧ (scanBody m).1.uiWaitCount = m.uiWaitCount + 1) := by
  unfold scanBody
  simp only
  split
  · split
    · rcases scanDispatch_wait (logReads m [m.uiCheckIndex]) with h | h
      · exact Or.inl h
      · exact Or.inr (Or.inl h)
    · obtain ⟨h1, h | h⟩ := scanWait_wait (logReads m [m.uiCheckIndex])
      · exact Or.inr (Or.inr ⟨h1, h⟩)
      · exact Or.inr (Or.inl h)
  · exact Or.inl rfl

theorem scanLoop_isCleared (f : Nat) (m : Machine) (h : IsCleared m) :
    IsCleared (scanLoop f m) := by
  cases f with
  | zero => exact h
  | succ f =>
    rw [scanLoop, if_neg (by rw [h.1, h.2.1]; exact Nat.lt_irrefl 0)]
    exact h

theorem scanLoop_wait : ∀ (f : Nat) (m : Machine), WaitStep m (scanLoop f m) := by
  intro f
  induction f with
  | zero => intro m; exact Or.inl rfl
  | succ f ih =>
    intro m
    rw [scanLoop]
    split
    · have hb := scanBody_wait m
      rcases hs : scanBody m with ⟨m', b⟩
      rw [hs] at hb
      simp only at hb
      cases b with
      | true =>
        simp only
        rcases hb with hb | hb | ⟨hb, _⟩
        · rcases ih m' with h | h | h
          · exact Or.inl (h.trans hb)
          · exact Or.inr (Or.inl (by rw [h, hb]))
          · exact Or.inr (Or.inr h)
        · exact Or.inr (Or.inr (scanLoop_isCleared f m' hb))
        · cases hb
      | false =>
        simp only
        rcases hb with hb | hb | ⟨_, hb⟩
        · exact Or.inl hb
        · exact Or.inr (Or.inr hb)
        · exact Or.inr (Or.inl hb)
    · exact Or.inl rfl

theorem scanTail_wait (m : Machine) :
    WaitStep m (if PACKET_SIZE ≤ m.uiRxIndex then
      if (scanLoop 256 { m with uiCheckIndex := 0 }).fault.isSome &&
          (scanLoop 256 { m with uiCheckIndex := 0 }).hung then
        scanLoop 256 { m with uiCheckIndex := 0 }
      else if (scanLoop 256 { m with uiCheckIndex := 0 }).uiCheckIndex =
          (scanLoop 256 { m with uiCheckIndex := 0 }).uiRxIndex then
        MODBUS_ResetState (scanLoop 256 { m with uiCheckIndex := 0 })
      else scanLoop 256 { m with uiCheckIndex := 0 }
    else m) := by
  have hl : WaitStep m (scanLoop 256 { m with uiCheckIndex := 0 }) :=
    scanLoop_wait 256 { m with uiCheckIndex := 0 }
  split
  · split
    · exact hl
    · split
      · exact Or.inr (Or.inr (isCleared_reset _))
      · exact hl
  · exact Or.inl rfl

theorem scannerPass_wait (m : Machine) : WaitStep m (scannerPass m) := by
  by_cases hf : (m.fault.isSome && m.hung) = true
  · unfold scannerPass
    rw [if_pos hf]
    exact Or.inl rfl
  · unfold scannerPass
    rw [if_neg hf]
    by_cases he : m.bErrorFlag = true
    · simp only [he, if_true]
      rw [if_neg (by simp [ MODBUS_ResetState, PACKET_SIZE])]
      exact Or.inr (Or.inr (isCleared_reset m))
    · simp only [he, if_false]
      exact scanTail_wait m

theorem irq_wait (i : Irq) (m : Machine) :
    (UART_0_INST_IRQHandler i m).uiWaitCount = m.uiWaitCount := by
  unfold UART_0_INST_IRQHandler
  cases i <;> simp only [UART_transmitByte, recordFault] <;> (repeat' split) <;> rfl

/-- Every interrupt and every pass leaves the wait counter alone, adds one to it,
or ends in a state that `MODBUS_ResetState` has produced. -/
theorem step_wait (m : Machine) (e : Event) :
    (step m e).uiWaitCount = m.uiWaitCount ∨ (step m e).uiWaitCount = m.uiWaitCount + 1 ∨
      ∃ m', step m e = MODBUS_ResetState m' := by
  have h : WaitStep m (step m e) := by
    cases e with
    | irq i => exact Or.inl (irq_wait i m)
    | pass => exact scannerPass_wait m
  rcases h with h | h | h
  · exact Or.inl h
  · exact Or.inr (Or.inl h)
  · exact Or.inr (Or.inr ⟨_, resetState_of_isCleared _ h⟩)

/-- C16 (amended): the wait counter counts incomplete observations since the last
full reset, at whatever position they were made. A pass that stops at an
incomplete candidate at position `p` leaves the cursor at `p` and the counter at
its previous value plus one, for every previous cursor value (in particular when
the previous pass stopped at an earlier position) and every previous count below
`MAXWAITCOUNT`. The counter is cleared by `MODBUS_ResetState` only: every
interrupt and every pass, from every state, leaves the counter as it is, adds one
to it, or ends in a state that `MODBUS_ResetState` has produced. -/
theorem wait_counter_kept_on_advance (m : Machine) (p : Nat) (hf : m.fault = none)
    (he : m.bErrorFlag = false) (h8 : 8 ≤ m.uiRxIndex) (h2 : m.uiRxIndex ≤ 100)
    (hp : p < m.uiRxIndex) (hp8 : m.uiRxIndex < p + 8) (hd : m.uiRxBuff p = DEVICE_ID)
    (hskip : ∀ q, q < p → Skippable m.uiRxBuff m.uiRxIndex q)
    (hw : m.uiWaitCount < MAXWAITCOUNT) :
    ((scannerPass m).uiCheckIndex = p ∧ (scannerPass m).uiWaitCount = m.uiWaitCount + 1 ∧
      (scannerPass m).uiRxIndex = m.uiRxIndex ∧ (scannerPass m).fault = none) ∧
    ∀ (m0 : Machine) (e : Event),
      (step m0 e).uiWaitCount = m0.uiWaitCount ∨
      (step m0 e).uiWaitCount = m0.uiWaitCount + 1 ∨
      ∃ m', step m0 e = MODBUS_ResetState m' := by
  obtain ⟨log, hl⟩ := scannerPass_incomplete m p hf he h8 (by omega) hp hp8 hd hskip hw
  refine ⟨?_, step_wait⟩
  rw [hl]
  exact ⟨rfl, rfl, rfl, hf⟩

theorem wait_counter_kept_on_advance_witness :
    (advancedMachine.uiCheckIndex = 1 ∧ advancedMachine.uiWaitCount = 3) ∧
    ((scannerPass advancedMachine).uiCheckIndex = 8 ∧
      (scannerPass advancedMachine).uiWaitCount = 3 + 1 ∧
      (scannerPass advancedMachine).uiRxIndex = advancedMachine.uiRxIndex ∧
      (scannerPass advancedMachine).fault = none) ∧
    ∀ (m0 : Machine) (e : Event),
      (step m0 e).uiWaitCount = m0.uiWaitCount ∨
      (step m0 e).uiWaitCount = m0.uiWaitCount + 1 ∨
      ∃ m', step m0 e = MODBUS_ResetState m' :=
  ⟨by decide, wait_counter_kept_on_advance advancedMachine 8 rfl rfl (by decide) (by decide)
    (by decide) (by decide) (by decide) (by decide) (by decide)⟩

/-! ## Reads of the receive buffer, after a fault as before -/

theorem logReads_inBuffer (m : Machine) (l : List Nat) (h : ReadsInBuffer m)
    (hn : m.uiRxIndex ≤ BUFFER_SIZE) : ReadsInBuffer (logReads m l) := by
  intro r hr
  simp only [logReads, List.mem_append, List.mem_map] at hr
  rcases hr with hr | ⟨i, _, rfl⟩
  · exact h r hr
  · exact hn

theorem readsInBuffer_of_eq {m m' : Machine} (h : m'.rxReads = m.rxReads)
    (hm : ReadsInBuffer m) : ReadsInBuffer m' := by
  intro r hr; rw [h] at hr; exact hm r hr

theorem scanRespond_inBuffer (m : Machine) (h : ReadsInBuffer m)
    (hn : m.uiRxIndex ≤ BUFFER_SIZE) : ReadsInBuffer (scanRespond m).1 := by
  have h1 := logReads_inBuffer m (MODBUS_PrepareResponse_reads m.uiCheckIndex) h hn
  unfold scanRespond
  simp only
  split
  · split
    · exact readsInBuffer_of_eq rfl h1
    · exact readsInBuffer_of_eq rfl h1
  · exact readsInBuffer_of_eq rfl h1

theorem scanDispatch_inBuffer (m : Machine) (h : ReadsInBuffer m)
    (hn : m.uiRxIndex ≤ BUFFER_SIZE) : ReadsInBuffer (scanDispatch m).1 := by
  have h1 := logReads_inBuffer m [m.uiCheckIndex + 1] h hn
  have h2 := logReads_inBuffer (logReads m [m.uiCheckIndex + 1])
    (MODBUS_VerifyChecksum_reads m.uiCheckIndex) h1 hn
  unfold scanDispatch
  simp only
  split
  · split
    · exact readsInBuffer_of_eq rfl h2
    · exact scanRespond_inBuffer _ h2 hn
    · exact readsInBuffer_of_eq rfl h2
  · exact readsInBuffer_of_eq rfl h1

theorem scanBody_inBuffer (m : Machine) (h : ReadsInBuffer m)
    (hn : m.uiRxIndex ≤ BUFFER_SIZE) : ReadsInBuffer (scanBody m).1 := by
  have h1 := logReads_inBuffer m [m.uiCheckIndex] h hn
  unfold scanBody
  simp only
  split
  · split
    · exact scanDispatch_inBuffer _ h1 hn
    · unfold scanWait
      split
      · exact readsInBuffer_of_eq rfl h1
      · exact readsInBuffer_of_eq rfl h1
  · exact readsInBuffer_of_eq rfl h1

theorem scanLoop_inBuffer (f : Nat) :
    ∀ m : Machine, SessionInv m → ReadsInBuffer m → ReadsInBuffer (scanLoop f m) := by
  induction f with
  | zero => intro m _ h; exact readsInBuffer_of_eq rfl h
  | succ f ih =>
    intro m hs h
    rw [scanLoop]
    split
    · rename_i hc
      have hb := scanBody_inBuffer m h hs.2.1
      have hi := scanBody_sessionInv m hs hc
      rcases hq : scanBody m with ⟨m', b⟩
      rw [hq] at hb hi
      cases b with
      | true => exact ih m' hi hb
      | false => exact hb
    · exact h

theorem scanTail_inBuffer (m : Machine) (hs : SessionInv m) (h : ReadsInBuffer m) :
    ReadsInBuffer (if PACKET_SIZE ≤ m.uiRxIndex then
      if (scanLoop 256 { m with uiCheckIndex := 0 }).fault.isSome &&
          (scanLoop 256 { m with uiCheckIndex := 0 }).hung then
        scanLoop 256 { m with uiCheckIndex := 0 }
      else if (scanLoop 256 { m with uiCheckIndex := 0 }).uiCheckIndex =
          (scanLoop 256 { m with uiCheckIndex := 0 }).uiRxIndex then
        MODBUS_ResetState (scanLoop 256 { m with uiCheckIndex := 0 })
      else scanLoop 256 { m with uiCheckIndex := 0 }
    else m) := by
  have hl : ReadsInBuffer (scanLoop 256 { m with uiCheckIndex := 0 }) :=
    scanLoop_inBuffer 256 _ ⟨Nat.zero_le _, hs.2.1, hs.2.2⟩ (readsInBuffer_of_eq rfl h)
  split
  · split
    · exact hl
    · split
      · exact readsInBuffer_of_eq rfl hl
      · exact hl
  · exact h

theorem scannerPass_inBuffer (m : Machine) (hs : SessionInv m) (h : ReadsInBuffer m) :
    ReadsInBuffer (scannerPass m) := by
  by_cases hf : (m.fault.isSome && m.hung) = true
  · unfold scannerPass
    rw [if_pos hf]
    exact h
  · unfold scannerPass
    rw [if_neg hf]
    by_cases he : m.bErrorFlag = true
    · simp only [he, if_true]
      exact scanTail_inBuffer _ (sessionInv_reset m) (readsInBuffer_of_eq rfl h)
    · simp only [he, if_false]
      exact scanTail_inBuffer _ hs h

theorem run_inBuffer (es : List Event) :
    ∀ m : Machine, SessionInv m → ReadsInBuffer m → ReadsInBuffer (run es m) := by
  induction es with
  | nil => intro m _ h; exact h
  | cons e es ih =>
    intro m hs h
    refine ih _ (step_sessionInv m e hs) ?_
    cases e with
    | irq i => exact readsInBuffer_of_eq (irq_rxReads i m) h
    | pass => exact scannerPass_inBuffer m hs h

/-- C10: from start-up, through every sequence of interrupts (received bytes
among them) and scanner passes, whatever the requests received (in range or not)
and whatever the memory outside the arrays holds, every read of `uiRxBuff` made by
a pass (in the scan loop, in `MODBUS_VerifyChecksum` and in
`MODBUS_PrepareResponse`) is at an index strictly below `uiRxIndex` at the time
of the read, which is at most `BUFFER_SIZE` = 100: no read of the receive buffer
is out of bounds. -/
theorem scanner_reads_in_bounds (outside : Nat → Nat → Nat) (spin : Nat → Byte)
    (es : List Event) :
    ∀ r, r ∈ (run es (bootWith outside spin)).rxReads → r.1 < r.2 ∧ r.2 ≤ 100 :=
  fun r hr =>
    ⟨run_inBounds es (bootWith outside spin) (fun r hr => by simp [bootWith, boot] at hr) r hr,
      run_inBuffer es (bootWith outside spin) ⟨Nat.le_refl 0, Nat.zero_le _, Nat.zero_le _⟩
        (fun r hr => by simp [bootWith, boot] at hr) r hr⟩

theorem scanner_reads_in_bounds_witness :
    ((run overRangeEvents boot).fault = some (.registerIndex 10) ∧
      (8, 9) ∈ (run (overRangeEvents ++ [.irq (.RX 0x00), .pass]) boot).rxReads) ∧
    (8, 9).1 < (8, 9).2 ∧ (8, 9).2 ≤ 100 :=
  ⟨by decide, scanner_reads_in_bounds (fun _ _ => 0) (fun _ => 0)
    (overRangeEvents ++ [.irq (.RX 0x00), .pass]) (8, 9) (by decide)⟩

/-! ## When a pass transmits -/

end Modbus
